import Mathlib

/-!
Verification of the list-algorithms core of `queue.c`: a double-ended queue
built on an intrusive circular doubly-linked list.  Elements carry
null-terminated byte strings; comparisons are byte-lexicographic (`strcmp`).

The development shallowly embeds the C functions:
sequence-level models act on the head-to-tail sequence of payloads
(the contents of the ring, sentinel excluded), and a pointer-level model
(`PS`, further below) represents the `next`/`prev` fields themselves for the
link-surgery invariants.
-/

namespace QueueC

/-- A stored payload: the bytes of a C string, terminator excluded.
`strlen` stops at the first zero byte, so stored bytes are conceptually
nonzero, but no lemma below needs that restriction. -/
abbrev Str := List Nat

/-- Byte-lexicographic comparison of two null-terminated strings, as C
`strcmp` computes it on the stored buffers: compare byte by byte; at the end
of one string its terminator byte 0 is smaller than any remaining nonzero
byte, so a strict prefix is smaller. -/
def strcmp : Str → Str → Ordering
  | [], [] => .eq
  | [], _ :: _ => .lt
  | _ :: _, [] => .gt
  | a :: as, b :: bs => if a < b then .lt else if b < a then .gt else strcmp as bs

theorem strcmp_self (a : Str) : strcmp a a = .eq := by
  induction a with
  | nil => rfl
  | cons x xs ih => simp [strcmp, ih]

theorem strcmp_eq_iff {a b : Str} : strcmp a b = .eq ↔ a = b := by
  induction a generalizing b with
  | nil => cases b <;> simp [strcmp]
  | cons x xs ih =>
    cases b with
    | nil => simp [strcmp]
    | cons y ys =>
      by_cases hxy : x < y
      · simp [strcmp, hxy]
        omega
      · by_cases hyx : y < x
        · simp [strcmp, hxy, hyx]
          omega
        · have hxy2 : x = y := by omega
          simp [strcmp, hxy, hyx, hxy2, ih]

theorem strcmp_gt_iff {a b : Str} : strcmp a b = .gt ↔ strcmp b a = .lt := by
  induction a generalizing b with
  | nil => cases b <;> simp [strcmp]
  | cons x xs ih =>
    cases b with
    | nil => simp [strcmp]
    | cons y ys =>
      by_cases hxy : x < y
      · have : ¬ y < x := by omega
        simp [strcmp, hxy, this]
      · by_cases hyx : y < x
        · simp [strcmp, hxy, hyx]
        · simp [strcmp, hxy, hyx, ih]

theorem strcmp_lt_trans {a b c : Str} (h1 : strcmp a b = .lt) (h2 : strcmp b c = .lt) :
    strcmp a c = .lt := by
  induction a generalizing b c with
  | nil =>
    cases c with
    | nil => cases b <;> simp_all [strcmp]
    | cons z zs => simp [strcmp]
  | cons x xs ih =>
    cases b with
    | nil => simp [strcmp] at h1
    | cons y ys =>
      cases c with
      | nil => simp [strcmp] at h2
      | cons z zs =>
        by_cases hxy : x < y <;> by_cases hyz : y < z
        · have hxz : x < z := by omega
          simp [strcmp, hxz]
        · by_cases hzy : z < y
          · simp [strcmp, hyz, hzy] at h2
          · have hyz2 : y = z := by omega
            have hxz : x < z := by omega
            simp [strcmp, hxz]
        · by_cases hyx : y < x
          · simp [strcmp, hxy, hyx] at h1
          · have hxy2 : x = y := by omega
            have hxz : x < z := by omega
            simp [strcmp, hxz]
        · by_cases hyx : y < x
          · simp [strcmp, hxy, hyx] at h1
          · by_cases hzy : z < y
            · simp [strcmp, hyz, hzy] at h2
            · have hxy2 : x = y := by omega
              have hyz2 : y = z := by omega
              subst hxy2; subst hyz2
              have hxx : ¬ x < x := by omega
              simp [strcmp, hxx] at h1 h2 ⊢
              exact ih h1 h2

/-- `strcmp a b <= 0` in the C sources. -/
def sle (a b : Str) : Bool := (strcmp a b).isLE

theorem sle_iff {a b : Str} : sle a b = true ↔ strcmp a b = .lt ∨ a = b := by
  unfold sle
  cases h : strcmp a b <;> simp [Ordering.isLE, strcmp_eq_iff.symm, h]

theorem not_sle {a b : Str} (h : sle a b = false) : strcmp b a = .lt := by
  unfold sle at h
  cases hc : strcmp a b <;> simp [hc, Ordering.isLE] at h ⊢
  exact strcmp_gt_iff.mp hc

theorem sle_trans {a b c : Str} (h1 : sle a b = true) (h2 : sle b c = true) :
    sle a c = true := by
  rcases sle_iff.mp h1 with h1 | rfl
  · rcases sle_iff.mp h2 with h2 | rfl
    · exact sle_iff.mpr (Or.inl (strcmp_lt_trans h1 h2))
    · exact sle_iff.mpr (Or.inl h1)
  · exact h2

theorem lt_of_lt_of_sle {a b c : Str} (h1 : strcmp a b = .lt) (h2 : sle b c = true) :
    strcmp a c = .lt := by
  rcases sle_iff.mp h2 with h2 | rfl
  · exact strcmp_lt_trans h1 h2
  · exact h1

theorem sle_total (a b : Str) : sle a b = true ∨ sle b a = true := by
  by_cases h : sle a b = true
  · exact Or.inl h
  · have := not_sle (by simpa using h)
    exact Or.inr (sle_iff.mpr (Or.inl this))

/-!
### `q_sort`: bottom-up merge sort (sequence level)

The C code breaks the ring into a null-terminated singly-linked chain, keeps a
stack of pending sorted runs threaded through `prev` fields, and drives merges
with a binary counter.  The sequence-level embedding represents a run as a
`List Elem` and the pending stack as a `List (List Elem)` with the newest run
first (the stack is `prev`-linked from newest to oldest in C).

Elements are tagged with their input position (`Nat`) so that stability is
expressible; `q_sort` never inspects the tag.
-/

/-- An element for the sort model: input position together with payload. -/
abbrev Elem := Nat × Str

/-- The `merge` function of `queue.c`: thread two chains in ascending order,
taking the left (older) chain's node on ties (`strcmp <= 0`).  In the source it
is only reached with both chains non-empty; when one chain runs out the other
is appended wholesale (`*tail = b; break`), which the `[]` cases render. -/
def merge : List Elem → List Elem → List Elem
  | [], b => b
  | a, [] => a
  | x :: xs, y :: ys =>
    if sle x.2 y.2 then x :: merge xs (y :: ys) else y :: merge (x :: xs) ys

/-- Number of trailing one bits of `count`: how far the C loop
`for (bits = count; bits & 1; bits >>= 1) tail = &(*tail)->prev;`
walks down the pending stack. -/
def trailingOnes (n : Nat) : Nat :=
  if h : n % 2 = 1 then trailingOnes (n / 2) + 1 else 0
termination_by n
decreasing_by exact Nat.div_lt_self (by omega) (by omega)

/-- Merge the runs at depth `k` and `k + 1` of the pending stack (newest
first): `newer = *tail`, `older = newer->prev`, replaced by
`merge(older, newer)` whose `prev` becomes `older->prev`.  Unreachable
shapes (stack too short) are returned unchanged. -/
def mergeAt : List (List Elem) → Nat → List (List Elem)
  | newer :: older :: rest, 0 => merge older newer :: rest
  | r :: rest, n + 1 => r :: mergeAt rest n
  | l, _ => l

/-- One driver step before a new node is pushed: walk past the trailing one
bits of `count`; if a nonzero bit remains, merge the two pending runs there. -/
def mergeStep (pending : List (List Elem)) (count : Nat) : List (List Elem) :=
  let k := trailingOnes count
  if count >>> k ≠ 0 then mergeAt pending k else pending

/-- The `do { ... } while (list)` loop of `q_sort`: for each input node,
perform the counter-driven merge, then push the node as a fresh
single-element run. -/
def buildPending : List Elem → Nat → List (List Elem) → List (List Elem)
  | [], _, pending => pending
  | x :: xs, count, pending => buildPending xs (count + 1) ([x] :: mergeStep pending count)

/-- The final loops of `q_sort`: starting from the newest run (`list`), merge
in ever older pending runs (`merge(pending, list)`, older run on the left),
and perform the last merge via `merge_restore` — whose element order is that
of `merge` (same comparisons, same tie-breaking), while it also rebuilds the
`prev` pointers (covered by the pointer-level model below). -/
def collapse : List (List Elem) → List Elem → List Elem
  | [], acc => acc
  | [p], acc => merge p acc
  | p :: rest, acc => collapse rest (merge p acc)

/-- `q_sort` on the non-trivial path: build the pending stack, then collapse
it.  The empty-stack case is unreachable (the input has at least one node). -/
def q_sort_core (l : List Elem) : List Elem :=
  match buildPending l 0 [] with
  | [] => []
  | p :: rest => collapse rest p

/-- `q_sort` body: `list == head->prev` detects an empty or singular ring and
returns without touching it. -/
def q_sort (l : List Elem) : List Elem :=
  if l.length ≤ 1 then l else q_sort_core l

/-- `q_sort` entry: a NULL queue head is left untouched. -/
def q_sortTop : Option (List Elem) → Option (List Elem)
  | none => none
  | some l => some (q_sort l)

/-- Strict key order: smaller payload, or equal payload and earlier input
position.  A run sorted under `keyLt` is both payload-sorted and stable. -/
def keyLt (a b : Elem) : Prop := strcmp a.2 b.2 = .lt ∨ (a.2 = b.2 ∧ a.1 < b.1)

/-- Every tag of `r` is below every tag of `s`. -/
def Below (r s : List Elem) : Prop := ∀ a ∈ r, ∀ b ∈ s, a.1 < b.1

theorem keyLt_of_sle {a b : Elem} (h : sle a.2 b.2 = true) (hid : a.1 < b.1) :
    keyLt a b := by
  rcases sle_iff.mp h with h | h
  · exact Or.inl h
  · exact Or.inr ⟨h, hid⟩

theorem keyLt_sle {a b : Elem} (h : keyLt a b) : sle a.2 b.2 = true := by
  rcases h with h | ⟨h, _⟩
  · exact sle_iff.mpr (Or.inl h)
  · exact sle_iff.mpr (Or.inr h)

theorem merge_perm (a b : List Elem) : List.Perm (merge a b) (a ++ b) := by
  induction a generalizing b with
  | nil => cases b <;> simp [merge]
  | cons x xs iha =>
    induction b with
    | nil => simp [merge]
    | cons y ys ihb =>
      cases h : sle x.2 y.2
      · simp only [merge, h, Bool.false_eq_true, if_false]
        exact (ihb.cons y).trans List.perm_middle.symm
      · simp only [merge, h, if_true]
        exact (iha (y :: ys)).cons x

theorem mem_merge {z : Elem} {a b : List Elem} :
    z ∈ merge a b ↔ z ∈ a ∨ z ∈ b :=
  (merge_perm a b).mem_iff.trans List.mem_append

theorem merge_sorted : ∀ a b : List Elem, a.Pairwise keyLt → b.Pairwise keyLt →
    Below a b → (merge a b).Pairwise keyLt := by
  intro a
  induction a with
  | nil =>
    intro b _ hb _
    cases b
    · simp [merge]
    · simpa [merge] using hb
  | cons x xs iha =>
    intro b
    induction b with
    | nil => intro ha _ _; simpa [merge] using ha
    | cons y ys ihb =>
      intro ha hb hab
      cases h : sle x.2 y.2
      · simp only [merge, h, Bool.false_eq_true, if_false]
        refine List.pairwise_cons.mpr ⟨?_, ?_⟩
        · intro z hz
          have hyx : strcmp y.2 x.2 = .lt := not_sle h
          rcases mem_merge.mp hz with hz | hz
          · rcases List.mem_cons.mp hz with rfl | hz
            · exact Or.inl hyx
            · have hxz : keyLt x z := (List.pairwise_cons.mp ha).1 z hz
              exact Or.inl (lt_of_lt_of_sle hyx (keyLt_sle hxz))
          · exact (List.pairwise_cons.mp hb).1 z hz
        · refine ihb ha (List.pairwise_cons.mp hb).2 ?_
          intro p hp q hq
          exact hab p hp q (List.mem_cons_of_mem y hq)
      · simp only [merge, h, if_true]
        refine List.pairwise_cons.mpr ⟨?_, ?_⟩
        · intro z hz
          rcases mem_merge.mp hz with hz | hz
          · exact (List.pairwise_cons.mp ha).1 z hz
          · have hid : x.1 < z.1 := hab x (List.mem_cons_self x xs) z hz
            rcases List.mem_cons.mp hz with rfl | hz
            · exact keyLt_of_sle h hid
            · have hyz : keyLt y z := (List.pairwise_cons.mp hb).1 z hz
              exact keyLt_of_sle (sle_trans h (keyLt_sle hyz)) hid
        · refine iha (y :: ys) (List.pairwise_cons.mp ha).2 hb ?_
          intro p hp q hq
          exact hab p (List.mem_cons_of_mem x hp) q hq

/-- The pending-stack invariant: every run is sorted, and newer runs (earlier
in the stack) hold strictly later input positions than older runs. -/
def StackInv (P : List (List Elem)) : Prop :=
  (∀ r ∈ P, r.Pairwise keyLt) ∧ P.Pairwise (fun newer older => Below older newer)

theorem mergeAt_inv : ∀ (P : List (List Elem)) (k : Nat), StackInv P →
    StackInv (mergeAt P k) ∧ List.Perm (mergeAt P k).flatten P.flatten := by
  intro P
  induction P with
  | nil => intro k _; cases k <;> simp [mergeAt, StackInv]
  | cons r P ih =>
    intro k hP
    obtain ⟨hruns, hblocks⟩ := hP
    cases k with
    | zero =>
      cases P with
      | nil => exact ⟨⟨hruns, hblocks⟩, List.Perm.refl _⟩
      | cons older rest =>
        have hno : Below older r := (List.pairwise_cons.mp hblocks).1 older
          (List.mem_cons_self older rest)
        constructor
        · constructor
          · intro q hq
            rcases List.mem_cons.mp hq with rfl | hq
            · exact merge_sorted older r
                (hruns older (List.mem_cons_of_mem r (List.mem_cons_self older rest)))
                (hruns r (List.mem_cons_self r (older :: rest))) hno
            · exact hruns q (List.mem_cons_of_mem r (List.mem_cons_of_mem older hq))
          · refine List.pairwise_cons.mpr ⟨?_, (List.pairwise_cons.mp
              (List.pairwise_cons.mp hblocks).2).2⟩
            intro q hq a ha b hb
            rcases mem_merge.mp hb with hb | hb
            · exact (List.pairwise_cons.mp (List.pairwise_cons.mp hblocks).2).1 q hq a ha b hb
            · exact (List.pairwise_cons.mp hblocks).1 q (List.mem_cons_of_mem older hq) a ha b hb
        · simp only [mergeAt, List.flatten_cons]
          have h1 : List.Perm (merge older r ++ rest.flatten) ((older ++ r) ++ rest.flatten) :=
            (merge_perm older r).append_right _
          have h2 : List.Perm ((older ++ r) ++ rest.flatten) ((r ++ older) ++ rest.flatten) :=
            List.perm_append_comm.append_right _
          refine h1.trans (h2.trans ?_)
          simp [List.append_assoc]
    | succ k =>
      have hstep : mergeAt (r :: P) (k + 1) = r :: mergeAt P k := by
        cases P <;> rfl
      rw [hstep]
      have htail : StackInv P :=
        ⟨fun q hq => hruns q (List.mem_cons_of_mem r hq), (List.pairwise_cons.mp hblocks).2⟩
      obtain ⟨⟨hruns2, hblocks2⟩, hperm⟩ := ih k htail
      refine ⟨⟨?_, ?_⟩, ?_⟩
      · intro q hq
        rcases List.mem_cons.mp hq with rfl | hq
        · exact hruns q (List.mem_cons_self q P)
        · exact hruns2 q hq
      · refine List.pairwise_cons.mpr ⟨?_, hblocks2⟩
        intro q hq a ha b hb
        have haP : a ∈ P.flatten := (hperm.mem_iff).mp (List.mem_flatten.mpr ⟨q, hq, ha⟩)
        obtain ⟨q0, hq0, haq0⟩ := List.mem_flatten.mp haP
        exact (List.pairwise_cons.mp hblocks).1 q0 hq0 a haq0 b hb
      · simpa using hperm.append_left r

theorem mergeStep_inv (P : List (List Elem)) (count : Nat) (h : StackInv P) :
    StackInv (mergeStep P count) ∧ List.Perm (mergeStep P count).flatten P.flatten := by
  unfold mergeStep
  by_cases hc : count >>> trailingOnes count ≠ 0
  · simpa [hc] using mergeAt_inv P (trailingOnes count) h
  · simpa [hc] using h

theorem buildPending_inv : ∀ (rest : List Elem) (count : Nat) (P : List (List Elem)),
    StackInv P →
    (∀ a ∈ P.flatten, ∀ b ∈ rest, a.1 < b.1) →
    rest.Pairwise (fun a b => a.1 < b.1) →
    StackInv (buildPending rest count P) ∧
      List.Perm (buildPending rest count P).flatten (P.flatten ++ rest) := by
  intro rest
  induction rest with
  | nil =>
    intro count P hP _ _
    refine ⟨by simpa [buildPending] using hP, by simp [buildPending]⟩
  | cons x xs ih =>
    intro count P hP hahead hinc
    obtain ⟨hP1, hperm1⟩ := mergeStep_inv P count hP
    have hmem1 : ∀ a ∈ (mergeStep P count).flatten, a ∈ P.flatten :=
      fun a ha => (hperm1.mem_iff).mp ha
    have hP2 : StackInv ([x] :: mergeStep P count) := by
      constructor
      · intro q hq
        rcases List.mem_cons.mp hq with rfl | hq
        · simp
        · exact hP1.1 q hq
      · refine List.pairwise_cons.mpr ⟨?_, hP1.2⟩
        intro q hq a ha b hb
        rcases List.mem_cons.mp hb with rfl | hb
        · exact hahead a (hmem1 a (List.mem_flatten.mpr ⟨q, hq, ha⟩)) b
            (List.mem_cons_self b xs)
        · cases hb
    have hahead2 : ∀ a ∈ ([x] :: mergeStep P count).flatten, ∀ b ∈ xs, a.1 < b.1 := by
      intro a ha b hb
      simp only [List.flatten_cons, List.mem_append] at ha
      rcases ha with ha | ha
      · rcases List.mem_singleton.mp ha with rfl
        exact (List.pairwise_cons.mp hinc).1 b hb
      · exact hahead a (hmem1 a ha) b (List.mem_cons_of_mem x hb)
    obtain ⟨hPf, hpermf⟩ := ih (count + 1) ([x] :: mergeStep P count) hP2 hahead2
      (List.pairwise_cons.mp hinc).2
    refine ⟨hPf, ?_⟩
    refine hpermf.trans ?_
    simp only [List.flatten_cons, List.singleton_append]
    have h3 : List.Perm (x :: (mergeStep P count).flatten) (x :: P.flatten) := hperm1.cons x
    refine (h3.append_right xs).trans ?_
    have : List.Perm (x :: P.flatten) (P.flatten ++ [x]) := by
      simpa using (@List.perm_middle _ x P.flatten []).symm
    refine (this.append_right xs).trans ?_
    simp [List.append_assoc]

theorem collapse_inv : ∀ (P : List (List Elem)) (acc : List Elem),
    StackInv P →
    acc.Pairwise keyLt →
    (∀ a ∈ P.flatten, ∀ b ∈ acc, a.1 < b.1) →
    (collapse P acc).Pairwise keyLt ∧
      List.Perm (collapse P acc) (P.flatten ++ acc) := by
  intro P
  induction P with
  | nil =>
    intro acc _ hacc _
    refine ⟨by simpa [collapse] using hacc, by simp [collapse]⟩
  | cons p P ih =>
    intro acc hP hacc hahead
    have hpsorted : p.Pairwise keyLt := hP.1 p (List.mem_cons_self p P)
    have hpacc : Below p acc := by
      intro a ha b hb
      exact hahead a (List.mem_flatten.mpr ⟨p, List.mem_cons_self p P, ha⟩) b hb
    have hmsorted : (merge p acc).Pairwise keyLt := merge_sorted p acc hpsorted hacc hpacc
    have hmperm : List.Perm (merge p acc) (p ++ acc) := merge_perm p acc
    cases P with
    | nil =>
      refine ⟨hmsorted, ?_⟩
      simpa [collapse] using hmperm
    | cons q Q =>
      have hstep : collapse (p :: q :: Q) acc = collapse (q :: Q) (merge p acc) := rfl
      rw [hstep]
      have htail : StackInv (q :: Q) :=
        ⟨fun r hr => hP.1 r (List.mem_cons_of_mem p hr), (List.pairwise_cons.mp hP.2).2⟩
      have hahead2 : ∀ a ∈ (q :: Q).flatten, ∀ b ∈ merge p acc, a.1 < b.1 := by
        intro a ha b hb
        obtain ⟨r, hr, har⟩ := List.mem_flatten.mp ha
        rcases mem_merge.mp hb with hb | hb
        · exact (List.pairwise_cons.mp hP.2).1 r hr a har b hb
        · exact hahead a (List.mem_flatten.mpr ⟨r, List.mem_cons_of_mem p hr, har⟩) b hb
      obtain ⟨hsorted2, hperm2⟩ := ih (merge p acc) htail hmsorted hahead2
      refine ⟨hsorted2, ?_⟩
      refine hperm2.trans ?_
      refine (hmperm.append_left _).trans ?_
      have hcomm : List.Perm ((q :: Q).flatten ++ p) (p ++ (q :: Q).flatten) :=
        List.perm_append_comm
      have e1 : (q :: Q).flatten ++ (p ++ acc) = ((q :: Q).flatten ++ p) ++ acc := by
        rw [List.append_assoc]
      rw [e1]
      refine (hcomm.append_right acc).trans ?_
      have e2 : (p ++ (q :: Q).flatten) ++ acc = (p :: q :: Q).flatten ++ acc := by
        simp [List.append_assoc]
      rw [e2]

theorem pairwise_fst_lt_enumFrom : ∀ (l : List Str) (n : Nat),
    (l.enumFrom n).Pairwise (fun a b : Elem => a.1 < b.1)
  | [], _ => by simp
  | x :: xs, n => by
    rw [show (x :: xs).enumFrom n = (n, x) :: xs.enumFrom (n + 1) from by simp [List.enumFrom]]
    refine List.pairwise_cons.mpr ⟨?_, pairwise_fst_lt_enumFrom xs (n + 1)⟩
    intro b hb
    obtain ⟨i, v⟩ := b
    have := (List.mk_mem_enumFrom_iff_le_and_getElem?_sub.mp hb).1
    omega

/-- `q_sort` sorts its input under `keyLt` and permutes it, for any input whose
tags strictly increase. -/
theorem q_sort_sorted_perm (l : List Elem) (hinc : l.Pairwise (fun a b => a.1 < b.1)) :
    (q_sort l).Pairwise keyLt ∧ List.Perm (q_sort l) l := by
  unfold q_sort
  by_cases hlen : l.length ≤ 1
  · simp only [hlen, if_true]
    refine ⟨?_, List.Perm.refl l⟩
    cases l with
    | nil => simp
    | cons x xs =>
      cases xs with
      | nil => simp
      | cons y ys => simp at hlen
  · simp only [hlen, if_false]
    unfold q_sort_core
    obtain ⟨⟨hruns, hblocks⟩, hperm⟩ :=
      buildPending_inv l 0 [] ⟨by simp, by simp⟩ (by simp) hinc
    rcases hB : buildPending l 0 [] with _ | ⟨p, rest⟩
    · rw [hB] at hperm
      simp at hperm
      simp [hperm] at hlen
    · rw [hB] at hruns hblocks hperm
      have htail : StackInv rest :=
        ⟨fun r hr => hruns r (List.mem_cons_of_mem p hr), (List.pairwise_cons.mp hblocks).2⟩
      have hahead : ∀ a ∈ rest.flatten, ∀ b ∈ p, a.1 < b.1 := by
        intro a ha b hb
        obtain ⟨q, hq, haq⟩ := List.mem_flatten.mp ha
        exact (List.pairwise_cons.mp hblocks).1 q hq a haq b hb
      obtain ⟨hsorted, hcperm⟩ :=
        collapse_inv rest p htail (hruns p (List.mem_cons_self p rest)) hahead
      refine ⟨hsorted, ?_⟩
      refine hcperm.trans (List.perm_append_comm.trans ?_)
      simpa using hperm

/-- **C1**: after `q_sort`, the payload sequence is non-decreasing under
byte-lexicographic comparison, the multiset of payloads equals the input
multiset, and elements with equal payloads keep their relative input order
(each input payload tagged with its position); `q_sort` is a no-op on an
absent (NULL), empty, or singleton list. -/
theorem q_sort_spec :
    (∀ vals : List Str,
      List.Perm ((q_sort vals.enum).map Prod.snd) vals ∧
      (q_sort vals.enum).Pairwise (fun a b => sle a.2 b.2 = true) ∧
      (q_sort vals.enum).Pairwise (fun a b => a.2 = b.2 → a.1 < b.1)) ∧
    q_sortTop none = none ∧
    q_sort ([] : List Elem) = [] ∧
    (∀ x : Elem, q_sort [x] = [x]) := by
  refine ⟨?_, rfl, rfl, fun x => rfl⟩
  intro vals
  have hinc : (vals.enum).Pairwise (fun a b : Elem => a.1 < b.1) := by
    simpa [List.enum] using pairwise_fst_lt_enumFrom vals 0
  obtain ⟨hsorted, hperm⟩ := q_sort_sorted_perm vals.enum hinc
  refine ⟨?_, ?_, ?_⟩
  · have := hperm.map Prod.snd
    rwa [List.enum_map_snd] at this
  · exact hsorted.imp fun {a b} h => keyLt_sle h
  · refine hsorted.imp ?_
    intro a b h heq
    rcases h with h | ⟨_, h⟩
    · rw [heq, strcmp_self] at h
      cases h
    · exact h

/-!
### `q_delete_dup`

`list_for_each_entry_safe` walks the list once; a node is deleted when its
payload equals its successor's (`cmp_result`), or when the previous iteration
found such an equality (`found_dup`).  When the node is last, the
`elm->list.next != head` guard short-circuits the comparison.
-/

theorem sle_antisymm {a b : Str} (h1 : sle a b = true) (h2 : sle b a = true) : a = b := by
  rcases sle_iff.mp h1 with h1 | rfl
  · rcases sle_iff.mp h2 with h2 | rfl
    · have := strcmp_gt_iff.mpr h2
      rw [h1] at this
      cases this
    · rfl
  · rfl

/-- The deletion loop of `q_delete_dup`; `found` is the `found_dup` carry
flag. -/
def delDupLoop : List Str → Bool → List Str
  | [], _ => []
  | x :: rest, found =>
    let cmp : Bool := match rest with
      | [] => false
      | y :: _ => strcmp x y == .eq
    if cmp || found then delDupLoop rest cmp else x :: delDupLoop rest found

/-- `q_delete_dup`: `false` on a NULL handle; immediate success on an empty or
singular list; otherwise run the deletion loop with the flag clear. -/
def q_delete_dup : Option (List Str) → Bool × Option (List Str)
  | none => (false, none)
  | some l =>
    if l.length ≤ 1 then (true, some l) else (true, some (delDupLoop l false))

theorem delDupLoop_cons_cons (x y : Str) (t : List Str) (found : Bool) :
    delDupLoop (x :: y :: t) found =
      if ((strcmp x y == Ordering.eq) || found) = true then
        delDupLoop (y :: t) (strcmp x y == Ordering.eq)
      else x :: delDupLoop (y :: t) found := rfl

theorem delDupLoop_single (x : Str) (found : Bool) :
    delDupLoop [x] found = if found then [] else [x] := by
  cases found <;> rfl

theorem cmp_false_of_ne {x y : Str} (h : y ≠ x) :
    (strcmp x y == Ordering.eq) = false := by
  cases hc : strcmp x y
  · rfl
  · exact absurd (strcmp_eq_iff.mp hc).symm h
  · rfl

theorem delDupLoop_replicate_true (a : Str) (rest : List Str)
    (hr : ∀ y ∈ rest.head?, y ≠ a) :
    ∀ m, 1 ≤ m → delDupLoop (List.replicate m a ++ rest) true = delDupLoop rest false := by
  intro m
  induction m with
  | zero => omega
  | succ k ih =>
    intro _
    cases k with
    | zero =>
      rcases hrest : rest with _ | ⟨y, ys⟩
      · rfl
      · have hy : y ≠ a := hr y (by simp [hrest])
        rw [List.replicate_one, List.singleton_append, delDupLoop_cons_cons,
          cmp_false_of_ne hy]
        simp
    | succ k2 =>
      rw [show List.replicate (k2 + 2) a ++ rest =
          a :: (List.replicate (k2 + 1) a ++ rest) from by simp [List.replicate_succ]]
      rw [show a :: (List.replicate (k2 + 1) a ++ rest) =
          a :: a :: (List.replicate k2 a ++ rest) from by simp [List.replicate_succ]]
      rw [delDupLoop_cons_cons, strcmp_self,
        show (Ordering.eq == Ordering.eq) = true from rfl]
      simp only [Bool.true_or, if_pos rfl]
      rw [show a :: (List.replicate k2 a ++ rest) =
          List.replicate (k2 + 1) a ++ rest from by simp [List.replicate_succ]]
      exact ih (by omega)

theorem delDupLoop_replicate_false (a : Str) (rest : List Str)
    (hr : ∀ y ∈ rest.head?, y ≠ a) (m : Nat) (hm : 1 ≤ m) :
    delDupLoop (List.replicate m a ++ rest) false =
      if m = 1 then a :: delDupLoop rest false else delDupLoop rest false := by
  cases m with
  | zero => omega
  | succ k =>
    cases k with
    | zero =>
      rw [if_pos rfl]
      rcases hrest : rest with _ | ⟨y, ys⟩
      · rfl
      · have hy : y ≠ a := hr y (by simp [hrest])
        rw [List.replicate_one, List.singleton_append, delDupLoop_cons_cons,
          cmp_false_of_ne hy]
        simp
    | succ k2 =>
      rw [if_neg (by omega)]
      rw [show List.replicate (k2 + 2) a ++ rest =
          a :: a :: (List.replicate k2 a ++ rest) from by simp [List.replicate_succ]]
      rw [delDupLoop_cons_cons, strcmp_self,
        show (Ordering.eq == Ordering.eq) = true from rfl]
      simp only [Bool.true_or, Bool.or_false, if_pos rfl]
      rw [show a :: (List.replicate k2 a ++ rest) =
          List.replicate (k2 + 1) a ++ rest from by simp [List.replicate_succ]]
      exact delDupLoop_replicate_true a rest hr (k2 + 1) (by omega)

/-- On a payload-sorted list, the deletion loop keeps exactly the payloads
occurring once, in order: equal payloads are adjacent, and each maximal run of
length 1 survives while longer runs are deleted wholesale. -/
theorem delDupLoop_sorted (l : List Str)
    (hs : l.Pairwise (fun a b => sle a b = true)) :
    delDupLoop l false = l.filter (fun x => l.count x == 1) := by
  rcases hl : l with _ | ⟨a, t⟩
  · rfl
  · subst hl
    set p : Str → Bool := fun x => x == a with hp
    have hpa : p a = true := by simp [hp]
    set m := ((a :: t).takeWhile p).length with hm
    set rest := (a :: t).dropWhile p with hrest
    have hsplit : (a :: t).takeWhile p ++ rest = a :: t :=
      List.takeWhile_append_dropWhile p (a :: t)
    have htake : (a :: t).takeWhile p = List.replicate m a := by
      refine List.eq_replicate_iff.mpr ⟨hm.symm, ?_⟩
      intro b hb
      have := List.mem_takeWhile_imp hb
      simpa [hp] using this
    have hm1 : 1 ≤ m := by
      rw [hm, List.takeWhile_cons, if_pos hpa]
      simp
    have hL : a :: t = List.replicate m a ++ rest := by rw [← htake, hsplit]
    have hhead : ∀ y ∈ rest.head?, y ≠ a := by
      intro y hy
      have := List.head?_dropWhile_not p (a :: t)
      rw [← hrest] at this
      rw [Option.mem_def] at hy
      rw [hy] at this
      simp only [Option.all_some] at this
      intro hya
      rw [hya] at this
      simp [hpa] at this
    have hsplit2 := hs
    rw [hL] at hsplit2
    rw [List.pairwise_append] at hsplit2
    obtain ⟨hrep, hrest_sorted, hcross⟩ := hsplit2
    have hanotin : a ∉ rest := by
      intro ha
      rcases hr2 : rest with _ | ⟨h0, t0⟩
      · rw [hr2] at ha
        cases ha
      · have hh0 : h0 ≠ a := by
          apply hhead
          simp [hr2]
        rw [hr2] at ha
        rcases List.mem_cons.mp ha with rfl | ha2
        · exact hh0 rfl
        · have h1 : sle a h0 = true := by
            refine hcross a ?_ h0 ?_
            · exact List.mem_replicate.mpr ⟨by omega, rfl⟩
            · rw [hr2]
              exact List.mem_cons_self h0 t0
          have h2 : sle h0 a = true := by
            rw [hr2] at hrest_sorted
            exact (List.pairwise_cons.mp hrest_sorted).1 a ha2
          exact hh0 (sle_antisymm h2 h1)
    have hcount_a : (a :: t).count a = m := by
      rw [hL, List.count_append, List.count_replicate_self,
        List.count_eq_zero.mpr hanotin]
      omega
    have hcount_rest : ∀ x ∈ rest, (a :: t).count x = rest.count x := by
      intro x hx
      have hxa : x ≠ a := fun hxe => hanotin (hxe ▸ hx)
      rw [hL, List.count_append, List.count_replicate,
        if_neg (by simp only [beq_iff_eq]; exact fun h => hxa h.symm)]
      omega
    have hrec : delDupLoop rest false = rest.filter (fun x => rest.count x == 1) :=
      delDupLoop_sorted rest hrest_sorted
    rw [hL, delDupLoop_replicate_false a rest hhead m hm1]
    rw [List.filter_append, List.filter_replicate]
    rw [hL] at hcount_a hcount_rest
    have hfr : rest.filter (fun x => ((List.replicate m a ++ rest).count x == 1)) =
        rest.filter (fun x => (rest.count x == 1)) := by
      refine List.filter_congr ?_
      intro x hx
      rw [hcount_rest x hx]
    rw [hfr, ← hrec]
    by_cases hm1e : m = 1
    · rw [if_pos hm1e]
      have hca : ((List.replicate m a ++ rest).count a == 1) = true := by
        rw [hcount_a, hm1e]
        rfl
      rw [hca, if_pos rfl, hm1e, List.replicate_one, List.singleton_append]
    · rw [if_neg hm1e]
      have hca : ((List.replicate m a ++ rest).count a == 1) = false := by
        rw [hcount_a]
        simp
        omega
      rw [hca]
      simp
termination_by l.length
decreasing_by
  rw [hl]
  have h1 : List.dropWhile (fun x => x == a) (a :: t) = List.dropWhile (fun x => x == a) t := by
    rw [List.dropWhile_cons]
    simp
  rw [h1]
  have h2 : (List.dropWhile (fun x => x == a) t).length ≤ t.length :=
    (List.dropWhile_sublist _).length_le
  simp only [List.length_cons]
  omega

/-- **C2**: on a payload-sorted list, `q_delete_dup` deletes every element
whose payload occurs more than once anywhere in the list, so exactly the
elements with unique payloads survive in their original order, and it returns
`true`; on a NULL handle it returns `false` and touches nothing. -/
theorem q_delete_dup_spec (l : List Str)
    (hs : l.Pairwise (fun a b => sle a b = true)) :
    q_delete_dup (some l) = (true, some (l.filter (fun x => l.count x == 1))) ∧
    q_delete_dup none = (false, none) := by
  refine ⟨?_, rfl⟩
  show (if l.length ≤ 1 then ((true : Bool), some l)
      else ((true : Bool), some (delDupLoop l false))) =
    (true, some (l.filter (fun x => l.count x == 1)))
  by_cases hl : l.length ≤ 1
  · rw [if_pos hl]
    rcases l with _ | ⟨x, t⟩
    · rfl
    · rcases t with _ | ⟨y, t2⟩
      · simp
      · simp at hl
  · rw [if_neg hl, delDupLoop_sorted l hs]

/-- Witness for C2 at the spec example: sorted input
`["a","a","b","c","c"]` comes out as `["b"]`. -/
theorem q_delete_dup_spec_witness :
    q_delete_dup (some [[97], [97], [98], [99], [99]]) = (true, some [[98]]) := by
  have h := (q_delete_dup_spec [[97], [97], [98], [99], [99]] (by decide)).1
  rw [h]
  decide

/-!
### `q_delete_mid`
-/

/-- Iteration count of the two-speed loop of `q_delete_mid`: `fast` starts at
the first node and moves two links per step while it and its successor are not
the sentinel; each iteration moves `slow` one link.  The argument is the list
of nodes from `fast` to the tail. -/
def midSteps {α : Type} : List α → Nat
  | [] => 0
  | [_] => 0
  | _ :: _ :: rest => midSteps rest + 1

/-- `q_delete_mid`: `false` and no change on a NULL handle or an empty list;
otherwise `list_del` on the node `slow` stops on, and `true`. -/
def q_delete_mid {α : Type} : Option (List α) → Bool × Option (List α)
  | none => (false, none)
  | some [] => (false, some [])
  | some (x :: t) => (true, some ((x :: t).eraseIdx (midSteps (x :: t))))

theorem midSteps_eq_half {α : Type} : ∀ l : List α, midSteps l = l.length / 2
  | [] => by
    have h : midSteps ([] : List α) = 0 := rfl
    rw [h]
    simp
  | [x] => by
    have h : midSteps ([x] : List α) = 0 := rfl
    rw [h]
    simp
  | x :: y :: rest => by
    have h : midSteps (x :: y :: rest) = midSteps rest + 1 := rfl
    rw [h, midSteps_eq_half rest]
    simp only [List.length_cons]
    omega

/-- **C5**: on a non-empty list of length `n`, `q_delete_mid` removes exactly
the element at 0-based index `⌊n/2⌋` and keeps every other element in its
original order, returning `true`; on a NULL handle or an empty list it
returns `false` and changes nothing. -/
theorem q_delete_mid_spec {α : Type} :
    (∀ l : List α, l ≠ [] →
      q_delete_mid (some l) = (true, some (l.eraseIdx (l.length / 2))) ∧
      l.eraseIdx (l.length / 2) =
        l.take (l.length / 2) ++ l.drop (l.length / 2 + 1)) ∧
    q_delete_mid (none : Option (List α)) = (false, none) ∧
    q_delete_mid (some ([] : List α)) = (false, some []) := by
  refine ⟨?_, rfl, rfl⟩
  intro l hl
  constructor
  · rcases l with _ | ⟨x, t⟩
    · exact absurd rfl hl
    · show (true, some ((x :: t).eraseIdx (midSteps (x :: t)))) = _
      rw [midSteps_eq_half]
  · exact List.eraseIdx_eq_take_drop_succ l (l.length / 2)

/-- Witness for C5: deleting the middle of a six-element list removes the
node at index 3, per the spec example. -/
theorem q_delete_mid_spec_witness :
    q_delete_mid (some [10, 20, 30, 40, 50, 60]) = (true, some [10, 20, 30, 50, 60]) := by
  have h := ((q_delete_mid_spec (α := Nat)).1 [10, 20, 30, 40, 50, 60] (by decide)).1
  rw [h]
  decide

/-!
### `q_swap`
-/

/-- The `do while` loop of `q_swap`: relink the two front nodes of the
remaining segment in exchanged order and step past them; a final unpaired
node is left untouched. -/
def swapLoop {α : Type} : List α → List α
  | a :: b :: rest => b :: a :: swapLoop rest
  | l => l

/-- Body of `q_swap` on a non-NULL list: no-op when empty or singular. -/
def q_swapList {α : Type} (l : List α) : List α :=
  if l.length ≤ 1 then l else swapLoop l

/-- `q_swap`: NULL handles are left untouched. -/
def q_swap {α : Type} : Option (List α) → Option (List α)
  | none => none
  | some l => some (q_swapList l)

theorem swapLoop_length {α : Type} : ∀ l : List α, (swapLoop l).length = l.length
  | [] => rfl
  | [_] => rfl
  | a :: b :: rest => by
    have h : swapLoop (a :: b :: rest) = b :: a :: swapLoop rest := rfl
    rw [h]
    simp [swapLoop_length rest]

theorem swapLoop_perm {α : Type} : ∀ l : List α, List.Perm (swapLoop l) l
  | [] => List.Perm.refl _
  | [_] => List.Perm.refl _
  | a :: b :: rest => by
    have h : swapLoop (a :: b :: rest) = b :: a :: swapLoop rest := rfl
    rw [h]
    exact ((swapLoop_perm rest).cons a).cons b |>.trans (List.Perm.swap a b rest)

theorem swapLoop_getElem {α : Type} :
    ∀ (l : List α) (i : Nat), 2 * i + 1 < l.length →
      (swapLoop l)[2 * i]? = l[2 * i + 1]? ∧
      (swapLoop l)[2 * i + 1]? = l[2 * i]?
  | [], i, h => by
    simp only [List.length_nil] at h
    omega
  | [x], i, h => by
    simp only [List.length_cons, List.length_nil] at h
    omega
  | a :: b :: rest, 0, h => by
    have hs : swapLoop (a :: b :: rest) = b :: a :: swapLoop rest := rfl
    rw [hs]
    constructor <;> simp
  | a :: b :: rest, i + 1, h => by
    have hs : swapLoop (a :: b :: rest) = b :: a :: swapLoop rest := rfl
    have hlen : 2 * i + 1 < rest.length := by
      simp only [List.length_cons] at h
      omega
    obtain ⟨h1, h2⟩ := swapLoop_getElem rest i hlen
    have e1 : 2 * (i + 1) = 2 * i + 1 + 1 := by omega
    rw [hs, e1]
    constructor
    · rw [List.getElem?_cons_succ, List.getElem?_cons_succ,
        List.getElem?_cons_succ, List.getElem?_cons_succ]
      exact h1
    · rw [List.getElem?_cons_succ, List.getElem?_cons_succ,
        List.getElem?_cons_succ, List.getElem?_cons_succ]
      exact h2

theorem swapLoop_getLast_odd {α : Type} :
    ∀ l : List α, l.length % 2 = 1 → (swapLoop l).getLast? = l.getLast?
  | [], h => by simp at h
  | [a], _ => rfl
  | a :: b :: rest, h => by
    have hs : swapLoop (a :: b :: rest) = b :: a :: swapLoop rest := rfl
    have hodd : rest.length % 2 = 1 := by
      simp only [List.length_cons] at h
      omega
    have hne : rest ≠ [] := by
      intro he
      rw [he] at hodd
      simp at hodd
    have hne2 : swapLoop rest ≠ [] := by
      intro he
      have hl := swapLoop_length rest
      rw [he] at hl
      exact hne (List.eq_nil_of_length_eq_zero hl.symm)
    obtain ⟨c, cs, hr⟩ := List.exists_cons_of_ne_nil hne2
    obtain ⟨d, ds, hr2⟩ := List.exists_cons_of_ne_nil hne
    have ih := swapLoop_getLast_odd rest hodd
    have hL : (swapLoop (a :: b :: rest)).getLast? = rest.getLast? := by
      rw [hs, hr, List.getLast?_cons_cons, List.getLast?_cons_cons, ← hr, ih]
    have hR : (a :: b :: rest).getLast? = rest.getLast? := by
      conv =>
        lhs
        rw [hr2]
      rw [List.getLast?_cons_cons, List.getLast?_cons_cons, ← hr2]
    rw [hL, hR]

theorem swapLoop_involutive {α : Type} : ∀ l : List α, swapLoop (swapLoop l) = l
  | [] => rfl
  | [_] => rfl
  | a :: b :: rest => by
    have hs : swapLoop (a :: b :: rest) = b :: a :: swapLoop rest := rfl
    have hs2 : swapLoop (b :: a :: swapLoop rest) = a :: b :: swapLoop (swapLoop rest) := rfl
    rw [hs, hs2, swapLoop_involutive rest]

/-- **C6**: on a list of length at least 2, `q_swap` exchanges each adjacent
pair `(0,1), (2,3), ...` by relinking only (the result is a permutation of the
same nodes); with odd length the last node keeps its position; a NULL, empty,
or singleton list is untouched; the spec example `[1,2,3,4,5] → [2,1,4,3,5]`
holds. -/
theorem q_swap_spec :
    (∀ (α : Type) (l : List α) (i : Nat), 2 * i + 1 < l.length →
      (q_swapList l)[2 * i]? = l[2 * i + 1]? ∧
      (q_swapList l)[2 * i + 1]? = l[2 * i]?) ∧
    (∀ (α : Type) (l : List α), List.Perm (q_swapList l) l ∧
      (q_swapList l).length = l.length) ∧
    (∀ (α : Type) (l : List α), l.length % 2 = 1 →
      (q_swapList l).getLast? = l.getLast?) ∧
    (∀ (α : Type) (l : List α), l.length ≤ 1 → q_swapList l = l) ∧
    q_swap (none : Option (List Nat)) = none ∧
    q_swap (some [1, 2, 3, 4, 5]) = some [2, 1, 4, 3, 5] := by
  have hsw : ∀ (α : Type) (l : List α), 2 ≤ l.length → q_swapList l = swapLoop l := by
    intro α l h
    unfold q_swapList
    rw [if_neg (by omega)]
  refine ⟨?_, ?_, ?_, ?_, rfl, by decide⟩
  · intro α l i h
    rw [hsw α l (by omega)]
    exact swapLoop_getElem l i h
  · intro α l
    unfold q_swapList
    by_cases h : l.length ≤ 1
    · rw [if_pos h]
      exact ⟨List.Perm.refl l, rfl⟩
    · rw [if_neg h]
      exact ⟨swapLoop_perm l, swapLoop_length l⟩
  · intro α l h
    unfold q_swapList
    by_cases h2 : l.length ≤ 1
    · rw [if_pos h2]
    · rw [if_neg h2]
      exact swapLoop_getLast_odd l h
  · intro α l h
    unfold q_swapList
    rw [if_pos h]

/-- Witness for C6 on a concrete even-length list. -/
theorem q_swap_spec_witness :
    (q_swapList [7, 8, 9, 11])[2]? = some 11 ∧
    (q_swapList [7, 8, 9, 11])[3]? = some 9 := by
  have h := q_swap_spec.1 Nat [7, 8, 9, 11] 1 (by decide)
  simpa using h

/-- **C10**: `q_swap` is an involution: applying it twice restores the exact
original order, because disjoint adjacent pairs are exchanged and a trailing
odd node is fixed. -/
theorem q_swap_involutive :
    ∀ (α : Type) (q : Option (List α)), q_swap (q_swap q) = q := by
  intro α q
  rcases q with _ | l
  · rfl
  · show some (q_swapList (q_swapList l)) = some l
    unfold q_swapList
    by_cases h : l.length ≤ 1
    · rw [if_pos h, if_pos h]
    · rw [if_neg h, swapLoop_length l, if_neg h, swapLoop_involutive l]

/-!
### `q_reverse`

The C loop walks `a` forward from the first node and `b` backward from the
last, exchanges the positions of `a` and `b` (with a special case when they
are adjacent), then moves both inward, stopping when they meet (`a == b`) or
cross (`a->prev == b`).  At the sequence level each iteration moves the
current segment's last node to its front and its first node to its back,
recursing on the strictly shorter middle segment.
-/

/-- The two-ends-inward loop of `q_reverse` at sequence level. -/
def revLoop {α : Type} : List α → List α
  | [] => []
  | [a] => [a]
  | a :: b :: rest =>
    (b :: rest).getLast (by simp) :: (revLoop (b :: rest).dropLast ++ [a])
termination_by l => l.length
decreasing_by
  simp only [List.length_dropLast, List.length_cons]
  omega

/-- Body of `q_reverse` on a non-NULL list: no-op when empty or singular. -/
def q_reverseList {α : Type} (l : List α) : List α :=
  if l.length ≤ 1 then l else revLoop l

/-- `q_reverse`: NULL handles are left untouched. -/
def q_reverse {α : Type} : Option (List α) → Option (List α)
  | none => none
  | some l => some (q_reverseList l)

theorem revLoop_eq_reverse {α : Type} : ∀ l : List α, revLoop l = l.reverse
  | [] => by simp [revLoop]
  | [a] => by simp [revLoop]
  | a :: b :: rest => by
    have hs : revLoop (a :: b :: rest) =
        (b :: rest).getLast (by simp) :: (revLoop (b :: rest).dropLast ++ [a]) := by
      rw [revLoop]
    rw [hs, revLoop_eq_reverse (b :: rest).dropLast]
    have hsplit : (b :: rest).dropLast ++ [(b :: rest).getLast (by simp)] = b :: rest :=
      List.dropLast_append_getLast (by simp)
    have : (a :: b :: rest).reverse = ((b :: rest).dropLast ++
        [(b :: rest).getLast (by simp)]).reverse ++ [a] := by
      rw [hsplit]
      rw [List.reverse_cons]
    rw [this, List.reverse_append]
    simp
termination_by l => l.length
decreasing_by
  simp only [List.length_dropLast, List.length_cons]
  omega

/-- **C7**: `q_reverse` reverses the head-to-tail payload sequence (the same
nodes traversed in the opposite direction), applying it twice restores the
original order exactly, and a NULL, empty, or singleton list is untouched. -/
theorem q_reverse_spec :
    (∀ (α : Type) (l : List α), q_reverseList l = l.reverse) ∧
    (∀ (α : Type) (l : List α), q_reverseList (q_reverseList l) = l) ∧
    (∀ (α : Type) (q : Option (List α)), q_reverse (q_reverse q) = q) ∧
    q_reverse (none : Option (List Nat)) = none ∧
    (∀ (α : Type) (l : List α), l.length ≤ 1 → q_reverseList l = l) := by
  have hrev : ∀ (α : Type) (l : List α), q_reverseList l = l.reverse := by
    intro α l
    unfold q_reverseList
    by_cases h : l.length ≤ 1
    · rw [if_pos h]
      rcases l with _ | ⟨x, t⟩
      · rfl
      · rcases t with _ | ⟨y, t2⟩
        · rfl
        · simp at h
    · rw [if_neg h]
      exact revLoop_eq_reverse l
  refine ⟨hrev, ?_, ?_, rfl, ?_⟩
  · intro α l
    rw [hrev, hrev, List.reverse_reverse]
  · intro α q
    rcases q with _ | l
    · rfl
    · show some (q_reverseList (q_reverseList l)) = some l
      rw [hrev, hrev, List.reverse_reverse]
  · intro α l h
    unfold q_reverseList
    rw [if_pos h]

/-- Witness for C7: the no-op conjunct applied to a singleton. -/
theorem q_reverse_spec_witness : q_reverseList [5] = [5] :=
  q_reverse_spec.2.2.2.2 Nat [5] (by decide)

/-!
### `q_remove_head` / `q_remove_tail`

The element's value allocation holds `strlen(value) + 1` bytes: the content
and its terminator.  `q_remove_head` performs
`memcpy(sp, elm->value, bufsize - 1)` unconditionally and then writes a
terminator at `sp[bufsize - 1]`.  The model returns `none` for the copied
bytes when the memcpy source range exceeds the allocation: such a read is out
of bounds and picks up bytes that are not part of the stored content.
-/

/-- Read `n` bytes from the start of an allocated buffer; `none` when the read
overruns the allocation. -/
def readBytes (buf : List Nat) (n : Nat) : Option (List Nat) :=
  if n ≤ buf.length then some (buf.take n) else none

/-- The caller buffer contents after the copy in `q_remove_head`:
`bufsize - 1` bytes memcpy'd from the value allocation `v ++ [0]`, then one
terminator byte at index `bufsize - 1`.  `none` when the memcpy overruns the
allocation. -/
def copyOut (v : Str) (bufsize : Nat) : Option (List Nat) :=
  (readBytes (v ++ [0]) (bufsize - 1)).map (fun bytes => bytes ++ [0])

/-- `q_remove_head`: `none` on a NULL or empty queue; otherwise unlink the
first element — without freeing it — hand it back, and copy into the caller's
(non-NULL) buffer. -/
def q_remove_head (q : Option (List Str)) (bufsize : Nat) :
    Option (Str × List Str × Option (List Nat)) :=
  match q with
  | none => none
  | some [] => none
  | some (v :: rest) => some (v, rest, copyOut v bufsize)

/-- `q_remove_tail`: as `q_remove_head`, on the last element. -/
def q_remove_tail (q : Option (List Str)) (bufsize : Nat) :
    Option (Str × List Str × Option (List Nat)) :=
  match q with
  | none => none
  | some [] => none
  | some (v :: rest) =>
    some ((v :: rest).getLast (by simp), (v :: rest).dropLast,
      copyOut ((v :: rest).getLast (by simp)) bufsize)

/-- **C3** (code bug): with stored payload `"a"` (a two-byte allocation
`[97, 0]`) and `bufsize = 8`, removal does unlink and return the element
without freeing it, but the copy `memcpy(sp, value, 7)` reads 7 bytes from the
two-byte allocation — the model's copy is `none` (out-of-bounds read), so
bytes outside the stored content are copied, contrary to the claim. -/
theorem q_remove_oob_failing_input :
    q_remove_head (some [[97]]) 8 = some ([97], [], none) ∧
    q_remove_tail (some [[97]]) 8 = some ([97], [], none) ∧
    copyOut [97] 8 = none := by
  refine ⟨by decide, by decide, by decide⟩

/-!
### `q_insert_head` / `q_insert_tail` and `element_alloc`

`element_alloc` mallocs the value buffer, then the `element_t`; if the second
malloc fails it frees the value buffer (`goto fail_alloc_elm`) and returns
NULL.  The inserts return `false` without touching the list when the head is
NULL or allocation fails; on success they copy the argument string into the
fresh exactly-sized buffer and `list_add` / `list_add_tail` the element.
The model records the heap events of the call so that leaks are visible.
-/

/-- Which allocation inside `element_alloc` fails. -/
inductive AllocMode : Type
  | ok : AllocMode
  | failValue : AllocMode
  | failElm : AllocMode

/-- Heap events of one `element_alloc` call. -/
inductive HeapEvent : Type
  | allocValue : HeapEvent
  | allocElm : HeapEvent
  | freeValue : HeapEvent

/-- `element_alloc value_size`: returns the element (modelled by its value
buffer capacity) when both mallocs succeed, `none` otherwise, together with
the heap events performed. -/
def element_alloc (m : AllocMode) (value_size : Nat) :
    Option Nat × List HeapEvent :=
  match m with
  | .failValue => (none, [])
  | .failElm => (none, [.allocValue, .freeValue])
  | .ok => (some value_size, [.allocValue, .allocElm])

/-- Net number of blocks still allocated after the given heap events. -/
def outstanding (evs : List HeapEvent) : Int :=
  evs.foldl
    (fun n e =>
      match e with
      | .allocValue => n + 1
      | .allocElm => n + 1
      | .freeValue => n - 1)
    0

/-- `q_insert_head`: returns the success flag, the queue afterwards, and the
number of heap blocks neither freed nor owned by the queue at return (on
success the element and its buffer are linked into the queue, which owns
them). -/
def q_insert_head (m : AllocMode) (q : Option (List Str)) (s : Str) :
    Bool × Option (List Str) × Int :=
  match q with
  | none => (false, none, 0)
  | some l =>
    match element_alloc m (s.length + 1) with
    | (none, evs) => (false, some l, outstanding evs)
    | (some _, _) => (true, some (s :: l), 0)

/-- `q_insert_tail`: as `q_insert_head`, linking at the tail. -/
def q_insert_tail (m : AllocMode) (q : Option (List Str)) (s : Str) :
    Bool × Option (List Str) × Int :=
  match q with
  | none => (false, none, 0)
  | some l =>
    match element_alloc m (s.length + 1) with
    | (none, evs) => (false, some l, outstanding evs)
    | (some _, _) => (true, some (l ++ [s]), 0)

/-- **C8**: `q_insert_head` / `q_insert_tail` return `false` with no list
mutation and no leaked block when the handle is NULL or either allocation
fails (in particular the element-after-value failure frees the value buffer);
on success the string is stored in fresh storage and linked as the new
first / last element. -/
theorem q_insert_spec :
    (∀ (q : List Str) (s : Str),
      q_insert_head .ok (some q) s = (true, some (s :: q), 0)) ∧
    (∀ (q : List Str) (s : Str),
      q_insert_tail .ok (some q) s = (true, some (q ++ [s]), 0)) ∧
    (∀ (m : AllocMode) (s : Str),
      q_insert_head m none s = (false, none, 0) ∧
      q_insert_tail m none s = (false, none, 0)) ∧
    (∀ (m : AllocMode) (q : List Str) (s : Str), m ≠ AllocMode.ok →
      q_insert_head m (some q) s = (false, some q, 0) ∧
      q_insert_tail m (some q) s = (false, some q, 0)) := by
  refine ⟨fun q s => rfl, fun q s => rfl, fun m s => ⟨rfl, rfl⟩, ?_⟩
  intro m q s hm
  cases m with
  | ok => exact absurd rfl hm
  | failValue => exact ⟨rfl, rfl⟩
  | failElm => exact ⟨rfl, rfl⟩

/-- Witness for C8: the element allocation fails after the value buffer
succeeded; nothing is linked and nothing leaks. -/
theorem q_insert_spec_witness :
    q_insert_head AllocMode.failElm (some [[97]]) [98] = (false, some [[97]], 0) :=
  (q_insert_spec.2.2.2 AllocMode.failElm [[97]] [98]
    (fun h => AllocMode.noConfusion h)).1

/-!
### `q_shuffle` (modelled from the spec)

No shuffle code is present under `src/`; §4.7 of the spec describes it, so the
model below follows the spec's words: process nodes from the head toward the
tail; with `remaining` unprocessed nodes, draw `j` uniform in
`[0, remaining-1]`, locate the node at distance `j` from the tail by walking
predecessor links (position `remaining - 1 - j` of the remaining segment), and
swap that node's position with the current node's position by relocation.
Uniformity is stated as a bijection: every permutation of a duplicate-free
list is produced by exactly one valid draw sequence.
-/

/-- Modelled from the spec: the in-place two-node relocation — exchange the
positions of the front node and the node at position `p` of the segment,
leaving all other nodes in place. -/
def swapFront {α : Type} (l : List α) (p : Nat) : List α :=
  match l with
  | [] => []
  | x :: xs =>
    if p = 0 then x :: xs
    else xs.getD (p - 1) x :: xs.set (p - 1) x

/-- Modelled from the spec: Fisher–Yates over position lookup; one draw per
processed node, `remaining` counting down from `l.length` to 1. -/
def fyShuffle {α : Type} : List α → List Nat → List α
  | l, [] => l
  | l, j :: js =>
    match swapFront l (l.length - 1 - j) with
    | [] => []
    | x :: rest => x :: fyShuffle rest js

/-- Valid draw sequences for `n` remaining nodes: one uniform draw
`j < remaining` per step. -/
def ValidDraws : List Nat → Nat → Prop
  | [], n => n = 0
  | j :: js, n => j < n ∧ ValidDraws js (n - 1)

theorem swapFront_length {α : Type} (l : List α) (k : Nat) :
    (swapFront l k).length = l.length := by
  cases l with
  | nil => rfl
  | cons x xs =>
    have hstep : swapFront (x :: xs) k =
        if k = 0 then x :: xs else xs.getD (k - 1) x :: xs.set (k - 1) x := rfl
    rw [hstep]
    by_cases h : k = 0
    · rw [if_pos h]
    · rw [if_neg h]
      simp

theorem set_swap_perm {α : Type} : ∀ (xs : List α) (k : Nat) (x : α), k < xs.length →
    List.Perm (xs.getD k x :: xs.set k x) (x :: xs)
  | [], k, x, h => by simp at h
  | y :: ys, 0, x, _ => by
    simp only [List.getD_cons_zero, List.set_cons_zero]
    exact List.Perm.swap x y ys
  | y :: ys, k + 1, x, h => by
    simp only [List.getD_cons_succ, List.set_cons_succ]
    have ih := set_swap_perm ys k x (by simp only [List.length_cons] at h; omega)
    refine (List.Perm.swap y (ys.getD k x) (ys.set k x)).trans ?_
    exact (ih.cons y).trans (List.Perm.swap x y ys)

theorem swapFront_perm {α : Type} (l : List α) (k : Nat) (hk : k < l.length) :
    List.Perm (swapFront l k) l := by
  cases l with
  | nil => simp at hk
  | cons x xs =>
    have hstep : swapFront (x :: xs) k =
        if k = 0 then x :: xs else xs.getD (k - 1) x :: xs.set (k - 1) x := rfl
    rw [hstep]
    by_cases h : k = 0
    · rw [if_pos h]
    · rw [if_neg h]
      refine set_swap_perm xs (k - 1) x ?_
      simp only [List.length_cons] at hk
      omega

theorem swapFront_headq {α : Type} (l : List α) (k : Nat) (hk : k < l.length) :
    (swapFront l k).head? = l[k]? := by
  cases l with
  | nil => simp at hk
  | cons x xs =>
    have hstep : swapFront (x :: xs) k =
        if k = 0 then x :: xs else xs.getD (k - 1) x :: xs.set (k - 1) x := rfl
    rw [hstep]
    by_cases h : k = 0
    · subst h
      simp
    · rw [if_neg h]
      have hk1 : k - 1 < xs.length := by
        simp only [List.length_cons] at hk
        omega
      rw [List.head?_cons, List.getD_eq_getElem xs x hk1]
      rw [show (x :: xs)[k]? = xs[k - 1]? from by
        cases k with
        | zero => exact absurd rfl h
        | succ k2 => simp]
      rw [List.getElem?_eq_getElem hk1]

theorem fyShuffle_cons {α : Type} (l : List α) (j : Nat) (js : List Nat)
    (x : α) (rest : List α) (hs : swapFront l (l.length - 1 - j) = x :: rest) :
    fyShuffle l (j :: js) = x :: fyShuffle rest js := by
  conv =>
    lhs
    rw [fyShuffle]
  rw [hs]

theorem fyShuffle_perm {α : Type} : ∀ (js : List Nat) (l : List α),
    List.Perm (fyShuffle l js) l
  | [], l => List.Perm.refl l
  | j :: js, l => by
    cases l with
    | nil => exact List.Perm.refl []
    | cons x xs =>
      have hk : (x :: xs).length - 1 - j < (x :: xs).length := by
        simp only [List.length_cons]
        omega
      have hperm := swapFront_perm (x :: xs) ((x :: xs).length - 1 - j) hk
      rcases hs : swapFront (x :: xs) ((x :: xs).length - 1 - j) with _ | ⟨y, rest⟩
      · rw [hs] at hperm
        have := hperm.length_eq
        simp at this
      · rw [fyShuffle_cons (x :: xs) j js y rest hs]
        rw [hs] at hperm
        exact ((fyShuffle_perm js rest).cons y).trans hperm

theorem fyShuffle_unique {α : Type} : ∀ (p l : List α), l.Nodup →
    List.Perm p l →
    ∃! js, ValidDraws js l.length ∧ fyShuffle l js = p
  | [], l, _, hp => by
    have hl : l = [] := List.Perm.eq_nil hp.symm
    subst hl
    refine ⟨[], ⟨rfl, rfl⟩, ?_⟩
    intro js hjs
    rcases js with _ | ⟨j, js⟩
    · rfl
    · obtain ⟨⟨hj, _⟩, _⟩ := hjs
      simp at hj
  | h :: t, l, hnd, hp => by
    have hmem : h ∈ l := hp.subset (List.mem_cons_self h t)
    obtain ⟨pos, hget⟩ := List.getElem?_of_mem hmem
    have hposlt : pos < l.length := (List.getElem?_eq_some_iff.mp hget).1
    have hn1 : 1 ≤ l.length := by omega
    -- one deterministic step: any valid first draw `j` that produces head `h`
    -- must be `l.length - 1 - pos`, and the remaining segment is fixed
    have hstep : ∀ j : Nat, j < l.length →
        ∃ x rest, swapFront l (l.length - 1 - j) = x :: rest ∧
          l[l.length - 1 - j]? = some x ∧
          (x :: rest).length = l.length ∧ List.Perm (x :: rest) l := by
      intro j hj
      have hk : l.length - 1 - j < l.length := by omega
      rcases hs : swapFront l (l.length - 1 - j) with _ | ⟨x, rest⟩
      · have hle := swapFront_length l (l.length - 1 - j)
        rw [hs] at hle
        simp at hle
        omega
      · refine ⟨x, rest, rfl, ?_, ?_, ?_⟩
        · have hh := swapFront_headq l (l.length - 1 - j) hk
          rw [hs] at hh
          simpa using hh.symm
        · have hle := swapFront_length l (l.length - 1 - j)
          rw [hs] at hle
          exact hle
        · have hpm := swapFront_perm l (l.length - 1 - j) hk
          rw [hs] at hpm
          exact hpm
    set j0 := l.length - 1 - pos with hj0
    have hj0lt : j0 < l.length := by omega
    have hk0 : l.length - 1 - j0 = pos := by omega
    obtain ⟨x0, rest0, hs0, hx0, hlen0, hperm0⟩ := hstep j0 hj0lt
    rw [hk0] at hs0 hx0
    have hx0h : x0 = h := by
      rw [hget] at hx0
      exact (Option.some_inj.mp hx0).symm
    rw [hx0h] at hs0 hx0 hlen0 hperm0
    have hnd0 : rest0.Nodup := (List.Perm.nodup hperm0.symm hnd).of_cons
    have htrest : List.Perm t rest0 := by
      have h1 : List.Perm (h :: t) (h :: rest0) := hp.trans hperm0.symm
      exact h1.cons_inv
    have hrestlen : rest0.length = l.length - 1 := by
      simp only [List.length_cons] at hlen0
      omega
    obtain ⟨js0, ⟨hv0, hf0⟩, huniq0⟩ := fyShuffle_unique t rest0 hnd0 htrest
    refine ⟨j0 :: js0, ⟨⟨hj0lt, ?_⟩, ?_⟩, ?_⟩
    · rw [← hrestlen]
      exact hv0
    · rw [fyShuffle_cons l j0 js0 h rest0 (by rw [hk0]; exact hs0), hf0]
    · intro js hjs
      rcases js with _ | ⟨j, js1⟩
      · have h0 : l.length = 0 := hjs.1
        omega
      · obtain ⟨⟨hjlt, hjv⟩, hjf⟩ := hjs
        obtain ⟨x, rest, hs, hx, hlen, hperm1⟩ := hstep j hjlt
        rw [fyShuffle_cons l j js1 x rest hs] at hjf
        have hxh : x = h := (List.cons.inj hjf).1
        rw [hxh] at hs hx hperm1
        have hkj : l.length - 1 - j = pos := by
          refine List.getElem?_inj ?_ hnd ?_
          · omega
          · rw [hx, hget]
        have hjj0 : j = j0 := by omega
        have hrests : rest = rest0 := by
          rw [hkj] at hs
          rw [hs0] at hs
          exact ((List.cons.inj hs).2).symm
        have hjs1 : js1 = js0 := by
          refine huniq0 js1 ⟨?_, ?_⟩
          · rw [hrestlen]
            have e : j - 1 = j0 - 1 := by omega
            simpa [hjj0] using hjv
          · rw [← hrests]
            exact (List.cons.inj hjf).2
        rw [hjj0, hjs1]

/-- **C9** (modelled from the spec; `q_shuffle` is not in `src/`): the
Fisher–Yates shuffle permutes the existing nodes by relocation only (the
result is a permutation of the same nodes for every draw sequence), is a
no-op on lists with fewer than 2 nodes, and is uniform: for a duplicate-free
list, every permutation is produced by exactly one valid draw sequence, so
uniform independent draws induce the uniform distribution on permutations. -/
theorem q_shuffle_spec :
    (∀ (α : Type) (l : List α) (js : List Nat), List.Perm (fyShuffle l js) l) ∧
    (∀ (α : Type) (l : List α) (js : List Nat), l.length ≤ 1 →
      ValidDraws js l.length → fyShuffle l js = l) ∧
    (∀ (α : Type) (l : List α), l.Nodup → ∀ p : List α, List.Perm p l →
      ∃! js, ValidDraws js l.length ∧ fyShuffle l js = p) := by
  refine ⟨fun α l js => fyShuffle_perm js l, ?_, fun α l hnd p hp => fyShuffle_unique p l hnd hp⟩
  intro α l js hlen hv
  rcases l with _ | ⟨x, t⟩
  · rcases js with _ | ⟨j, js1⟩
    · rfl
    · obtain ⟨hj, _⟩ := hv
      simp at hj
  · rcases t with _ | ⟨y, t2⟩
    · rcases js with _ | ⟨j, js1⟩
      · rfl
      · obtain ⟨hj, hv1⟩ := hv
        have hj0 : j = 0 := by
          simp only [List.length_cons, List.length_nil] at hj
          omega
        subst hj0
        have hjs1 : js1 = [] := by
          rcases js1 with _ | ⟨j2, js2⟩
          · rfl
          · obtain ⟨hj2, _⟩ := hv1
            simp at hj2
        subst hjs1
        rfl
    · simp at hlen

/-- Witness for C9: a valid one-draw sequence on a singleton leaves it
untouched. -/
theorem q_shuffle_spec_witness : fyShuffle [9] [0] = [9] :=
  q_shuffle_spec.2.1 Nat [9] [0] (by simp) ⟨Nat.one_pos, rfl⟩

/-!
### Pointer-level model for the link invariant (C4)

Node ids are naturals; id 0 is the sentinel `head`; a pointer value is `none`
(C NULL) or `some k`.  A state `PS` holds every node's `next` and `prev`
fields; every C pointer write becomes a `Function.update` executed in program
order, reading from the state produced by the previous write.  `ringWf s xs`
states that the fields form the circular doubly-linked list whose elements in
head-to-tail order are `xs`: consecutive nodes of `0 :: xs ++ [0]` are
mutually linked (`x->next == y` and `y->prev == x`); for `xs = []` this is the
self-linked empty ring.
-/

abbrev Ptr := Option Nat

structure PS : Type where
  next : Nat → Ptr
  prev : Nat → Ptr

def PS.setNext (s : PS) (x : Nat) (v : Ptr) : PS :=
  { s with next := Function.update s.next x v }

def PS.setPrev (s : PS) (x : Nat) (v : Ptr) : PS :=
  { s with prev := Function.update s.prev x v }

@[simp] theorem setNext_next_same (s : PS) (x : Nat) (v : Ptr) :
    (s.setNext x v).next x = v := by
  simp [PS.setNext]

@[simp] theorem setNext_prev (s : PS) (x y : Nat) (v : Ptr) :
    (s.setNext x v).prev y = s.prev y := rfl

theorem setNext_next_ne (s : PS) (x y : Nat) (v : Ptr) (h : y ≠ x) :
    (s.setNext x v).next y = s.next y := by
  simp [PS.setNext, Function.update_noteq h]

@[simp] theorem setPrev_prev_same (s : PS) (x : Nat) (v : Ptr) :
    (s.setPrev x v).prev x = v := by
  simp [PS.setPrev]

@[simp] theorem setPrev_next (s : PS) (x y : Nat) (v : Ptr) :
    (s.setPrev x v).next y = s.next y := rfl

theorem setPrev_prev_ne (s : PS) (x y : Nat) (v : Ptr) (h : y ≠ x) :
    (s.setPrev x v).prev y = s.prev y := by
  simp [PS.setPrev, Function.update_noteq h]

/-- `adj s x y`: `x->next == y` and `y->prev == x`. -/
def adj (s : PS) (x y : Nat) : Prop := s.next x = some y ∧ s.prev y = some x

/-- The ring with sentinel 0 and element order `xs`. -/
def ringWf (s : PS) (xs : List Nat) : Prop :=
  List.Chain' (adj s) (0 :: xs ++ [0])

/-- Transfer a linked chain to a state that agrees on the relevant fields:
`next` on all but the last node, `prev` on all but the first. -/
theorem chain_adj_congr {s s2 : PS} : ∀ c : List Nat,
    (∀ x ∈ c.dropLast, s2.next x = s.next x) →
    (∀ y ∈ c.tail, s2.prev y = s.prev y) →
    List.Chain' (adj s) c → List.Chain' (adj s2) c
  | [], _, _, _ => List.chain'_nil
  | [x], _, _, _ => by simp
  | x :: y :: t, hn, hp, hc => by
    rw [List.chain'_cons] at hc ⊢
    obtain ⟨⟨h1, h2⟩, hrest⟩ := hc
    refine ⟨⟨?_, ?_⟩, ?_⟩
    · rw [hn x (by simp)]
      exact h1
    · rw [hp y (by simp)]
      exact h2
    · refine chain_adj_congr (y :: t) ?_ ?_ hrest
      · intro a ha
        refine hn a ?_
        rw [show (x :: y :: t).dropLast = x :: (y :: t).dropLast from rfl]
        exact List.mem_cons_of_mem x ha
      · intro a ha
        exact hp a (List.mem_cons_of_mem y ha)

theorem chain_succ {R : Nat → Nat → Prop} : ∀ c : List Nat, List.Chain' R c →
    ∀ x ∈ c.dropLast, ∃ y ∈ c.tail, R x y
  | [], _, x, hx => by simp at hx
  | [a], _, x, hx => by simp at hx
  | a :: b :: t, hc, x, hx => by
    rw [List.chain'_cons] at hc
    rw [show (a :: b :: t).dropLast = a :: (b :: t).dropLast from rfl] at hx
    rcases List.mem_cons.mp hx with rfl | hx2
    · exact ⟨b, by simp, hc.1⟩
    · obtain ⟨y, hy, hr⟩ := chain_succ (b :: t) hc.2 x hx2
      exact ⟨y, List.mem_cons_of_mem b hy, hr⟩

theorem chain_pred {R : Nat → Nat → Prop} : ∀ c : List Nat, List.Chain' R c →
    ∀ y ∈ c.tail, ∃ x ∈ c.dropLast, R x y
  | [], _, y, hy => by simp at hy
  | [a], _, y, hy => by simp at hy
  | a :: b :: t, hc, y, hy => by
    rw [List.chain'_cons] at hc
    simp only [List.tail_cons] at hy
    rcases List.mem_cons.mp hy with rfl | hy2
    · refine ⟨a, ?_, hc.1⟩
      rw [show (a :: y :: t).dropLast = a :: (y :: t).dropLast from rfl]
      exact List.mem_cons_self a _
    · obtain ⟨x, hx, hr⟩ := chain_pred (b :: t) hc.2 y hy2
      refine ⟨x, ?_, hr⟩
      rw [show (a :: b :: t).dropLast = a :: (b :: t).dropLast from rfl]
      exact List.mem_cons_of_mem a hx

theorem ring_members_dropLast (xs : List Nat) :
    (0 :: xs ++ [0]).dropLast = 0 :: xs := by
  rw [show (0 : Nat) :: xs ++ [0] = (0 :: xs) ++ [0] from rfl]
  exact List.dropLast_concat

/-- **Derived invariant**: on a well-formed ring, every reachable node
(sentinel included) has `x.next.prev == x` and `x.prev.next == x`, with both
neighbours reachable. -/
theorem ringWf_invariant {s : PS} {xs : List Nat} (h : ringWf s xs) :
    ∀ x ∈ 0 :: xs,
      (∃ y ∈ 0 :: xs, s.next x = some y ∧ s.prev y = some x) ∧
      (∃ z ∈ 0 :: xs, s.prev x = some z ∧ s.next z = some x) := by
  intro x hx
  have hmem_tail : ∀ y : Nat, y ∈ xs ++ [0] → y ∈ 0 :: xs := by
    intro y hy
    rcases List.mem_append.mp hy with hy | hy
    · exact List.mem_cons_of_mem 0 hy
    · rw [List.mem_singleton.mp hy]
      exact List.mem_cons_self 0 xs
  constructor
  · have hx2 : x ∈ (0 :: xs ++ [0]).dropLast := by
      rw [ring_members_dropLast]
      exact hx
    obtain ⟨y, hy, hr⟩ := chain_succ _ h x hx2
    exact ⟨y, hmem_tail y hy, hr⟩
  · have hx2 : x ∈ (0 :: xs ++ [0]).tail := by
      rcases List.mem_cons.mp hx with rfl | hx2
      · simp
      · exact List.mem_append_left [0] hx2
    obtain ⟨z, hz, hr⟩ := chain_pred _ h x hx2
    have hz2 : z ∈ 0 :: xs := by
      rw [ring_members_dropLast] at hz
      exact hz
    exact ⟨z, hz2, hr.2, hr.1⟩

/-- `list_del node`: `node->prev->next = node->next; node->next->prev =
node->prev` (the two writes touch different fields, and the reads happen
before the writes). -/
def list_del (s : PS) (node : Nat) : PS :=
  match s.next node, s.prev node with
  | some nxt, some prv => (s.setNext prv (some nxt)).setPrev nxt (some prv)
  | _, _ => s

theorem getLast_not_mem_dropLast {l : List Nat} (hne : l ≠ []) (hnd : l.Nodup) :
    l.getLast hne ∉ l.dropLast := by
  intro hmem
  have hsplit : l.dropLast ++ [l.getLast hne] = l := List.dropLast_append_getLast hne
  rw [← hsplit, List.nodup_append] at hnd
  exact hnd.2.2 hmem (List.mem_singleton.mpr rfl)

/-- Unlinking any element of a well-formed ring leaves a well-formed ring on
the remaining elements in unchanged order.  This is the whole link effect of
`q_remove_head` (`u = []`), `q_remove_tail` (`v = []`), `q_delete_mid`, and
each deletion performed by `q_delete_dup`. -/
theorem list_del_ring {s : PS} {u v : List Nat} {node : Nat}
    (h : ringWf s (u ++ node :: v)) (hnd : (0 :: u ++ node :: v).Nodup) :
    ringWf (list_del s node) (u ++ v) := by
  have hshape : (0 : Nat) :: (u ++ node :: v) ++ [0] =
      (0 :: u) ++ node :: (v ++ [0]) := by simp
  unfold ringWf at h
  rw [hshape] at h
  rw [List.chain'_append] at h
  obtain ⟨hcu, hcnode, hlink⟩ := h
  rw [List.chain'_cons'] at hcnode
  obtain ⟨hnodeq, hcv⟩ := hcnode
  -- names for the neighbours of node
  have hu_ne : (0 :: u) ≠ [] := by simp
  set p := (0 :: u).getLast hu_ne with hp
  have hv_ne : v ++ [0] ≠ [] := by simp
  set q := (v ++ [0]).head hv_ne with hq
  have hpadj : adj s p node := by
    refine hlink p ?_ node ?_
    · rw [List.getLast?_eq_getLast (0 :: u) hu_ne]
      simp
    · simp
  have hqadj : adj s node q := by
    refine hnodeq q ?_
    rw [List.head?_eq_head hv_ne]
    simp
  -- reduce the match in list_del
  have hnext : s.next node = some q := hqadj.1
  have hprev : s.prev node = some p := hpadj.2
  have hdel : list_del s node = (s.setNext p (some q)).setPrev q (some p) := by
    unfold list_del
    rw [hnext, hprev]
  rw [hdel]
  -- nodup bookkeeping
  have hnd2 := hnd
  rw [show (0 : Nat) :: u ++ node :: v = (0 :: u) ++ node :: v from rfl,
    List.nodup_append] at hnd2
  obtain ⟨hndu, hndnv, hdisj⟩ := hnd2
  rw [List.nodup_cons] at hndnv
  obtain ⟨hnode_nv, hndv⟩ := hndnv
  have h0u : (0 : Nat) ∈ 0 :: u := List.mem_cons_self 0 u
  have hpmem : p ∈ 0 :: u := List.getLast_mem hu_ne
  have hnode_notin_u : node ∉ 0 :: u := fun hc => hdisj hc (List.mem_cons_self node v)
  have hqmem : q ∈ 0 :: v := by
    have hh : q ∈ v ++ [0] := by
      rw [hq]
      exact List.head_mem hv_ne
    rcases List.mem_append.mp hh with hh | hh
    · exact List.mem_cons_of_mem 0 hh
    · rw [List.mem_singleton.mp hh]
      exact List.mem_cons_self 0 v
  have hq_ne_node : q ≠ node := by
    intro hc
    rcases List.mem_cons.mp hqmem with hc2 | hc2
    · exact hnode_notin_u (by rw [← hc, hc2]; exact h0u)
    · rw [hc] at hc2
      exact hnode_nv hc2
  have hp_ne_node : p ≠ node := fun hc => hnode_notin_u (hc ▸ hpmem)
  -- target chain
  show List.Chain' (adj ((s.setNext p (some q)).setPrev q (some p)))
    (0 :: (u ++ v) ++ [0])
  rw [show (0 : Nat) :: (u ++ v) ++ [0] = (0 :: u) ++ (v ++ [0]) from by simp]
  rw [List.chain'_append]
  refine ⟨?_, ?_, ?_⟩
  · -- the prefix chain is untouched
    refine chain_adj_congr (0 :: u) ?_ ?_ hcu
    · intro x hx
      rw [setPrev_next]
      refine setNext_next_ne s p x _ ?_
      intro hc
      refine getLast_not_mem_dropLast hu_ne hndu ?_
      rw [← hp, ← hc]
      exact hx
    · intro y hy
      refine setPrev_prev_ne _ q y _ ?_
      intro hc
      rcases List.mem_cons.mp hqmem with hc2 | hc2
      · rw [hc2] at hc
        rw [hc] at hy
        rw [List.nodup_cons] at hndu
        exact hndu.1 hy
      · exact hdisj (List.mem_cons_of_mem 0 (hc ▸ hy)) (List.mem_cons_of_mem node hc2)
  · -- the suffix chain is untouched
    refine chain_adj_congr (v ++ [0]) ?_ ?_ hcv
    · intro x hx
      have hxv : x ∈ v := by
        have hd : (v ++ [0]).dropLast = v := by simp
        rw [hd] at hx
        exact hx
      rw [setPrev_next]
      refine setNext_next_ne s p x _ ?_
      intro hc
      exact hdisj (hc ▸ hpmem) (List.mem_cons_of_mem node hxv)
    · intro y hy
      refine setPrev_prev_ne _ q y _ ?_
      intro hc
      have hndv0 : (v ++ [0]).Nodup := by
        rw [List.nodup_append]
        refine ⟨hndv, List.nodup_singleton 0, ?_⟩
        intro a ha ha2
        rw [List.mem_singleton.mp ha2] at ha
        exact hdisj h0u (List.mem_cons_of_mem node ha)
      have : q ∉ (v ++ [0]).tail := by
        have hcons : q :: (v ++ [0]).tail = v ++ [0] := by
          rw [hq]
          exact List.head_cons_tail _ hv_ne
        rw [← hcons, List.nodup_cons] at hndv0
        exact hndv0.1
      exact this (hc ▸ hy)
  · -- the new adjacency p -- q
    intro x hx y hy
    rw [List.getLast?_eq_getLast (0 :: u) hu_ne] at hx
    rw [List.head?_eq_head hv_ne] at hy
    rw [Option.mem_def, Option.some_inj] at hx hy
    rw [← hx, ← hy]
    constructor
    · rw [setPrev_next, setNext_next_same]
    · rw [setPrev_prev_same]

/-- `list_add(new, head)` = `__list_add(new, head, head->next)`:
`next->prev = new; new->next = next; new->prev = prev; prev->next = new`,
with `next = head->next` read before any write.  Used by `q_insert_head`. -/
def list_add (s : PS) (node h : Nat) : PS :=
  match s.next h with
  | none => s
  | some nxt =>
    (((s.setPrev nxt (some node)).setNext node (some nxt)).setPrev node
      (some h)).setNext h (some node)

/-- `list_add_tail(new, head)` = `__list_add(new, head->prev, head)`.
Used by `q_insert_tail`. -/
def list_add_tail (s : PS) (node h : Nat) : PS :=
  match s.prev h with
  | none => s
  | some prv =>
    (((s.setPrev h (some node)).setNext node (some h)).setPrev node
      (some prv)).setNext prv (some node)

/-- Linking a fresh node after the sentinel turns the ring over `xs` into the
ring over `node :: xs`: the link effect of `q_insert_head`. -/
theorem list_add_ring {s : PS} {xs : List Nat} {node : Nat}
    (h : ringWf s xs) (hnd : (0 :: xs).Nodup) (hfresh : node ∉ 0 :: xs) :
    ringWf (list_add s node 0) (node :: xs) := by
  have hv_ne : xs ++ [0] ≠ [] := by simp
  set q := (xs ++ [0]).head hv_ne with hq
  unfold ringWf at h
  rw [List.cons_append, List.chain'_cons'] at h
  obtain ⟨h0q, hcv⟩ := h
  have hadj0q : adj s 0 q := by
    refine h0q q ?_
    rw [List.head?_eq_head hv_ne]
    simp
  have hnode0 : node ≠ 0 := by
    intro hc
    exact hfresh (hc ▸ List.mem_cons_self 0 xs)
  have hqmem : q ∈ 0 :: xs := by
    have hh : q ∈ xs ++ [0] := by
      rw [hq]
      exact List.head_mem hv_ne
    rcases List.mem_append.mp hh with hh | hh
    · exact List.mem_cons_of_mem 0 hh
    · rw [List.mem_singleton.mp hh]
      exact List.mem_cons_self 0 xs
  have hq_ne_node : q ≠ node := fun hc => hfresh (hc ▸ hqmem)
  have hadd : list_add s node 0 =
      (((s.setPrev q (some node)).setNext node (some q)).setPrev node
        (some 0)).setNext 0 (some node) := by
    unfold list_add
    rw [hadj0q.1]
  rw [hadd]
  set s2 := (((s.setPrev q (some node)).setNext node (some q)).setPrev node
    (some 0)).setNext 0 (some node) with hs2
  show List.Chain' (adj s2) (0 :: (node :: xs) ++ [0])
  rw [show (0 : Nat) :: (node :: xs) ++ [0] = [0, node] ++ (xs ++ [0]) from rfl]
  rw [List.chain'_append]
  refine ⟨?_, ?_, ?_⟩
  · -- [0, node]:  0 -> node
    refine List.chain'_cons.mpr ⟨⟨?_, ?_⟩, by simp⟩
    · rw [hs2, setNext_next_same]
    · rw [hs2, setNext_prev, setPrev_prev_same]
  · -- the old chain from the first element to the sentinel is untouched
    refine chain_adj_congr (xs ++ [0]) ?_ ?_ hcv
    · intro x hx
      have hxv : x ∈ xs := by
        have hd : (xs ++ [0]).dropLast = xs := by simp
        rw [hd] at hx
        exact hx
      have hx0 : x ≠ 0 := by
        intro hc
        rw [List.nodup_cons] at hnd
        exact hnd.1 (hc ▸ hxv)
      have hxnode : x ≠ node := fun hc =>
        hfresh (hc ▸ List.mem_cons_of_mem 0 hxv)
      rw [hs2, setNext_next_ne _ _ _ _ hx0, setPrev_next,
        setNext_next_ne _ _ _ _ hxnode, setPrev_next]
    · intro y hy
      have hynode : y ≠ node := by
        intro hc
        refine hfresh ?_
        rw [← hc]
        rcases List.mem_append.mp (List.mem_of_mem_tail hy) with hh | hh
        · exact List.mem_cons_of_mem 0 hh
        · rw [List.mem_singleton.mp hh]
          exact List.mem_cons_self 0 xs
      have hyq : y ≠ q := by
        intro hc
        have hndv0 : (xs ++ [0]).Nodup := by
          rw [List.nodup_cons] at hnd
          rw [List.nodup_append]
          refine ⟨hnd.2, List.nodup_singleton 0, ?_⟩
          intro a ha ha2
          rw [List.mem_singleton.mp ha2] at ha
          exact hnd.1 ha
        have hcons : q :: (xs ++ [0]).tail = xs ++ [0] := by
          rw [hq]
          exact List.head_cons_tail _ hv_ne
        rw [← hcons, List.nodup_cons] at hndv0
        exact hndv0.1 (hc ▸ hy)
      rw [hs2, setNext_prev, setPrev_prev_ne _ _ _ _ hynode, setNext_prev,
        setPrev_prev_ne _ _ _ _ hyq]
  · -- boundary: node -> head of the old chain
    intro x hx y hy
    rw [show [(0 : Nat), node].getLast? = some node from rfl] at hx
    rw [List.head?_eq_head hv_ne] at hy
    rw [Option.mem_def, Option.some_inj] at hx hy
    rw [← hx, ← hy, ← hq]
    constructor
    · rw [hs2, setNext_next_ne _ _ _ _ hnode0, setPrev_next, setNext_next_same]
    · rw [hs2, setNext_prev, setPrev_prev_ne _ _ _ _ hq_ne_node, setNext_prev,
        setPrev_prev_same]

/-- Linking a fresh node before the sentinel turns the ring over `xs` into the
ring over `xs ++ [node]`: the link effect of `q_insert_tail`. -/
theorem list_add_tail_ring {s : PS} {xs : List Nat} {node : Nat}
    (h : ringWf s xs) (hnd : (0 :: xs).Nodup) (hfresh : node ∉ 0 :: xs) :
    ringWf (list_add_tail s node 0) (xs ++ [node]) := by
  have hu_ne : (0 : Nat) :: xs ≠ [] := by simp
  set p := (0 :: xs).getLast hu_ne with hp
  unfold ringWf at h
  rw [show (0 : Nat) :: xs ++ [0] = (0 :: xs) ++ [0] from rfl,
    List.chain'_append] at h
  obtain ⟨hcu, _, hlink⟩ := h
  have hadjp0 : adj s p 0 := by
    refine hlink p ?_ 0 ?_
    · rw [List.getLast?_eq_getLast (0 :: xs) hu_ne]
      simp
    · simp
  have hnode0 : node ≠ 0 := by
    intro hc
    exact hfresh (hc ▸ List.mem_cons_self 0 xs)
  have hpmem : p ∈ 0 :: xs := List.getLast_mem hu_ne
  have hp_ne_node : p ≠ node := fun hc => hfresh (hc ▸ hpmem)
  have hadd : list_add_tail s node 0 =
      (((s.setPrev 0 (some node)).setNext node (some 0)).setPrev node
        (some p)).setNext p (some node) := by
    unfold list_add_tail
    rw [hadjp0.2]
  rw [hadd]
  set s2 := (((s.setPrev 0 (some node)).setNext node (some 0)).setPrev node
    (some p)).setNext p (some node) with hs2
  show List.Chain' (adj s2) (0 :: (xs ++ [node]) ++ [0])
  rw [show (0 : Nat) :: (xs ++ [node]) ++ [0] = (0 :: xs) ++ [node, 0] from by simp]
  rw [List.chain'_append]
  refine ⟨?_, ?_, ?_⟩
  · -- the old chain up to the last element is untouched
    refine chain_adj_congr (0 :: xs) ?_ ?_ hcu
    · intro x hx
      have hxnode : x ≠ node := fun hc =>
        hfresh (hc ▸ List.mem_of_mem_dropLast hx)
      have hxp : x ≠ p := by
        intro hc
        refine getLast_not_mem_dropLast hu_ne hnd ?_
        rw [← hp, ← hc]
        exact hx
      rw [hs2, setNext_next_ne _ _ _ _ hxp, setPrev_next,
        setNext_next_ne _ _ _ _ hxnode, setPrev_next]
    · intro y hy
      have hyxs : y ∈ xs := hy
      have hynode : y ≠ node := fun hc =>
        hfresh (hc ▸ List.mem_cons_of_mem 0 hyxs)
      have hy0 : y ≠ 0 := by
        intro hc
        rw [List.nodup_cons] at hnd
        exact hnd.1 (hc ▸ hyxs)
      rw [hs2, setNext_prev, setPrev_prev_ne _ _ _ _ hynode, setNext_prev,
        setPrev_prev_ne _ _ _ _ hy0]
  · -- [node, 0]: node -> sentinel
    refine List.chain'_cons.mpr ⟨⟨?_, ?_⟩, by simp⟩
    · rw [hs2, setNext_next_ne _ _ _ _ hp_ne_node.symm, setPrev_next,
        setNext_next_same]
    · rw [hs2, setNext_prev, setPrev_prev_ne _ _ _ _ hnode0.symm, setNext_prev,
        setPrev_prev_same]
  · -- boundary: last old element -> node
    intro x hx y hy
    rw [List.getLast?_eq_getLast (0 :: xs) hu_ne] at hx
    rw [show [node, 0].head? = some node from rfl] at hy
    rw [Option.mem_def, Option.some_inj] at hx hy
    rw [← hx, ← hy]
    constructor
    · rw [hs2, setNext_next_same]
    · rw [hs2, setNext_prev, setPrev_prev_same]

/-- On a well-formed ring, a node's `next` is the following element (or the
sentinel when it is last). -/
theorem ringWf_next_eq {s : PS} {u w : List Nat} {x : Nat}
    (h : ringWf s (u ++ x :: w)) :
    s.next x = some ((w ++ [0]).head (by simp)) := by
  have hv_ne : w ++ [0] ≠ [] := by simp
  unfold ringWf at h
  rw [show (0 : Nat) :: (u ++ x :: w) ++ [0] = (0 :: u) ++ x :: (w ++ [0]) from by
    simp] at h
  rw [List.chain'_append] at h
  obtain ⟨_, hx, _⟩ := h
  rw [List.chain'_cons'] at hx
  have hr := hx.1 ((w ++ [0]).head hv_ne) (by rw [List.head?_eq_head hv_ne]; simp)
  exact hr.1

/-- On a well-formed ring, `head->next` is the first element (or the sentinel
itself when empty). -/
theorem ringWf_next_zero {s : PS} {ys : List Nat} (h : ringWf s ys) :
    s.next 0 = some ((ys ++ [0]).head (by simp)) := by
  have hv_ne : ys ++ [0] ≠ [] := by simp
  unfold ringWf at h
  rw [List.cons_append, List.chain'_cons'] at h
  have hr := h.1 ((ys ++ [0]).head hv_ne) (by rw [List.head?_eq_head hv_ne]; simp)
  exact hr.1

/-- On a well-formed ring, `head->prev` is the last element (or the sentinel
itself when empty). -/
theorem ringWf_prev_zero {s : PS} {ys : List Nat} (h : ringWf s ys) :
    s.prev 0 = some ((0 :: ys).getLast (by simp)) := by
  unfold ringWf at h
  rw [List.chain'_append] at h
  obtain ⟨_, _, hlink⟩ := h
  have := hlink ((0 :: ys).getLast (by simp))
    (by rw [List.getLast?_eq_getLast _ (by simp)]; simp) 0 (by simp)
  exact this.2

/-- One iteration body of `q_swap`: the six pointer writes in program order
(`a->prev->next = b; b->prev = a->prev; a->prev = b; a->next = b->next;
b->next->prev = a; b->next = a`), every read evaluated in the state left by
the previous write. -/
def swapBody (s : PS) (a b : Nat) : PS :=
  match s.prev a with
  | none => s
  | some ap =>
    let s1 := s.setNext ap (some b)
    match s1.prev a with
    | none => s1
    | some ap2 =>
      let s2 := s1.setPrev b (some ap2)
      let s3 := s2.setPrev a (some b)
      match s3.next b with
      | none => s3
      | some bn =>
        let s4 := s3.setNext a (some bn)
        match s4.next b with
        | none => s4
        | some bn2 =>
          let s5 := s4.setPrev bn2 (some a)
          s5.setNext b (some a)

/-- The `do while` loop of `q_swap` with fuel: read `b = a->next`, run the
body, step `a = a->next; b = a->next`, continue while neither is the
sentinel. -/
def swapGo : Nat → PS → Nat → PS
  | 0, s, _ => s
  | fuel + 1, s, a =>
    match s.next a with
    | none => s
    | some b =>
      let s2 := swapBody s a b
      match s2.next a with
      | none => s2
      | some a2 =>
        match s2.next a2 with
        | none => s2
        | some b2 =>
          if a2 ≠ 0 ∧ b2 ≠ 0 then swapGo fuel s2 a2 else s2

/-- `q_swap` at pointer level: return unchanged when the list is empty
(`head->next == head`) or singular (`head->next == head->prev`); otherwise
run the loop from the first element. -/
def q_swap_ptr (s : PS) (fuel : Nat) : PS :=
  if s.next 0 = some 0 then s
  else if s.next 0 = s.prev 0 then s
  else
    match s.next 0 with
    | none => s
    | some a => swapGo fuel s a

/-- The six writes of the swap body exchange the adjacent pair in the ring. -/
theorem swapBody_ring {s : PS} {pre rest : List Nat} {a b : Nat}
    (h : ringWf s (pre ++ a :: b :: rest))
    (hnd : (0 :: pre ++ a :: b :: rest).Nodup) :
    ringWf (swapBody s a b) (pre ++ b :: a :: rest) := by
  have hu_ne : (0 : Nat) :: pre ≠ [] := by simp
  set p := (0 :: pre).getLast hu_ne with hp
  have hv_ne : rest ++ [0] ≠ [] := by simp
  set q := (rest ++ [0]).head hv_ne with hq
  -- decompose the old ring
  have h2 := h
  unfold ringWf at h2
  rw [show (0 : Nat) :: (pre ++ a :: b :: rest) ++ [0] =
      (0 :: pre) ++ a :: b :: (rest ++ [0]) from by simp] at h2
  rw [List.chain'_append] at h2
  obtain ⟨hcu, hcab, hlink⟩ := h2
  rw [List.chain'_cons] at hcab
  obtain ⟨hab, hcb⟩ := hcab
  rw [List.chain'_cons'] at hcb
  obtain ⟨hbq0, hcv⟩ := hcb
  have hbq : adj s b q := hbq0 q (by rw [List.head?_eq_head hv_ne]; simp)
  have hpa : adj s p a := by
    refine hlink p ?_ a ?_
    · rw [List.getLast?_eq_getLast _ hu_ne]
      simp
    · simp
  -- nodup bookkeeping
  have hnd2 := hnd
  rw [show (0 : Nat) :: pre ++ a :: b :: rest = (0 :: pre) ++ a :: b :: rest from rfl,
    List.nodup_append] at hnd2
  obtain ⟨hndu, hndr, hdisj⟩ := hnd2
  rw [List.nodup_cons] at hndr
  obtain ⟨ha_nbr, hndr2⟩ := hndr
  rw [List.nodup_cons] at hndr2
  obtain ⟨hb_nr, hndrest⟩ := hndr2
  have hpmem : p ∈ 0 :: pre := List.getLast_mem hu_ne
  have hqmem : q ∈ 0 :: rest := by
    have hh : q ∈ rest ++ [0] := by
      rw [hq]
      exact List.head_mem hv_ne
    rcases List.mem_append.mp hh with hh | hh
    · exact List.mem_cons_of_mem 0 hh
    · rw [List.mem_singleton.mp hh]
      exact List.mem_cons_self 0 rest
  have hab_ne : a ≠ b := by
    intro hc
    exact ha_nbr (hc ▸ List.mem_cons_self b rest)
  have hpa_ne : p ≠ a := fun hc => hdisj (hc ▸ hpmem) (List.mem_cons_self a _)
  have hpb_ne : p ≠ b := fun hc =>
    hdisj (hc ▸ hpmem) (List.mem_cons_of_mem a (List.mem_cons_self b rest))
  have hqa_ne : q ≠ a := by
    intro hc
    rcases List.mem_cons.mp hqmem with hc2 | hc2
    · exact hdisj (by rw [← hc, hc2]; exact List.mem_cons_self 0 pre)
        (List.mem_cons_self a _)
    · exact ha_nbr (List.mem_cons_of_mem b (hc ▸ hc2))
  have hqb_ne : q ≠ b := by
    intro hc
    rcases List.mem_cons.mp hqmem with hc2 | hc2
    · exact hdisj (by rw [← hc, hc2]; exact List.mem_cons_self 0 pre)
        (List.mem_cons_of_mem a (List.mem_cons_self b rest))
    · exact hb_nr (hc ▸ hc2)
  -- evaluate the body
  have hread1 : s.prev a = some p := hpa.2
  have hread2 : (s.setNext p (some b)).prev a = some p := hread1
  have hread3 :
      (((s.setNext p (some b)).setPrev b (some p)).setPrev a (some b)).next b =
        some q := by
    rw [setPrev_next, setPrev_next, setNext_next_ne _ _ _ _ hpb_ne.symm]
    exact hbq.1
  have hread4 :
      ((((s.setNext p (some b)).setPrev b (some p)).setPrev a (some b)).setNext a
        (some q)).next b = some q := by
    rw [setNext_next_ne _ _ _ _ hab_ne.symm]
    exact hread3
  have hbody : swapBody s a b =
      (((((s.setNext p (some b)).setPrev b (some p)).setPrev a (some b)).setNext a
        (some q)).setPrev q (some a)).setNext b (some a) := by
    simp only [swapBody, hread1, hread2, hread3, hread4]
  rw [hbody]
  set s6 := (((((s.setNext p (some b)).setPrev b (some p)).setPrev a
    (some b)).setNext a (some q)).setPrev q (some a)).setNext b (some a) with hs6
  -- target ring
  show List.Chain' (adj s6) (0 :: (pre ++ b :: a :: rest) ++ [0])
  rw [show (0 : Nat) :: (pre ++ b :: a :: rest) ++ [0] =
      (0 :: pre) ++ b :: a :: (rest ++ [0]) from by simp]
  rw [List.chain'_append]
  refine ⟨?_, ?_, ?_⟩
  · refine chain_adj_congr (0 :: pre) ?_ ?_ hcu
    · intro x hx
      have hxp : x ≠ p := by
        intro hc
        refine getLast_not_mem_dropLast hu_ne hndu ?_
        rw [← hp, ← hc]
        exact hx
      have hxmem : x ∈ 0 :: pre := List.mem_of_mem_dropLast hx
      have hxa : x ≠ a := fun hc => hdisj (hc ▸ hxmem) (List.mem_cons_self a _)
      have hxb : x ≠ b := fun hc =>
        hdisj (hc ▸ hxmem) (List.mem_cons_of_mem a (List.mem_cons_self b rest))
      rw [hs6, setNext_next_ne _ _ _ _ hxb, setPrev_next,
        setNext_next_ne _ _ _ _ hxa, setPrev_next, setPrev_next,
        setNext_next_ne _ _ _ _ hxp]
    · intro y hy
      have hymem : y ∈ 0 :: pre := List.mem_cons_of_mem 0 hy
      have hya : y ≠ a := fun hc => hdisj (hc ▸ hymem) (List.mem_cons_self a _)
      have hyb : y ≠ b := fun hc =>
        hdisj (hc ▸ hymem) (List.mem_cons_of_mem a (List.mem_cons_self b rest))
      have hyq : y ≠ q := by
        intro hc
        rcases List.mem_cons.mp hqmem with hc2 | hc2
        · rw [hc2] at hc
          rw [List.nodup_cons] at hndu
          exact hndu.1 (hc ▸ hy)
        · exact hdisj (List.mem_cons_of_mem 0 (hc ▸ hy))
            (List.mem_cons_of_mem a (List.mem_cons_of_mem b hc2))
      rw [hs6, setNext_prev, setPrev_prev_ne _ _ _ _ hyq, setNext_prev,
        setPrev_prev_ne _ _ _ _ hya, setPrev_prev_ne _ _ _ _ hyb, setNext_prev]
  · -- the middle chain b :: a :: (rest ++ [0])
    rw [List.chain'_cons]
    refine ⟨⟨?_, ?_⟩, ?_⟩
    · rw [hs6, setNext_next_same]
    · rw [hs6, setNext_prev, setPrev_prev_ne _ _ _ _ hqa_ne.symm, setNext_prev,
        setPrev_prev_same]
    · rw [List.chain'_cons']
      refine ⟨?_, ?_⟩
      · intro y hy
        rw [List.head?_eq_head hv_ne, Option.mem_def, Option.some_inj] at hy
        rw [← hy, ← hq]
        constructor
        · rw [hs6, setNext_next_ne _ _ _ _ hab_ne, setPrev_next,
            setNext_next_same]
        · rw [hs6, setNext_prev, setPrev_prev_same]
      · refine chain_adj_congr (rest ++ [0]) ?_ ?_ hcv
        · intro x hx
          have hxrest : x ∈ rest := by
            have hd : (rest ++ [0]).dropLast = rest := by simp
            rw [hd] at hx
            exact hx
          have hxa : x ≠ a := fun hc => ha_nbr (List.mem_cons_of_mem b (hc ▸ hxrest))
          have hxb : x ≠ b := fun hc => hb_nr (hc ▸ hxrest)
          have hxp : x ≠ p := fun hc =>
            hdisj (hc ▸ hpmem)
              (List.mem_cons_of_mem a (List.mem_cons_of_mem b hxrest))
          rw [hs6, setNext_next_ne _ _ _ _ hxb, setPrev_next,
            setNext_next_ne _ _ _ _ hxa, setPrev_next, setPrev_next,
            setNext_next_ne _ _ _ _ hxp]
        · intro y hy
          have hymem : y ∈ rest ++ [0] := List.mem_of_mem_tail hy
          have hym2 : y ∈ 0 :: rest := by
            rcases List.mem_append.mp hymem with hh | hh
            · exact List.mem_cons_of_mem 0 hh
            · rw [List.mem_singleton.mp hh]
              exact List.mem_cons_self 0 rest
          have hya : y ≠ a := by
            intro hc
            rcases List.mem_cons.mp hym2 with hc2 | hc2
            · exact hdisj (by rw [← hc, hc2]; exact List.mem_cons_self 0 pre)
                (List.mem_cons_self a _)
            · exact ha_nbr (List.mem_cons_of_mem b (hc ▸ hc2))
          have hyb : y ≠ b := by
            intro hc
            rcases List.mem_cons.mp hym2 with hc2 | hc2
            · exact hdisj (by rw [← hc, hc2]; exact List.mem_cons_self 0 pre)
                (List.mem_cons_of_mem a (List.mem_cons_self b rest))
            · exact hb_nr (hc ▸ hc2)
          have hyq : y ≠ q := by
            intro hc
            have hndv0 : (rest ++ [0]).Nodup := by
              rw [List.nodup_append]
              refine ⟨hndrest, List.nodup_singleton 0, ?_⟩
              intro c hc1 hc2
              rw [List.mem_singleton.mp hc2] at hc1
              exact hdisj (List.mem_cons_self 0 pre)
                (List.mem_cons_of_mem a (List.mem_cons_of_mem b hc1))
            have hcons : q :: (rest ++ [0]).tail = rest ++ [0] := by
              rw [hq]
              exact List.head_cons_tail _ hv_ne
            rw [← hcons, List.nodup_cons] at hndv0
            exact hndv0.1 (hc ▸ hy)
          rw [hs6, setNext_prev, setPrev_prev_ne _ _ _ _ hyq, setNext_prev,
            setPrev_prev_ne _ _ _ _ hya, setPrev_prev_ne _ _ _ _ hyb,
            setNext_prev]
  · -- boundary p -> b
    intro x hx y hy
    rw [List.getLast?_eq_getLast _ hu_ne] at hx
    rw [show (b :: a :: (rest ++ [0])).head? = some b from rfl] at hy
    rw [Option.mem_def, Option.some_inj] at hx hy
    rw [← hx, ← hy, ← hp]
    constructor
    · rw [hs6, setNext_next_ne _ _ _ _ hpb_ne, setPrev_next,
        setNext_next_ne _ _ _ _ hpa_ne, setPrev_next, setPrev_next,
        setNext_next_same]
    · rw [hs6, setNext_prev, setPrev_prev_ne _ _ _ _ hqb_ne.symm, setNext_prev,
        setPrev_prev_ne _ _ _ _ hab_ne.symm, setPrev_prev_same]

/-- The swap loop turns the ring over `pre ++ a :: b :: rest` into the ring
over `pre ++ swapLoop (a :: b :: rest)`, given enough fuel. -/
theorem swapGo_ring : ∀ (fuel : Nat) (s : PS) (pre : List Nat) (a b : Nat)
    (rest : List Nat),
    ringWf s (pre ++ a :: b :: rest) →
    (0 :: pre ++ a :: b :: rest).Nodup →
    rest.length < fuel →
    ringWf (swapGo fuel s a) (pre ++ swapLoop (a :: b :: rest)) := by
  intro fuel
  induction fuel with
  | zero =>
    intro s pre a b rest _ _ hf
    omega
  | succ f ih =>
    intro s pre a b rest h hnd hf
    have hnext_a : s.next a = some b := by
      have hr := @ringWf_next_eq _ pre (b :: rest) _ h
      simpa using hr
    have h2 : ringWf (swapBody s a b) (pre ++ b :: a :: rest) := swapBody_ring h hnd
    have hnd2 : ((0 :: pre) ++ b :: a :: rest).Nodup := by
      refine List.Perm.nodup ?_ hnd
      exact (List.Perm.swap b a rest).append_left (0 :: pre)
    have hzero_notin : (0 : Nat) ∉ pre ++ a :: b :: rest := by
      have hnd3 := hnd
      rw [List.cons_append, List.nodup_cons] at hnd3
      exact hnd3.1
    have hnext_a2 : (swapBody s a b).next a = some ((rest ++ [0]).head (by simp)) := by
      refine @ringWf_next_eq _ (pre ++ [b]) rest _ ?_
      rw [show (pre ++ [b]) ++ a :: rest = pre ++ b :: a :: rest from by simp]
      exact h2
    rcases rest with _ | ⟨r1, rest1⟩
    · -- rest = []: a2 = 0, stop
      have hnext_a2e : (swapBody s a b).next a = some 0 := by simpa using hnext_a2
      have hz := ringWf_next_zero h2
      have hgo : swapGo (f + 1) s a = swapBody s a b := by
        simp only [swapGo, hnext_a, hnext_a2e, hz]
        rw [if_neg (by simp)]
      rw [hgo]
      exact h2
    · rcases rest1 with _ | ⟨r2, rest2⟩
      · -- rest = [r1]: a2 = r1, b2 = 0, stop
        have hnext_a2e : (swapBody s a b).next a = some r1 := by simpa using hnext_a2
        have hrw1 : ringWf (swapBody s a b) ((pre ++ [b, a]) ++ r1 :: ([] : List Nat)) := by
          rw [show (pre ++ [b, a]) ++ r1 :: ([] : List Nat) =
            pre ++ b :: a :: [r1] from by simp]
          exact h2
        have hnext_r1 : (swapBody s a b).next r1 = some 0 := by
          have hr := ringWf_next_eq hrw1
          simpa using hr
        have hgo : swapGo (f + 1) s a = swapBody s a b := by
          simp only [swapGo, hnext_a, hnext_a2e, hnext_r1]
          rw [if_neg (by simp)]
        rw [hgo]
        exact h2
      · -- rest = r1 :: r2 :: rest2: continue
        have hnext_a2e : (swapBody s a b).next a = some r1 := by simpa using hnext_a2
        have hrw1 : ringWf (swapBody s a b) ((pre ++ [b, a]) ++ r1 :: r2 :: rest2) := by
          rw [show (pre ++ [b, a]) ++ r1 :: r2 :: rest2 =
            pre ++ b :: a :: r1 :: r2 :: rest2 from by simp]
          exact h2
        have hnext_r1 : (swapBody s a b).next r1 = some r2 := by
          have hr := ringWf_next_eq hrw1
          simpa using hr
        have hr1_ne : r1 ≠ 0 := by
          intro hc
          refine hzero_notin ?_
          rw [← hc]
          exact List.mem_append_right pre (by simp)
        have hr2_ne : r2 ≠ 0 := by
          intro hc
          refine hzero_notin ?_
          rw [← hc]
          exact List.mem_append_right pre (by simp)
        have hgo : swapGo (f + 1) s a = swapGo f (swapBody s a b) r1 := by
          simp only [swapGo, hnext_a, hnext_a2e, hnext_r1]
          rw [if_pos ⟨hr1_ne, hr2_ne⟩]
        rw [hgo]
        have hih := ih (swapBody s a b) (pre ++ [b, a]) r1 r2 rest2 ?_ ?_ ?_
        · rw [show (pre ++ [b, a]) ++ swapLoop (r1 :: r2 :: rest2) =
              pre ++ b :: a :: swapLoop (r1 :: r2 :: rest2) from by simp] at hih
          rw [show swapLoop (a :: b :: r1 :: r2 :: rest2) =
              b :: a :: swapLoop (r1 :: r2 :: rest2) from rfl]
          exact hih
        · rw [show (pre ++ [b, a]) ++ r1 :: r2 :: rest2 =
              pre ++ b :: a :: r1 :: r2 :: rest2 from by simp]
          exact h2
        · rw [show (0 : Nat) :: (pre ++ [b, a]) ++ r1 :: r2 :: rest2 =
              (0 :: pre) ++ b :: a :: r1 :: r2 :: rest2 from by simp]
          exact hnd2
        · simp only [List.length_cons] at hf
          omega

/-- **Pointer-level `q_swap`**: the guards and the loop preserve the ring
invariant, producing the ring of the pairwise-swapped order. -/
theorem q_swap_ptr_ring {s : PS} {xs : List Nat} (fuel : Nat)
    (h : ringWf s xs) (hnd : (0 :: xs).Nodup) (hf : xs.length ≤ fuel + 1) :
    ringWf (q_swap_ptr s fuel) (q_swapList xs) := by
  rcases xs with _ | ⟨x, xs1⟩
  · have hz : s.next 0 = some 0 := by simpa using ringWf_next_zero h
    unfold q_swap_ptr
    rw [if_pos hz]
    exact h
  · have hx_ne : x ≠ 0 := by
      rw [List.nodup_cons] at hnd
      intro hc
      exact hnd.1 (hc ▸ List.mem_cons_self x xs1)
    have hz : s.next 0 = some x := by simpa using ringWf_next_zero h
    rcases xs1 with _ | ⟨y, rest⟩
    · -- singular
      have hp : s.prev 0 = some x := by simpa using ringWf_prev_zero h
      unfold q_swap_ptr
      rw [if_neg (by rw [hz]; simp [hx_ne]), if_pos (by rw [hz, hp])]
      exact h
    · have hp : s.prev 0 = some ((0 :: x :: y :: rest).getLast (by simp)) :=
        ringWf_prev_zero h
      have hlast_eq : (0 :: x :: y :: rest).getLast (by simp) =
          (y :: rest).getLast (by simp) := by
        rw [List.getLast_cons, List.getLast_cons]
      have hlast_mem : (y :: rest).getLast (by simp) ∈ y :: rest :=
        List.getLast_mem _
      have hx_ne_last : x ≠ (y :: rest).getLast (by simp) := by
        intro hc
        rw [List.nodup_cons, List.nodup_cons] at hnd
        exact hnd.2.1 (hc ▸ hlast_mem)
      rw [hlast_eq] at hp
      unfold q_swap_ptr
      rw [if_neg (by rw [hz]; simp [hx_ne]),
        if_neg (by rw [hz, hp]; simp [hx_ne_last]), hz]
      have hgo := swapGo_ring fuel s [] x y rest h (by simpa using hnd) ?_
      · rw [show ([] : List Nat) ++ swapLoop (x :: y :: rest) =
            swapLoop (x :: y :: rest) from rfl] at hgo
        rw [show q_swapList (x :: y :: rest) = swapLoop (x :: y :: rest) from by
          unfold q_swapList
          rw [if_neg (by simp)]]
        exact hgo
      · simp only [List.length_cons] at hf
        omega

/-- The non-adjacent branch of `q_reverse`'s loop body: exchange the positions
of `a` and `b` (ten pointer writes in program order; `tmp` reads are performed
at the states the C sequence reads them in). -/
def revGen (s : PS) (a b : Nat) : PS :=
  match s.prev a with
  | none => s
  | some ap =>
    let s1 := s.setNext ap (some b)
    match s1.prev b with
    | none => s1
    | some bp =>
      let s2 := s1.setNext bp (some a)
      match s2.prev a, s2.prev b with
      | some tmp, some bp2 =>
        let s3 := (s2.setPrev a (some bp2)).setPrev b (some tmp)
        match s3.next a with
        | none => s3
        | some an =>
          let s4 := s3.setPrev an (some b)
          match s4.next b with
          | none => s4
          | some bn =>
            let s5 := s4.setPrev bn (some a)
            match s5.next a, s5.next b with
            | some tmp2, some bn2 =>
              (s5.setNext a (some bn2)).setNext b (some tmp2)
            | _, _ => s5
      | _, _ => s2

/-- The adjacent branch (`a->next == b`) of `q_reverse`'s loop body. -/
def revAdj (s : PS) (a b : Nat) : PS :=
  match s.prev a with
  | none => s
  | some ap =>
    let s1 := s.setNext ap (some b)
    match s1.prev a with
    | none => s1
    | some ap2 =>
      let s2 := s1.setPrev b (some ap2)
      match s2.next b with
      | none => s2
      | some bn =>
        let s3 := s2.setPrev bn (some a)
        match s3.next b with
        | none => s3
        | some bn2 =>
          let s4 := s3.setNext a (some bn2)
          let s5 := s4.setPrev a (some b)
          s5.setNext b (some a)

/-- The `do while` loop of `q_reverse` with fuel: pick the branch on
`a->next != b`, then `tmp = a; a = b->next; b = tmp->prev`, continuing while
`a != b && a->prev != b`. -/
def revGo : Nat → PS → Nat → Nat → PS
  | 0, s, _, _ => s
  | fuel + 1, s, a, b =>
    let s2 := if s.next a = some b then revAdj s a b else revGen s a b
    match s2.next b, s2.prev a with
    | some a2, some b2 =>
      if a2 ≠ b2 ∧ s2.prev a2 ≠ some b2 then revGo fuel s2 a2 b2 else s2
    | _, _ => s2

/-- `q_reverse` at pointer level: no-op when the list is empty or singular,
otherwise run the loop with `a = head->next`, `b = head->prev`. -/
def q_reverse_ptr (s : PS) (fuel : Nat) : PS :=
  if s.next 0 = some 0 then s
  else if s.next 0 = s.prev 0 then s
  else
    match s.next 0, s.prev 0 with
    | some a, some b => revGo fuel s a b
    | _, _ => s

/-- The adjacent-case writes of `q_reverse` exchange the neighbouring pair. -/
theorem revAdj_ring {s : PS} {pre rest : List Nat} {a b : Nat}
    (h : ringWf s (pre ++ a :: b :: rest))
    (hnd : (0 :: pre ++ a :: b :: rest).Nodup) :
    ringWf (revAdj s a b) (pre ++ b :: a :: rest) := by
  have hu_ne : (0 : Nat) :: pre ≠ [] := by simp
  set p := (0 :: pre).getLast hu_ne with hp
  have hv_ne : rest ++ [0] ≠ [] := by simp
  set q := (rest ++ [0]).head hv_ne with hq
  have h2 := h
  unfold ringWf at h2
  rw [show (0 : Nat) :: (pre ++ a :: b :: rest) ++ [0] =
      (0 :: pre) ++ a :: b :: (rest ++ [0]) from by simp] at h2
  rw [List.chain'_append] at h2
  obtain ⟨hcu, hcab, hlink⟩ := h2
  rw [List.chain'_cons] at hcab
  obtain ⟨hab, hcb⟩ := hcab
  rw [List.chain'_cons'] at hcb
  obtain ⟨hbq0, hcv⟩ := hcb
  have hbq : adj s b q := hbq0 q (by rw [List.head?_eq_head hv_ne]; simp)
  have hpa : adj s p a := by
    refine hlink p ?_ a ?_
    · rw [List.getLast?_eq_getLast _ hu_ne]
      simp
    · simp
  have hnd2 := hnd
  rw [show (0 : Nat) :: pre ++ a :: b :: rest = (0 :: pre) ++ a :: b :: rest from rfl,
    List.nodup_append] at hnd2
  obtain ⟨hndu, hndr, hdisj⟩ := hnd2
  rw [List.nodup_cons] at hndr
  obtain ⟨ha_nbr, hndr2⟩ := hndr
  rw [List.nodup_cons] at hndr2
  obtain ⟨hb_nr, hndrest⟩ := hndr2
  have hpmem : p ∈ 0 :: pre := List.getLast_mem hu_ne
  have hqmem : q ∈ 0 :: rest := by
    have hh : q ∈ rest ++ [0] := by
      rw [hq]
      exact List.head_mem hv_ne
    rcases List.mem_append.mp hh with hh | hh
    · exact List.mem_cons_of_mem 0 hh
    · rw [List.mem_singleton.mp hh]
      exact List.mem_cons_self 0 rest
  have hab_ne : a ≠ b := by
    intro hc
    exact ha_nbr (hc ▸ List.mem_cons_self b rest)
  have hpa_ne : p ≠ a := fun hc => hdisj (hc ▸ hpmem) (List.mem_cons_self a _)
  have hpb_ne : p ≠ b := fun hc =>
    hdisj (hc ▸ hpmem) (List.mem_cons_of_mem a (List.mem_cons_self b rest))
  have hqa_ne : q ≠ a := by
    intro hc
    rcases List.mem_cons.mp hqmem with hc2 | hc2
    · exact hdisj (by rw [← hc, hc2]; exact List.mem_cons_self 0 pre)
        (List.mem_cons_self a _)
    · exact ha_nbr (List.mem_cons_of_mem b (hc ▸ hc2))
  have hqb_ne : q ≠ b := by
    intro hc
    rcases List.mem_cons.mp hqmem with hc2 | hc2
    · exact hdisj (by rw [← hc, hc2]; exact List.mem_cons_self 0 pre)
        (List.mem_cons_of_mem a (List.mem_cons_self b rest))
    · exact hb_nr (hc ▸ hc2)
  have hread1 : s.prev a = some p := hpa.2
  have hread2 : (s.setNext p (some b)).prev a = some p := hread1
  have hread3 : ((s.setNext p (some b)).setPrev b (some p)).next b = some q := by
    rw [setPrev_next, setNext_next_ne _ _ _ _ hpb_ne.symm]
    exact hbq.1
  have hread4 :
      (((s.setNext p (some b)).setPrev b (some p)).setPrev q (some a)).next b =
        some q := by
    rw [setPrev_next]
    exact hread3
  have hbody : revAdj s a b =
      (((((s.setNext p (some b)).setPrev b (some p)).setPrev q (some a)).setNext a
        (some q)).setPrev a (some b)).setNext b (some a) := by
    simp only [revAdj, hread1, hread2, hread3, hread4]
  rw [hbody]
  set s6 := (((((s.setNext p (some b)).setPrev b (some p)).setPrev q
    (some a)).setNext a (some q)).setPrev a (some b)).setNext b (some a) with hs6
  show List.Chain' (adj s6) (0 :: (pre ++ b :: a :: rest) ++ [0])
  rw [show (0 : Nat) :: (pre ++ b :: a :: rest) ++ [0] =
      (0 :: pre) ++ b :: a :: (rest ++ [0]) from by simp]
  rw [List.chain'_append]
  refine ⟨?_, ?_, ?_⟩
  · refine chain_adj_congr (0 :: pre) ?_ ?_ hcu
    · intro x hx
      have hxp : x ≠ p := by
        intro hc
        refine getLast_not_mem_dropLast hu_ne hndu ?_
        rw [← hp, ← hc]
        exact hx
      have hxmem : x ∈ 0 :: pre := List.mem_of_mem_dropLast hx
      have hxa : x ≠ a := fun hc => hdisj (hc ▸ hxmem) (List.mem_cons_self a _)
      have hxb : x ≠ b := fun hc =>
        hdisj (hc ▸ hxmem) (List.mem_cons_of_mem a (List.mem_cons_self b rest))
      rw [hs6, setNext_next_ne _ _ _ _ hxb, setPrev_next,
        setNext_next_ne _ _ _ _ hxa, setPrev_next, setPrev_next,
        setNext_next_ne _ _ _ _ hxp]
    · intro y hy
      have hymem : y ∈ 0 :: pre := List.mem_cons_of_mem 0 hy
      have hya : y ≠ a := fun hc => hdisj (hc ▸ hymem) (List.mem_cons_self a _)
      have hyb : y ≠ b := fun hc =>
        hdisj (hc ▸ hymem) (List.mem_cons_of_mem a (List.mem_cons_self b rest))
      have hyq : y ≠ q := by
        intro hc
        rcases List.mem_cons.mp hqmem with hc2 | hc2
        · rw [hc2] at hc
          rw [List.nodup_cons] at hndu
          exact hndu.1 (hc ▸ hy)
        · exact hdisj (List.mem_cons_of_mem 0 (hc ▸ hy))
            (List.mem_cons_of_mem a (List.mem_cons_of_mem b hc2))
      rw [hs6, setNext_prev, setPrev_prev_ne _ _ _ _ hya, setNext_prev,
        setPrev_prev_ne _ _ _ _ hyq, setPrev_prev_ne _ _ _ _ hyb, setNext_prev]
  · rw [List.chain'_cons]
    refine ⟨⟨?_, ?_⟩, ?_⟩
    · rw [hs6, setNext_next_same]
    · rw [hs6, setNext_prev, setPrev_prev_same]
    · rw [List.chain'_cons']
      refine ⟨?_, ?_⟩
      · intro y hy
        rw [List.head?_eq_head hv_ne, Option.mem_def, Option.some_inj] at hy
        rw [← hy, ← hq]
        constructor
        · rw [hs6, setNext_next_ne _ _ _ _ hab_ne, setPrev_next,
            setNext_next_same]
        · rw [hs6, setNext_prev, setPrev_prev_ne _ _ _ _ hqa_ne, setNext_prev,
            setPrev_prev_same]
      · refine chain_adj_congr (rest ++ [0]) ?_ ?_ hcv
        · intro x hx
          have hxrest : x ∈ rest := by
            have hd : (rest ++ [0]).dropLast = rest := by simp
            rw [hd] at hx
            exact hx
          have hxa : x ≠ a := fun hc => ha_nbr (List.mem_cons_of_mem b (hc ▸ hxrest))
          have hxb : x ≠ b := fun hc => hb_nr (hc ▸ hxrest)
          have hxp : x ≠ p := fun hc =>
            hdisj (hc ▸ hpmem)
              (List.mem_cons_of_mem a (List.mem_cons_of_mem b hxrest))
          rw [hs6, setNext_next_ne _ _ _ _ hxb, setPrev_next,
            setNext_next_ne _ _ _ _ hxa, setPrev_next, setPrev_next,
            setNext_next_ne _ _ _ _ hxp]
        · intro y hy
          have hymem : y ∈ rest ++ [0] := List.mem_of_mem_tail hy
          have hym2 : y ∈ 0 :: rest := by
            rcases List.mem_append.mp hymem with hh | hh
            · exact List.mem_cons_of_mem 0 hh
            · rw [List.mem_singleton.mp hh]
              exact List.mem_cons_self 0 rest
          have hya : y ≠ a := by
            intro hc
            rcases List.mem_cons.mp hym2 with hc2 | hc2
            · exact hdisj (by rw [← hc, hc2]; exact List.mem_cons_self 0 pre)
                (List.mem_cons_self a _)
            · exact ha_nbr (List.mem_cons_of_mem b (hc ▸ hc2))
          have hyb : y ≠ b := by
            intro hc
            rcases List.mem_cons.mp hym2 with hc2 | hc2
            · exact hdisj (by rw [← hc, hc2]; exact List.mem_cons_self 0 pre)
                (List.mem_cons_of_mem a (List.mem_cons_self b rest))
            · exact hb_nr (hc ▸ hc2)
          have hyq : y ≠ q := by
            intro hc
            have hndv0 : (rest ++ [0]).Nodup := by
              rw [List.nodup_append]
              refine ⟨hndrest, List.nodup_singleton 0, ?_⟩
              intro c hc1 hc2
              rw [List.mem_singleton.mp hc2] at hc1
              exact hdisj (List.mem_cons_self 0 pre)
                (List.mem_cons_of_mem a (List.mem_cons_of_mem b hc1))
            have hcons : q :: (rest ++ [0]).tail = rest ++ [0] := by
              rw [hq]
              exact List.head_cons_tail _ hv_ne
            rw [← hcons, List.nodup_cons] at hndv0
            exact hndv0.1 (hc ▸ hy)
          rw [hs6, setNext_prev, setPrev_prev_ne _ _ _ _ hya, setNext_prev,
            setPrev_prev_ne _ _ _ _ hyq, setPrev_prev_ne _ _ _ _ hyb,
            setNext_prev]
  · intro x hx y hy
    rw [List.getLast?_eq_getLast _ hu_ne] at hx
    rw [show (b :: a :: (rest ++ [0])).head? = some b from rfl] at hy
    rw [Option.mem_def, Option.some_inj] at hx hy
    rw [← hx, ← hy, ← hp]
    constructor
    · rw [hs6, setNext_next_ne _ _ _ _ hpb_ne, setPrev_next,
        setNext_next_ne _ _ _ _ hpa_ne, setPrev_next, setPrev_next,
        setNext_next_same]
    · rw [hs6, setNext_prev, setPrev_prev_ne _ _ _ _ hab_ne.symm, setNext_prev,
        setPrev_prev_ne _ _ _ _ hqb_ne.symm, setPrev_prev_same]

/-- The general-case writes of `q_reverse` exchange the positions of the two
walkers `a` and `b` around the untouched middle segment `M`. -/
theorem revGen_ring {s : PS} {pre M rest : List Nat} {a b : Nat} (hM : M ≠ [])
    (h : ringWf s (pre ++ a :: (M ++ b :: rest)))
    (hnd : (0 :: pre ++ a :: (M ++ b :: rest)).Nodup) :
    ringWf (revGen s a b) (pre ++ b :: (M ++ a :: rest)) := by
  have hu_ne : (0 : Nat) :: pre ≠ [] := by simp
  set p := (0 :: pre).getLast hu_ne with hp
  have hv_ne : rest ++ [0] ≠ [] := by simp
  set q := (rest ++ [0]).head hv_ne with hq
  set m1 := M.head hM with hm1
  set m2 := M.getLast hM with hm2
  -- decompose the old ring
  have h2 := h
  unfold ringWf at h2
  rw [show (0 : Nat) :: (pre ++ a :: (M ++ b :: rest)) ++ [0] =
      (0 :: pre) ++ a :: (M ++ b :: (rest ++ [0])) from by simp] at h2
  rw [List.chain'_append] at h2
  obtain ⟨hcu, hcam, hlink⟩ := h2
  rw [List.chain'_cons'] at hcam
  obtain ⟨ham0, hcm⟩ := hcam
  have ham : adj s a m1 := by
    refine ham0 m1 ?_
    rw [List.head?_append_of_ne_nil M hM, hm1, List.head?_eq_head hM]
    simp
  rw [List.chain'_append] at hcm
  obtain ⟨hcM, hcb, hlink2⟩ := hcm
  rw [List.chain'_cons'] at hcb
  obtain ⟨hbq0, hcv⟩ := hcb
  have hbq : adj s b q := hbq0 q (by rw [List.head?_eq_head hv_ne]; simp)
  have hm2b : adj s m2 b := by
    refine hlink2 m2 ?_ b ?_
    · rw [List.getLast?_eq_getLast _ hM]
      simp
    · simp
  have hpa : adj s p a := by
    refine hlink p ?_ a ?_
    · rw [List.getLast?_eq_getLast _ hu_ne]
      simp
    · simp
  -- nodup bookkeeping
  have hnd2 := hnd
  rw [show (0 : Nat) :: pre ++ a :: (M ++ b :: rest) =
      (0 :: pre) ++ a :: (M ++ b :: rest) from rfl, List.nodup_append] at hnd2
  obtain ⟨hndu, hndr, hdisj⟩ := hnd2
  rw [List.nodup_cons] at hndr
  obtain ⟨ha_nMbr, hndr2⟩ := hndr
  rw [List.nodup_append] at hndr2
  obtain ⟨hndM, hndbr, hdisjM⟩ := hndr2
  rw [List.nodup_cons] at hndbr
  obtain ⟨hb_nr, hndrest⟩ := hndbr
  have hb_nM : b ∉ M := fun hc => hdisjM hc (List.mem_cons_self b rest)
  have ha_nM : a ∉ M := fun hc => ha_nMbr (List.mem_append_left _ hc)
  have ha_nbr : a ∉ b :: rest := fun hc => ha_nMbr (List.mem_append_right _ hc)
  have hpmem : p ∈ 0 :: pre := List.getLast_mem hu_ne
  have hm1mem : m1 ∈ M := by
    rw [hm1]
    exact List.head_mem hM
  have hm2mem : m2 ∈ M := by
    rw [hm2]
    exact List.getLast_mem hM
  have hqmem : q ∈ 0 :: rest := by
    have hh : q ∈ rest ++ [0] := by
      rw [hq]
      exact List.head_mem hv_ne
    rcases List.mem_append.mp hh with hh | hh
    · exact List.mem_cons_of_mem 0 hh
    · rw [List.mem_singleton.mp hh]
      exact List.mem_cons_self 0 rest
  have hmemMr : ∀ x, x ∈ M → x ∈ a :: (M ++ b :: rest) :=
    fun x hx => List.mem_cons_of_mem a (List.mem_append_left _ hx)
  have hmemBr : a ∈ a :: (M ++ b :: rest) := List.mem_cons_self _ _
  have hmemB : b ∈ a :: (M ++ b :: rest) :=
    List.mem_cons_of_mem a (List.mem_append_right _ (List.mem_cons_self b rest))
  -- disequalities
  have hab_ne : a ≠ b := fun hc => ha_nbr (hc ▸ List.mem_cons_self b rest)
  have hpa_ne : p ≠ a := fun hc => hdisj (hc ▸ hpmem) hmemBr
  have hpb_ne : p ≠ b := fun hc => hdisj (hc ▸ hpmem) hmemB
  have hpm1_ne : p ≠ m1 := fun hc => hdisj (hc ▸ hpmem) (hmemMr m1 hm1mem)
  have hpm2_ne : p ≠ m2 := fun hc => hdisj (hc ▸ hpmem) (hmemMr m2 hm2mem)
  have ham1_ne : a ≠ m1 := fun hc => ha_nM (hc ▸ hm1mem)
  have ham2_ne : a ≠ m2 := fun hc => ha_nM (hc ▸ hm2mem)
  have hbm1_ne : b ≠ m1 := fun hc => hb_nM (hc ▸ hm1mem)
  have hbm2_ne : b ≠ m2 := fun hc => hb_nM (hc ▸ hm2mem)
  have hqa_ne : q ≠ a := by
    intro hc
    rcases List.mem_cons.mp hqmem with hc2 | hc2
    · exact hdisj (by rw [← hc, hc2]; exact List.mem_cons_self 0 pre) hmemBr
    · exact ha_nbr (List.mem_cons_of_mem b (hc ▸ hc2))
  have hqb_ne : q ≠ b := by
    intro hc
    rcases List.mem_cons.mp hqmem with hc2 | hc2
    · exact hdisj (by rw [← hc, hc2]; exact List.mem_cons_self 0 pre) hmemB
    · exact hb_nr (hc ▸ hc2)
  have hqm1_ne : q ≠ m1 := by
    intro hc
    rcases List.mem_cons.mp hqmem with hc2 | hc2
    · exact hdisj (by rw [← hc, hc2]; exact List.mem_cons_self 0 pre)
        (hmemMr m1 hm1mem)
    · exact hdisjM hm1mem (List.mem_cons_of_mem b (by rw [← hc]; exact hc2))
  have hqm2_ne : q ≠ m2 := by
    intro hc
    rcases List.mem_cons.mp hqmem with hc2 | hc2
    · exact hdisj (by rw [← hc, hc2]; exact List.mem_cons_self 0 pre)
        (hmemMr m2 hm2mem)
    · exact hdisjM hm2mem (List.mem_cons_of_mem b (by rw [← hc]; exact hc2))
  -- evaluate the body
  have hr1 : s.prev a = some p := hpa.2
  have hr2 : (s.setNext p (some b)).prev b = some m2 := hm2b.2
  have hr3 : ((s.setNext p (some b)).setNext m2 (some a)).prev a = some p := hr1
  have hr4 : ((s.setNext p (some b)).setNext m2 (some a)).prev b = some m2 := hm2b.2
  have hr5 :
      ((((s.setNext p (some b)).setNext m2 (some a)).setPrev a (some m2)).setPrev b
        (some p)).next a = some m1 := by
    rw [setPrev_next, setPrev_next, setNext_next_ne _ _ _ _ ham2_ne,
      setNext_next_ne _ _ _ _ hpa_ne.symm]
    exact ham.1
  have hr6 :
      (((((s.setNext p (some b)).setNext m2 (some a)).setPrev a (some m2)).setPrev b
        (some p)).setPrev m1 (some b)).next b = some q := by
    rw [setPrev_next, setPrev_next, setPrev_next, setNext_next_ne _ _ _ _ hbm2_ne,
      setNext_next_ne _ _ _ _ hpb_ne.symm]
    exact hbq.1
  have hr7 :
      ((((((s.setNext p (some b)).setNext m2 (some a)).setPrev a (some m2)).setPrev b
        (some p)).setPrev m1 (some b)).setPrev q (some a)).next a = some m1 := by
    rw [setPrev_next]
    exact hr5
  have hr8 :
      ((((((s.setNext p (some b)).setNext m2 (some a)).setPrev a (some m2)).setPrev b
        (some p)).setPrev m1 (some b)).setPrev q (some a)).next b = some q := by
    rw [setPrev_next]
    exact hr6
  have hbody : revGen s a b =
      (((((((s.setNext p (some b)).setNext m2 (some a)).setPrev a (some m2)).setPrev b
        (some p)).setPrev m1 (some b)).setPrev q (some a)).setNext a
        (some q)).setNext b (some m1) := by
    simp only [revGen, hr1, hr2, hr3, hr4, hr5, hr6, hr7, hr8]
  rw [hbody]
  set s6 := (((((((s.setNext p (some b)).setNext m2 (some a)).setPrev a
    (some m2)).setPrev b (some p)).setPrev m1 (some b)).setPrev q
    (some a)).setNext a (some q)).setNext b (some m1) with hs6
  -- generic field computations on s6
  have hnextv : ∀ x : Nat, x ≠ b → x ≠ a → x ≠ m2 → x ≠ p → s6.next x = s.next x := by
    intro x h1 h2 h3 h4
    rw [hs6, setNext_next_ne _ _ _ _ h1, setNext_next_ne _ _ _ _ h2, setPrev_next,
      setPrev_next, setPrev_next, setPrev_next, setNext_next_ne _ _ _ _ h3,
      setNext_next_ne _ _ _ _ h4]
  have hprevv : ∀ y : Nat, y ≠ q → y ≠ m1 → y ≠ b → y ≠ a → s6.prev y = s.prev y := by
    intro y h1 h2 h3 h4
    rw [hs6, setNext_prev, setNext_prev, setPrev_prev_ne _ _ _ _ h1,
      setPrev_prev_ne _ _ _ _ h2, setPrev_prev_ne _ _ _ _ h3,
      setPrev_prev_ne _ _ _ _ h4, setNext_prev, setNext_prev]
  have hnext_p : s6.next p = some b := by
    rw [hs6, setNext_next_ne _ _ _ _ hpb_ne, setNext_next_ne _ _ _ _ hpa_ne,
      setPrev_next, setPrev_next, setPrev_next, setPrev_next,
      setNext_next_ne _ _ _ _ hpm2_ne, setNext_next_same]
  have hnext_m2 : s6.next m2 = some a := by
    rw [hs6, setNext_next_ne _ _ _ _ hbm2_ne.symm, setNext_next_ne _ _ _ _ ham2_ne.symm,
      setPrev_next, setPrev_next, setPrev_next, setPrev_next, setNext_next_same]
  have hnext_a : s6.next a = some q := by
    rw [hs6, setNext_next_ne _ _ _ _ hab_ne, setNext_next_same]
  have hnext_b : s6.next b = some m1 := by
    rw [hs6, setNext_next_same]
  have hprev_a : s6.prev a = some m2 := by
    rw [hs6, setNext_prev, setNext_prev, setPrev_prev_ne _ _ _ _ hqa_ne.symm,
      setPrev_prev_ne _ _ _ _ ham1_ne, setPrev_prev_ne _ _ _ _ hab_ne,
      setPrev_prev_same]
  have hprev_b : s6.prev b = some p := by
    rw [hs6, setNext_prev, setNext_prev, setPrev_prev_ne _ _ _ _ hqb_ne.symm,
      setPrev_prev_ne _ _ _ _ hbm1_ne, setPrev_prev_same]
  have hprev_m1 : s6.prev m1 = some b := by
    rw [hs6, setNext_prev, setNext_prev, setPrev_prev_ne _ _ _ _ hqm1_ne.symm,
      setPrev_prev_same]
  have hprev_q : s6.prev q = some a := by
    rw [hs6, setNext_prev, setNext_prev, setPrev_prev_same]
  -- target ring
  show List.Chain' (adj s6) (0 :: (pre ++ b :: (M ++ a :: rest)) ++ [0])
  rw [show (0 : Nat) :: (pre ++ b :: (M ++ a :: rest)) ++ [0] =
      (0 :: pre) ++ b :: (M ++ a :: (rest ++ [0])) from by simp]
  rw [List.chain'_append]
  refine ⟨?_, ?_, ?_⟩
  · refine chain_adj_congr (0 :: pre) ?_ ?_ hcu
    · intro x hx
      have hxmem : x ∈ 0 :: pre := List.mem_of_mem_dropLast hx
      have hxp : x ≠ p := by
        intro hc
        refine getLast_not_mem_dropLast hu_ne hndu ?_
        rw [← hp, ← hc]
        exact hx
      refine hnextv x ?_ ?_ ?_ hxp
      · exact fun hc => hdisj (hc ▸ hxmem) hmemB
      · exact fun hc => hdisj (hc ▸ hxmem) hmemBr
      · exact fun hc => hdisj (hc ▸ hxmem) (hmemMr m2 hm2mem)
    · intro y hy
      have hymem : y ∈ 0 :: pre := List.mem_cons_of_mem 0 hy
      refine hprevv y ?_ ?_ ?_ ?_
      · intro hc
        rcases List.mem_cons.mp hqmem with hc2 | hc2
        · rw [hc2] at hc
          rw [List.nodup_cons] at hndu
          exact hndu.1 (hc ▸ hy)
        · exact hdisj (hc ▸ hymem) (List.mem_cons_of_mem a
            (List.mem_append_right _ (List.mem_cons_of_mem b hc2)))
      · exact fun hc => hdisj (hc ▸ hymem) (hmemMr m1 hm1mem)
      · exact fun hc => hdisj (hc ▸ hymem) hmemB
      · exact fun hc => hdisj (hc ▸ hymem) hmemBr
  · -- middle chain b :: (M ++ a :: (rest ++ [0]))
    rw [List.chain'_cons']
    refine ⟨?_, ?_⟩
    · intro y hy
      rw [List.head?_append_of_ne_nil M hM, List.head?_eq_head hM] at hy
      rw [Option.mem_def, Option.some_inj] at hy
      rw [← hy, ← hm1]
      exact ⟨hnext_b, hprev_m1⟩
    · rw [List.chain'_append]
      refine ⟨?_, ?_, ?_⟩
      · refine chain_adj_congr M ?_ ?_ hcM
        · intro x hx
          have hxmem : x ∈ M := List.mem_of_mem_dropLast hx
          have hxm2 : x ≠ m2 := by
            intro hc
            refine getLast_not_mem_dropLast hM hndM ?_
            rw [← hm2, ← hc]
            exact hx
          refine hnextv x ?_ ?_ hxm2 ?_
          · exact fun hc => hb_nM (hc ▸ hxmem)
          · exact fun hc => ha_nM (hc ▸ hxmem)
          · exact fun hc => hdisj (hc ▸ hpmem) (hmemMr x hxmem)
        · intro y hy
          have hymem : y ∈ M := List.mem_of_mem_tail hy
          have hym1 : y ≠ m1 := by
            intro hc
            have hcons : m1 :: M.tail = M := by
              rw [hm1]
              exact List.head_cons_tail _ hM
            have hndM2 := hndM
            rw [← hcons, List.nodup_cons] at hndM2
            exact hndM2.1 (hc ▸ hy)
          refine hprevv y ?_ hym1 ?_ ?_
          · intro hc
            rcases List.mem_cons.mp hqmem with hc2 | hc2
            · refine hdisj (List.mem_cons_self 0 pre) ?_
              have hy0 : y = 0 := by rw [hc, hc2]
              rw [← hy0]
              exact hmemMr y hymem
            · exact hdisjM hymem (List.mem_cons_of_mem b (by rw [hc]; exact hc2))
          · exact fun hc => hb_nM (hc ▸ hymem)
          · exact fun hc => ha_nM (hc ▸ hymem)
      · rw [List.chain'_cons']
        refine ⟨?_, ?_⟩
        · intro y hy
          rw [List.head?_eq_head hv_ne, Option.mem_def, Option.some_inj] at hy
          rw [← hy, ← hq]
          exact ⟨hnext_a, hprev_q⟩
        · refine chain_adj_congr (rest ++ [0]) ?_ ?_ hcv
          · intro x hx
            have hxrest : x ∈ rest := by
              have hd : (rest ++ [0]).dropLast = rest := by simp
              rw [hd] at hx
              exact hx
            have hxmem2 : x ∈ a :: (M ++ b :: rest) := List.mem_cons_of_mem a
              (List.mem_append_right _ (List.mem_cons_of_mem b hxrest))
            refine hnextv x ?_ ?_ ?_ ?_
            · exact fun hc => hb_nr (hc ▸ hxrest)
            · exact fun hc => ha_nbr (List.mem_cons_of_mem b (hc ▸ hxrest))
            · exact fun hc => hdisjM (hc ▸ hm2mem) (List.mem_cons_of_mem b hxrest)
            · exact fun hc => hdisj (hc ▸ hpmem) hxmem2
          · intro y hy
            have hymem : y ∈ rest ++ [0] := List.mem_of_mem_tail hy
            have hyq : y ≠ q := by
              intro hc
              have hndv0 : (rest ++ [0]).Nodup := by
                rw [List.nodup_append]
                refine ⟨hndrest, List.nodup_singleton 0, ?_⟩
                intro c hc1 hc2
                rw [List.mem_singleton.mp hc2] at hc1
                exact hdisj (List.mem_cons_self 0 pre) (List.mem_cons_of_mem a
                  (List.mem_append_right _ (List.mem_cons_of_mem b hc1)))
              have hcons : q :: (rest ++ [0]).tail = rest ++ [0] := by
                rw [hq]
                exact List.head_cons_tail _ hv_ne
              rw [← hcons, List.nodup_cons] at hndv0
              exact hndv0.1 (hc ▸ hy)
            have hym2 : y ∈ 0 :: rest := by
              rcases List.mem_append.mp hymem with hh | hh
              · exact List.mem_cons_of_mem 0 hh
              · rw [List.mem_singleton.mp hh]
                exact List.mem_cons_self 0 rest
            refine hprevv y hyq ?_ ?_ ?_
            · intro hc
              rcases List.mem_cons.mp hym2 with hc2 | hc2
              · exact hdisj (by rw [← hc, hc2]; exact List.mem_cons_self 0 pre)
                  (hmemMr m1 hm1mem)
              · exact hdisjM hm1mem
                  (List.mem_cons_of_mem b (by rw [← hc]; exact hc2))
            · intro hc
              rcases List.mem_cons.mp hym2 with hc2 | hc2
              · exact hdisj (by rw [← hc, hc2]; exact List.mem_cons_self 0 pre) hmemB
              · exact hb_nr (hc ▸ hc2)
            · intro hc
              rcases List.mem_cons.mp hym2 with hc2 | hc2
              · exact hdisj (by rw [← hc, hc2]; exact List.mem_cons_self 0 pre) hmemBr
              · exact ha_nbr (List.mem_cons_of_mem b (hc ▸ hc2))
      · -- link m2 -- a
        intro x hx y hy
        rw [List.getLast?_eq_getLast _ hM] at hx
        rw [show (a :: (rest ++ [0])).head? = some a from rfl] at hy
        rw [Option.mem_def, Option.some_inj] at hx hy
        rw [← hx, ← hy, ← hm2]
        exact ⟨hnext_m2, hprev_a⟩
  · -- link p -- b
    intro x hx y hy
    rw [List.getLast?_eq_getLast _ hu_ne] at hx
    rw [show (b :: (M ++ a :: (rest ++ [0]))).head? = some b from rfl] at hy
    rw [Option.mem_def, Option.some_inj] at hx hy
    rw [← hx, ← hy, ← hp]
    exact ⟨hnext_p, hprev_b⟩

/-- On a well-formed ring, a node's `prev` is the preceding element (or the
sentinel when it is first). -/
theorem ringWf_prev_eq {s : PS} {u w : List Nat} {x : Nat}
    (h : ringWf s (u ++ x :: w)) :
    s.prev x = some ((0 :: u).getLast (by simp)) := by
  have hu_ne : (0 : Nat) :: u ≠ [] := by simp
  unfold ringWf at h
  rw [show (0 : Nat) :: (u ++ x :: w) ++ [0] = (0 :: u) ++ x :: (w ++ [0]) from by
    simp] at h
  rw [List.chain'_append] at h
  obtain ⟨_, _, hlink⟩ := h
  have hr := hlink ((0 :: u).getLast hu_ne)
    (by rw [List.getLast?_eq_getLast _ hu_ne]; simp) x (by simp)
  exact hr.2

/-- Exchanging the two end nodes of a segment permutes the node list. -/
theorem perm_swap_ends (P mid S : List Nat) (a b : Nat) :
    List.Perm (P ++ a :: (mid ++ b :: S)) (P ++ b :: (mid ++ a :: S)) := by
  refine List.Perm.append_left P ?_
  have h1 : List.Perm (a :: (mid ++ b :: S)) (a :: b :: (mid ++ S)) :=
    List.Perm.cons a List.perm_middle
  have h2 : List.Perm (a :: b :: (mid ++ S)) (b :: a :: (mid ++ S)) :=
    List.Perm.swap b a (mid ++ S)
  have h3 : List.Perm (b :: a :: (mid ++ S)) (b :: (mid ++ a :: S)) :=
    List.Perm.cons b List.perm_middle.symm
  exact (h1.trans h2).trans h3

/-- The reverse loop turns the ring over `P ++ a :: (M ++ b :: S)` into the
ring over `P ++ b :: (M.reverse ++ a :: S)`, given enough fuel. -/
theorem revGo_ring : ∀ (fuel : Nat) (s : PS) (P M S : List Nat) (a b : Nat),
    ringWf s (P ++ a :: (M ++ b :: S)) →
    (0 :: P ++ a :: (M ++ b :: S)).Nodup →
    M.length < 2 * fuel →
    ringWf (revGo fuel s a b) (P ++ b :: (M.reverse ++ a :: S)) := by
  intro fuel
  induction fuel with
  | zero =>
    intro s P M S a b _ _ hf
    omega
  | succ f ih =>
    intro s P M S a b h hnd hf
    have hnd2 := hnd
    rw [show (0 : Nat) :: P ++ a :: (M ++ b :: S) =
        (0 :: P) ++ a :: (M ++ b :: S) from rfl, List.nodup_append] at hnd2
    obtain ⟨hndu, hndr, hdisj⟩ := hnd2
    rw [List.nodup_cons] at hndr
    obtain ⟨ha_nMbr, hndr2⟩ := hndr
    rw [List.nodup_append] at hndr2
    obtain ⟨hndM, hndbr, hdisjM⟩ := hndr2
    have hb_nM : b ∉ M := fun hc => hdisjM hc (List.mem_cons_self b S)
    have hab_ne : a ≠ b := fun hc =>
      ha_nMbr (List.mem_append_right _ (hc ▸ List.mem_cons_self b S))
    rcases M with _ | ⟨m1, M1⟩
    · -- adjacent case
      have hnext_a : s.next a = some b := by
        have hr := @ringWf_next_eq _ P ([] ++ b :: S) _ h
        simpa using hr
      have h2 : ringWf (revAdj s a b) (P ++ b :: a :: S) := by
        refine revAdj_ring ?_ ?_
        · simpa using h
        · simpa using hnd
      have hnext_b2 : (revAdj s a b).next b = some a := by
        have hr := ringWf_next_eq h2
        simpa using hr
      have hrw2 : ringWf (revAdj s a b) ((P ++ [b]) ++ a :: S) := by
        rw [show (P ++ [b]) ++ a :: S = P ++ b :: a :: S from by simp]
        exact h2
      have hprev_a2 : (revAdj s a b).prev a = some b := by
        have hr := ringWf_prev_eq hrw2
        rw [hr]
        simp
      have hgo : revGo (f + 1) s a b = revAdj s a b := by
        simp only [revGo]
        rw [if_pos hnext_a]
        simp only [hnext_b2, hprev_a2]
        rw [if_neg (fun hc => hc.2 rfl)]
      rw [hgo]
      simpa using h2
    · -- general case: the middle is non-empty
      have hm1_ne_b : m1 ≠ b := fun hc => hb_nM (hc ▸ List.mem_cons_self m1 M1)
      have hnext_a : s.next a = some m1 := by
        have hr := @ringWf_next_eq _ P ((m1 :: M1) ++ b :: S) _ h
        simpa using hr
      have hcond : ¬ s.next a = some b := by
        rw [hnext_a]
        simp [hm1_ne_b]
      have h2 : ringWf (revGen s a b) (P ++ b :: ((m1 :: M1) ++ a :: S)) :=
        revGen_ring (by simp) h hnd
      have hnext_b2 : (revGen s a b).next b = some m1 := by
        have hr := ringWf_next_eq h2
        simpa using hr
      have hrw3 : ringWf (revGen s a b) ((P ++ b :: (m1 :: M1)) ++ a :: S) := by
        rw [show (P ++ b :: (m1 :: M1)) ++ a :: S =
          P ++ b :: ((m1 :: M1) ++ a :: S) from by simp]
        exact h2
      have hprev_a2 : (revGen s a b).prev a =
          some ((m1 :: M1).getLast (by simp)) := by
        have hr := ringWf_prev_eq hrw3
        rw [hr]
        simp
      rcases hM1 : M1 with _ | ⟨mm, M2⟩
      · -- the middle is a single node: loop exits (a == b)
        subst hM1
        have hprev_a2e : (revGen s a b).prev a = some m1 := by simpa using hprev_a2
        have hgo : revGo (f + 1) s a b = revGen s a b := by
          simp only [revGo]
          rw [if_neg hcond]
          simp only [hnext_b2, hprev_a2e]
          rw [if_neg (fun hc => hc.1 rfl)]
        rw [hgo]
        simpa using h2
      · -- at least two middle nodes: loop continues on the ends of `M`
        subst hM1
        set m2 := (m1 :: mm :: M2).getLast (by simp) with hm2
        have hm2tail : m2 = (mm :: M2).getLast (by simp) := by
          rw [hm2]
          rw [List.getLast_cons (by simp)]
        have hMsplit : m1 :: mm :: M2 = m1 :: ((mm :: M2).dropLast ++ [m2]) := by
          rw [hm2tail]
          rw [List.dropLast_append_getLast (by simp)]
        have hm2mem : m2 ∈ mm :: M2 := by
          rw [hm2tail]
          exact List.getLast_mem _
        have hm1m2_ne : m1 ≠ m2 := by
          intro hc
          rw [List.nodup_cons] at hndM
          exact hndM.1 (hc ▸ hm2mem)
        have hprev_a2e : (revGen s a b).prev a = some m2 := by
          rw [hprev_a2, hm2]
        have hrw4 : ringWf (revGen s a b)
            ((P ++ [b]) ++ m1 :: ((mm :: M2) ++ a :: S)) := by
          rw [show (P ++ [b]) ++ m1 :: ((mm :: M2) ++ a :: S) =
            P ++ b :: ((m1 :: mm :: M2) ++ a :: S) from by simp]
          exact h2
        have hprev_m1 : (revGen s a b).prev m1 = some b := by
          have hr := ringWf_prev_eq hrw4
          rw [hr]
          simp
        have hb_ne_m2 : b ≠ m2 := by
          intro hc
          exact hb_nM (hc ▸ List.mem_cons_of_mem m1 hm2mem)
        have hcont : m1 ≠ m2 ∧ (revGen s a b).prev m1 ≠ some m2 := by
          refine ⟨hm1m2_ne, ?_⟩
          rw [hprev_m1]
          simp [hb_ne_m2]
        have hgo : revGo (f + 1) s a b = revGo f (revGen s a b) m1 m2 := by
          simp only [revGo]
          rw [if_neg hcond]
          simp only [hnext_b2, hprev_a2e]
          rw [if_pos hcont]
        rw [hgo]
        have hring2 : ringWf (revGen s a b)
            ((P ++ [b]) ++ m1 :: ((mm :: M2).dropLast ++ m2 :: (a :: S))) := by
          rw [show (P ++ [b]) ++ m1 :: ((mm :: M2).dropLast ++ m2 :: (a :: S)) =
            P ++ b :: ((m1 :: ((mm :: M2).dropLast ++ [m2])) ++ a :: S) from by simp]
          rw [← hMsplit]
          exact h2
        have hnd3 : (0 :: (P ++ [b]) ++
            m1 :: ((mm :: M2).dropLast ++ m2 :: (a :: S))).Nodup := by
          have heq : (0 : Nat) :: (P ++ [b]) ++
              m1 :: ((mm :: M2).dropLast ++ m2 :: (a :: S)) =
              (0 :: P) ++ b :: ((m1 :: ((mm :: M2).dropLast ++ [m2])) ++ a :: S) := by
            simp
          rw [heq, ← hMsplit]
          have hperm := perm_swap_ends (0 :: P) (m1 :: mm :: M2) S a b
          exact hperm.nodup hnd
        have hih := ih (revGen s a b) (P ++ [b]) (mm :: M2).dropLast (a :: S) m1 m2
          hring2 hnd3 ?_
        · rw [show (P ++ [b]) ++ m2 :: ((mm :: M2).dropLast.reverse ++ m1 :: (a :: S)) =
            P ++ b :: ((m2 :: (mm :: M2).dropLast.reverse ++ [m1]) ++ a :: S) from by
              simp] at hih
          rw [show (m1 :: mm :: M2).reverse =
              m2 :: (mm :: M2).dropLast.reverse ++ [m1] from by
            conv =>
              lhs
              rw [hMsplit]
            simp]
          simpa using hih
        · simp only [List.length_dropLast, List.length_cons] at hf ⊢
          omega

/-- `q_reverse` at pointer level keeps the ring well formed, over the
reversed node list. -/
theorem q_reverse_ptr_ring {s : PS} {xs : List Nat} (fuel : Nat)
    (h : ringWf s xs) (hnd : (0 :: xs).Nodup) (hf : xs.length ≤ fuel) :
    ringWf (q_reverse_ptr s fuel) (q_reverseList xs) := by
  rcases xs with _ | ⟨x, xs1⟩
  · have hz : s.next 0 = some 0 := by simpa using ringWf_next_zero h
    unfold q_reverse_ptr
    rw [if_pos hz]
    simpa [q_reverseList] using h
  · have hx_ne : x ≠ 0 := by
      rw [List.nodup_cons] at hnd
      intro hc
      exact hnd.1 (hc ▸ List.mem_cons_self x xs1)
    have hz : s.next 0 = some x := by simpa using ringWf_next_zero h
    rcases xs1 with _ | ⟨y, rest⟩
    · have hp : s.prev 0 = some x := by simpa using ringWf_prev_zero h
      unfold q_reverse_ptr
      rw [if_neg (by rw [hz]; simp [hx_ne]), if_pos (by rw [hz, hp])]
      simpa [q_reverseList] using h
    · have hp : s.prev 0 = some ((0 :: x :: y :: rest).getLast (by simp)) :=
        ringWf_prev_zero h
      have hlast_eq : (0 :: x :: y :: rest).getLast (by simp) =
          (y :: rest).getLast (by simp) := by
        rw [List.getLast_cons, List.getLast_cons]
      have hlast_mem : (y :: rest).getLast (by simp) ∈ y :: rest :=
        List.getLast_mem _
      have hx_ne_last : x ≠ (y :: rest).getLast (by simp) := by
        intro hc
        rw [List.nodup_cons, List.nodup_cons] at hnd
        exact hnd.2.1 (hc ▸ hlast_mem)
      rw [hlast_eq] at hp
      have hsplit : (y :: rest).dropLast ++ [(y :: rest).getLast (by simp)] =
          y :: rest := List.dropLast_append_getLast (by simp)
      unfold q_reverse_ptr
      rw [if_neg (by rw [hz]; simp [hx_ne]),
        if_neg (by rw [hz, hp]; simp [hx_ne_last]), hz, hp]
      have hring : ringWf s ([] ++ x :: ((y :: rest).dropLast ++
          (y :: rest).getLast (by simp) :: [])) := by
        simpa [hsplit] using h
      have hnd2 : (0 :: [] ++ x :: ((y :: rest).dropLast ++
          (y :: rest).getLast (by simp) :: [])).Nodup := by
        simpa [hsplit] using hnd
      have hflt : (y :: rest).dropLast.length < 2 * fuel := by
        simp only [List.length_cons, List.length_dropLast] at hf ⊢
        omega
      have hgo := revGo_ring fuel s [] (y :: rest).dropLast []
        x ((y :: rest).getLast (by simp)) hring hnd2 hflt
      show ringWf (revGo fuel s x ((y :: rest).getLast (by simp)))
        (q_reverseList (x :: y :: rest))
      rw [show q_reverseList (x :: y :: rest) = revLoop (x :: y :: rest) from by
        unfold q_reverseList
        rw [if_neg (by simp)]]
      rw [revLoop_eq_reverse]
      rw [show (x :: y :: rest).reverse = (y :: rest).reverse ++ [x] from by
        simp]
      rw [show (y :: rest).reverse = (y :: rest).getLast (by simp) ::
          (y :: rest).dropLast.reverse from ?_]
      · simpa using hgo
      · conv =>
          lhs
          rw [← hsplit]
        simp

/-! ### `q_sort` at pointer level

`q_sort` breaks the ring open into a NULL-terminated `next`-chain and
rebuilds everything through `merge`, the binary-counter pending stack, and
`merge_restore`.  The comparison `strcmp(elm_a->value, elm_b->value) <= 0`
is abstracted into an oracle `cmp : Nat → Nat → Bool` on node ids: the link
structure of the result is the same for every sequence of answers. -/

/-- A NULL-terminated `next`-chain holding the nodes of `l` in order. -/
def chainN (s : PS) : List Nat → Prop
  | [] => True
  | [x] => s.next x = none
  | x :: y :: t => s.next x = some y ∧ chainN s (y :: t)

theorem chainN_congr {s s2 : PS} : ∀ l : List Nat,
    (∀ x ∈ l, s2.next x = s.next x) → chainN s l → chainN s2 l
  | [], _, _ => trivial
  | [x], hag, hc => by
    show s2.next x = none
    rw [hag x (by simp)]
    exact hc
  | x :: y :: t, hag, hc => by
    obtain ⟨h1, h2⟩ := hc
    refine ⟨?_, ?_⟩
    · rw [hag x (by simp)]
      exact h1
    · exact chainN_congr (y :: t) (fun z hz => hag z (List.mem_cons_of_mem x hz)) h2

theorem chainN_setNext_other {s : PS} {l : List Nat} {w : Nat} {v : Ptr}
    (hw : w ∉ l) (hc : chainN s l) : chainN (s.setNext w v) l := by
  refine chainN_congr l ?_ hc
  intro x hx
  exact setNext_next_ne s w x v (fun hxw => hw (hxw ▸ hx))

theorem chainN_setPrev {s : PS} {l : List Nat} {w : Nat} {v : Ptr}
    (hc : chainN s l) : chainN (s.setPrev w v) l := by
  refine chainN_congr l ?_ hc
  intro x _
  exact setPrev_next s w x v

theorem chainN_tail {s : PS} {x : Nat} {t : List Nat}
    (hc : chainN s (x :: t)) : chainN s t := by
  rcases t with _ | ⟨y, t1⟩
  · trivial
  · exact hc.2

/-- The loop of `merge` from the second iteration on: `last` is the node the
previous iteration threaded, `a` and `b` are the current chain fronts.  Each
step writes `last->next` and advances; when a side runs out, the loop writes
the other side's front into the taken side's tail and stops. -/
def mergeGo (cmp : Nat → Nat → Bool) : Nat → PS → Nat → Nat → Nat → PS
  | 0, s, _, _, _ => s
  | fuel + 1, s, last, a, b =>
    if cmp a b then
      let s1 := s.setNext last (some a)
      match s1.next a with
      | none => s1.setNext a (some b)
      | some a2 => mergeGo cmp fuel s1 a a2 b
    else
      let s1 := s.setNext last (some b)
      match s1.next b with
      | none => s1.setNext b (some a)
      | some b2 => mergeGo cmp fuel s1 b a b2

/-- `merge(a, b)`: the first iteration stores the head into the local
variable `head` (the second component); the rest of the threading happens in
the state. -/
def merge_ptr (cmp : Nat → Nat → Bool) (fuel : Nat) (s : PS) (a b : Nat) :
    PS × Nat :=
  if cmp a b then
    match s.next a with
    | none => (s.setNext a (some b), a)
    | some a2 => (mergeGo cmp fuel s a a2 b, a)
  else
    match s.next b with
    | none => (s.setNext b (some a), b)
    | some b2 => (mergeGo cmp fuel s b a b2, b)

theorem mergeGo_spec (cmp : Nat → Nat → Bool) : ∀ (fuel : Nat) (s : PS)
    (last a b : Nat) (A B : List Nat),
    chainN s (a :: A) → chainN s (b :: B) →
    (last :: ((a :: A) ++ (b :: B))).Nodup →
    A.length + B.length + 1 ≤ fuel →
    ∃ M, List.Perm M ((a :: A) ++ (b :: B)) ∧
      chainN (mergeGo cmp fuel s last a b) (last :: M) ∧
      (∀ x, x ∉ last :: ((a :: A) ++ (b :: B)) →
        (mergeGo cmp fuel s last a b).next x = s.next x) ∧
      (mergeGo cmp fuel s last a b).prev = s.prev := by
  intro fuel
  induction fuel with
  | zero =>
    intro s last a b A B _ _ _ hf
    omega
  | succ f ih =>
    intro s last a b A B hcA hcB hnd hf
    rw [List.nodup_cons] at hnd
    obtain ⟨hlast_nm, hnd2⟩ := hnd
    have hlast_na : last ≠ a :=
      fun hc => hlast_nm (List.mem_append_left _ (hc ▸ List.mem_cons_self a A))
    have hlast_nb : last ≠ b :=
      fun hc => hlast_nm (List.mem_append_right _ (hc ▸ List.mem_cons_self b B))
    have hlast_nA : last ∉ a :: A := fun hc => hlast_nm (List.mem_append_left _ hc)
    have hlast_nB : last ∉ b :: B := fun hc => hlast_nm (List.mem_append_right _ hc)
    rw [List.nodup_append] at hnd2
    obtain ⟨hndA, hndB, hdisj⟩ := hnd2
    have ha_nb : a ∉ b :: B := hdisj (List.mem_cons_self a A)
    have hb_na : b ∉ a :: A := by
      intro hc
      exact hdisj hc (List.mem_cons_self b B)
    cases hcmp : cmp a b with
    | true =>
      have hred : mergeGo cmp (f + 1) s last a b =
          (match (s.setNext last (some a)).next a with
           | none => (s.setNext last (some a)).setNext a (some b)
           | some a2 => mergeGo cmp f (s.setNext last (some a)) a a2 b) := by
        simp only [mergeGo, hcmp, if_true]
      have hna : (s.setNext last (some a)).next a = s.next a :=
        setNext_next_ne s last a _ (Ne.symm hlast_na)
      rcases A with _ | ⟨a2, A1⟩
      · have hse : (s.setNext last (some a)).next a = none := by
          rw [hna]
          exact hcA
        rw [hred, hse]
        refine ⟨a :: b :: B, List.Perm.refl _, ?_, ?_, rfl⟩
        · refine ⟨?_, ?_, ?_⟩
          · rw [setNext_next_ne _ a last _ hlast_na]
            simp
          · simp
          · exact chainN_setNext_other ha_nb (chainN_setNext_other hlast_nB hcB)
        · intro x hx
          rw [List.mem_cons, not_or] at hx
          obtain ⟨hx1, hx2⟩ := hx
          have hxa : x ≠ a :=
            fun hc => hx2 (List.mem_append_left _ (hc ▸ List.mem_cons_self a []))
          rw [setNext_next_ne _ a x _ hxa]
          exact setNext_next_ne _ last x _ hx1
      · have hse : (s.setNext last (some a)).next a = some a2 := by
          rw [hna]
          exact hcA.1
        rw [hred, hse]
        have hcA2 : chainN (s.setNext last (some a)) (a2 :: A1) := by
          refine chainN_setNext_other ?_ (chainN_tail hcA)
          intro hc
          exact hlast_nA (List.mem_cons_of_mem a hc)
        have hcB2 : chainN (s.setNext last (some a)) (b :: B) :=
          chainN_setNext_other hlast_nB hcB
        have hnd3 : (a :: ((a2 :: A1) ++ (b :: B))).Nodup := by
          show ((a :: a2 :: A1) ++ (b :: B)).Nodup
          rw [List.nodup_append]
          exact ⟨hndA, hndB, hdisj⟩
        obtain ⟨M, hperm, hchain, hframe, hprev⟩ :=
          ih (s.setNext last (some a)) a a2 b A1 B hcA2 hcB2 hnd3 (by
            simp only [List.length_cons] at hf ⊢
            omega)
        refine ⟨a :: M, ?_, ?_, ?_, ?_⟩
        · exact hperm.cons a
        · refine ⟨?_, hchain⟩
          have hfr := hframe last (by
            intro hc
            rcases List.mem_cons.mp hc with hc | hc
            · exact hlast_na hc
            · rcases List.mem_append.mp hc with hc | hc
              · exact hlast_nA (List.mem_cons_of_mem a hc)
              · exact hlast_nB hc)
          rw [hfr]
          simp
        · intro x hx
          rw [List.mem_cons, not_or] at hx
          obtain ⟨hx1, hx2⟩ := hx
          have hx3 : x ∉ a :: ((a2 :: A1) ++ (b :: B)) := hx2
          rw [hframe x hx3]
          exact setNext_next_ne _ last x _ hx1
        · rw [hprev]
          rfl
    | false =>
      have hred : mergeGo cmp (f + 1) s last a b =
          (match (s.setNext last (some b)).next b with
           | none => (s.setNext last (some b)).setNext b (some a)
           | some b2 => mergeGo cmp f (s.setNext last (some b)) b a b2) := by
        simp only [mergeGo, hcmp, Bool.false_eq_true, if_false]
      have hnb : (s.setNext last (some b)).next b = s.next b :=
        setNext_next_ne s last b _ (Ne.symm hlast_nb)
      rcases hBs : B with _ | ⟨b2, B1⟩
      · subst hBs
        have hse : (s.setNext last (some b)).next b = none := by
          rw [hnb]
          exact hcB
        rw [hred, hse]
        refine ⟨b :: a :: A, ?_, ?_, ?_, rfl⟩
        · exact (@List.perm_append_comm _ (a :: A) [b]).symm
        · refine ⟨?_, ?_, ?_⟩
          · rw [setNext_next_ne _ b last _ hlast_nb]
            simp
          · simp
          · exact chainN_setNext_other hb_na (chainN_setNext_other hlast_nA hcA)
        · intro x hx
          rw [List.mem_cons, not_or] at hx
          obtain ⟨hx1, hx2⟩ := hx
          have hxb : x ≠ b :=
            fun hc => hx2 (List.mem_append_right _ (hc ▸ List.mem_cons_self b []))
          rw [setNext_next_ne _ b x _ hxb]
          exact setNext_next_ne _ last x _ hx1
      · subst hBs
        have hse : (s.setNext last (some b)).next b = some b2 := by
          rw [hnb]
          exact hcB.1
        rw [hred, hse]
        have hcB2 : chainN (s.setNext last (some b)) (b2 :: B1) := by
          refine chainN_setNext_other ?_ (chainN_tail hcB)
          intro hc
          exact hlast_nB (List.mem_cons_of_mem b hc)
        have hcA2 : chainN (s.setNext last (some b)) (a :: A) :=
          chainN_setNext_other hlast_nA hcA
        have hnd3 : (b :: ((a :: A) ++ (b2 :: B1))).Nodup := by
          have hpm : List.Perm ((a :: A) ++ b :: (b2 :: B1))
              (b :: ((a :: A) ++ (b2 :: B1))) := List.perm_middle
          refine hpm.nodup ?_
          rw [List.nodup_append]
          exact ⟨hndA, hndB, hdisj⟩
        obtain ⟨M, hperm, hchain, hframe, hprev⟩ :=
          ih (s.setNext last (some b)) b a b2 A B1 hcA2 hcB2 hnd3 (by
            simp only [List.length_cons] at hf ⊢
            omega)
        refine ⟨b :: M, ?_, ?_, ?_, ?_⟩
        · exact (hperm.cons b).trans List.perm_middle.symm
        · refine ⟨?_, hchain⟩
          have hfr := hframe last (by
            intro hc
            rcases List.mem_cons.mp hc with hc | hc
            · exact hlast_nb hc
            · rcases List.mem_append.mp hc with hc | hc
              · exact hlast_nA hc
              · exact hlast_nB (List.mem_cons_of_mem b hc))
          rw [hfr]
          simp
        · intro x hx
          rw [List.mem_cons, not_or] at hx
          obtain ⟨hx1, hx2⟩ := hx
          have hx3 : x ∉ b :: ((a :: A) ++ (b2 :: B1)) := by
            intro hc
            rcases List.mem_cons.mp hc with rfl | hc
            · exact hx2 (List.mem_append_right _ (List.mem_cons_self x _))
            · rcases List.mem_append.mp hc with hc | hc
              · exact hx2 (List.mem_append_left _ hc)
              · exact hx2 (List.mem_append_right _ (List.mem_cons_of_mem b hc))
          rw [hframe x hx3]
          exact setNext_next_ne _ last x _ hx1
        · rw [hprev]
          rfl

theorem merge_ptr_spec (cmp : Nat → Nat → Bool) (fuel : Nat) (s : PS)
    (a b : Nat) (A B : List Nat)
    (hcA : chainN s (a :: A)) (hcB : chainN s (b :: B))
    (hnd : ((a :: A) ++ (b :: B)).Nodup)
    (hf : A.length + B.length ≤ fuel) :
    ∃ s2 h M, merge_ptr cmp fuel s a b = (s2, h) ∧
      List.Perm (h :: M) ((a :: A) ++ (b :: B)) ∧
      chainN s2 (h :: M) ∧
      (∀ x, x ∉ (a :: A) ++ (b :: B) → s2.next x = s.next x) ∧
      s2.prev = s.prev := by
  have hnd2 := hnd
  rw [List.nodup_append] at hnd2
  obtain ⟨hndA, hndB, hdisj⟩ := hnd2
  have ha_nb : a ∉ b :: B := hdisj (List.mem_cons_self a A)
  have hb_na : b ∉ a :: A := fun hc => hdisj hc (List.mem_cons_self b B)
  cases hcmp : cmp a b with
  | true =>
    rcases A with _ | ⟨a2, A1⟩
    · have hred : merge_ptr cmp fuel s a b = (s.setNext a (some b), a) := by
        unfold merge_ptr
        rw [if_pos hcmp]
        rw [show s.next a = none from hcA]
      refine ⟨s.setNext a (some b), a, b :: B, hred, List.Perm.refl _, ?_, ?_, rfl⟩
      · refine ⟨by simp, ?_⟩
        exact chainN_setNext_other ha_nb hcB
      · intro x hx
        refine setNext_next_ne _ a x _ ?_
        intro hc
        exact hx (List.mem_append_left _ (hc ▸ List.mem_cons_self a []))
    · have hred : merge_ptr cmp fuel s a b = (mergeGo cmp fuel s a a2 b, a) := by
        unfold merge_ptr
        rw [if_pos hcmp]
        rw [show s.next a = some a2 from hcA.1]
      have hnd3 : (a :: ((a2 :: A1) ++ (b :: B))).Nodup := by
        show ((a :: a2 :: A1) ++ (b :: B)).Nodup
        exact hnd
      obtain ⟨M, hperm, hchain, hframe, hprev⟩ :=
        mergeGo_spec cmp fuel s a a2 b A1 B (chainN_tail hcA) hcB hnd3 (by
          simp only [List.length_cons] at hf ⊢
          omega)
      refine ⟨mergeGo cmp fuel s a a2 b, a, M, hred, ?_, hchain, ?_, hprev⟩
      · exact hperm.cons a
      · intro x hx
        refine hframe x ?_
        exact hx
  | false =>
    rcases B with _ | ⟨b2, B1⟩
    · have hred : merge_ptr cmp fuel s a b = (s.setNext b (some a), b) := by
        unfold merge_ptr
        rw [if_neg (by rw [hcmp]; simp)]
        rw [show s.next b = none from hcB]
      refine ⟨s.setNext b (some a), b, a :: A, hred, ?_, ?_, ?_, rfl⟩
      · exact (@List.perm_append_comm _ (a :: A) [b]).symm
      · refine ⟨by simp, ?_⟩
        exact chainN_setNext_other hb_na hcA
      · intro x hx
        refine setNext_next_ne _ b x _ ?_
        intro hc
        exact hx (List.mem_append_right _ (hc ▸ List.mem_cons_self b []))
    · have hred : merge_ptr cmp fuel s a b = (mergeGo cmp fuel s b a b2, b) := by
        unfold merge_ptr
        rw [if_neg (by rw [hcmp]; simp)]
        rw [show s.next b = some b2 from hcB.1]
      have hnd3 : (b :: ((a :: A) ++ (b2 :: B1))).Nodup := by
        have hpm : List.Perm ((a :: A) ++ b :: (b2 :: B1))
            (b :: ((a :: A) ++ (b2 :: B1))) := List.perm_middle
        exact hpm.nodup hnd
      obtain ⟨M, hperm, hchain, hframe, hprev⟩ :=
        mergeGo_spec cmp fuel s b a b2 A B1 hcA (chainN_tail hcB) hnd3 (by
          simp only [List.length_cons] at hf ⊢
          omega)
      refine ⟨mergeGo cmp fuel s b a b2, b, M, hred, ?_, hchain, ?_, hprev⟩
      · exact (hperm.cons b).trans List.perm_middle.symm
      · intro x hx
        refine hframe x ?_
        intro hc
        rcases List.mem_cons.mp hc with rfl | hc
        · exact hx (List.mem_append_right _ (List.mem_cons_self x _))
        · rcases List.mem_append.mp hc with hc | hc
          · exact hx (List.mem_append_left _ hc)
          · exact hx (List.mem_append_right _ (List.mem_cons_of_mem b hc))

/-- The first loop of `merge_restore`: thread the smaller front after `tail`,
restoring `prev` as it goes; stops when one side runs out, returning the last
threaded node and the surviving front (`b = a` on the right-exhausted exit). -/
def mrGo (cmp : Nat → Nat → Bool) : Nat → PS → Nat → Nat → Nat → PS × Nat × Nat
  | 0, s, tail, _, b => (s, tail, b)
  | fuel + 1, s, tail, a, b =>
    if cmp a b then
      let s1 := (s.setNext tail (some a)).setPrev a (some tail)
      match s1.next a with
      | none => (s1, a, b)
      | some a2 => mrGo cmp fuel s1 a a2 b
    else
      let s1 := (s.setNext tail (some b)).setPrev b (some tail)
      match s1.next b with
      | none => (s1, b, a)
      | some b2 => mrGo cmp fuel s1 b a b2

theorem mrGo_spec (cmp : Nat → Nat → Bool) : ∀ (fuel : Nat) (s : PS)
    (tail a b : Nat) (A B : List Nat),
    chainN s (a :: A) → chainN s (b :: B) →
    (tail :: ((a :: A) ++ (b :: B))).Nodup →
    A.length + B.length + 1 ≤ fuel →
    ∃ s2 t2 b2 M B2, mrGo cmp fuel s tail a b = (s2, t2, b2) ∧
      M ≠ [] ∧
      List.Perm (M ++ (b2 :: B2)) ((a :: A) ++ (b :: B)) ∧
      List.Chain' (adj s2) (tail :: M) ∧
      t2 = (tail :: M).getLast (by simp) ∧
      chainN s2 (b2 :: B2) ∧
      (∀ x, x ≠ tail → x ∉ (a :: A) ++ (b :: B) → s2.next x = s.next x) ∧
      (∀ x, x ∉ (a :: A) ++ (b :: B) → s2.prev x = s.prev x) := by
  intro fuel
  induction fuel with
  | zero =>
    intro s tail a b A B _ _ _ hf
    omega
  | succ f ih =>
    intro s tail a b A B hcA hcB hnd hf
    have hndk := hnd
    rw [List.nodup_cons] at hndk
    obtain ⟨htail_nm, hnd2⟩ := hndk
    have htail_na : tail ≠ a :=
      fun hc => htail_nm (List.mem_append_left _ (hc ▸ List.mem_cons_self a A))
    have htail_nb : tail ≠ b :=
      fun hc => htail_nm (List.mem_append_right _ (hc ▸ List.mem_cons_self b B))
    have htail_nA : tail ∉ a :: A := fun hc => htail_nm (List.mem_append_left _ hc)
    have htail_nB : tail ∉ b :: B := fun hc => htail_nm (List.mem_append_right _ hc)
    rw [List.nodup_append] at hnd2
    obtain ⟨hndA, hndB, hdisj⟩ := hnd2
    have ha_nb : a ∉ b :: B := hdisj (List.mem_cons_self a A)
    have hb_na : b ∉ a :: A := fun hc => hdisj hc (List.mem_cons_self b B)
    cases hcmp : cmp a b with
    | true =>
      set s1 := (s.setNext tail (some a)).setPrev a (some tail) with hs1
      have hred : mrGo cmp (f + 1) s tail a b =
          (match s1.next a with
           | none => (s1, a, b)
           | some a2 => mrGo cmp f s1 a a2 b) := by
        simp only [mrGo, hcmp, if_true, hs1]
      have hna : s1.next a = s.next a := by
        rw [hs1]
        rw [setPrev_next]
        exact setNext_next_ne s tail a _ (Ne.symm htail_na)
      have hcA1 : chainN s1 (a :: A) := by
        rw [hs1]
        exact chainN_setPrev (chainN_setNext_other htail_nA hcA)
      have hcB1 : chainN s1 (b :: B) := by
        rw [hs1]
        exact chainN_setPrev (chainN_setNext_other htail_nB hcB)
      rcases A with _ | ⟨a2, A1⟩
      · have hse : s1.next a = none := by
          rw [hna]
          exact hcA
        rw [hred, hse]
        refine ⟨s1, a, b, [a], B, rfl, by simp, List.Perm.refl _, ?_, by simp, hcB1,
          ?_, ?_⟩
        · rw [List.chain'_cons]
          refine ⟨⟨?_, ?_⟩, by simp⟩
          · rw [hs1, setPrev_next]
            simp
          · rw [hs1]
            simp
        · intro x hx1 _
          rw [hs1, setPrev_next]
          exact setNext_next_ne _ tail x _ hx1
        · intro x hx
          have hxa : x ≠ a :=
            fun hc => hx (List.mem_append_left _ (hc ▸ List.mem_cons_self a []))
          rw [hs1, setPrev_prev_ne _ a x _ hxa]
          rfl
      · have hse : s1.next a = some a2 := by
          rw [hna]
          exact hcA.1
        rw [hred, hse]
        have hnd3 : (a :: ((a2 :: A1) ++ (b :: B))).Nodup := by
          show ((a :: a2 :: A1) ++ (b :: B)).Nodup
          rw [List.nodup_append]
          exact ⟨hndA, hndB, hdisj⟩
        obtain ⟨s2, t2, b2, M, B2, heq, hMne, hperm, hchain, ht2, hchB, hfn, hfp⟩ :=
          ih s1 a a2 b A1 B (chainN_tail hcA1) hcB1 hnd3 (by
            simp only [List.length_cons] at hf ⊢
            omega)
        have ha_nrec : a ∉ (a2 :: A1) ++ (b :: B) := by
          have := hnd3
          rw [List.nodup_cons] at this
          exact this.1
        refine ⟨s2, t2, b2, a :: M, B2, heq, by simp, ?_, ?_, ?_, hchB, ?_, ?_⟩
        · exact hperm.cons a
        · rw [List.chain'_cons]
          refine ⟨⟨?_, ?_⟩, hchain⟩
          · rw [hfn tail htail_na (by
              intro hc
              rcases List.mem_append.mp hc with hc | hc
              · exact htail_nA (List.mem_cons_of_mem a hc)
              · exact htail_nB hc)]
            rw [hs1, setPrev_next]
            simp
          · rw [hfp a ha_nrec, hs1]
            simp
        · rw [ht2]
          exact (List.getLast_cons (by simp)).symm
        · intro x hx1 hx2
          have hx3 : x ∉ (a2 :: A1) ++ (b :: B) := by
            intro hc
            rcases List.mem_append.mp hc with hc | hc
            · exact hx2 (List.mem_append_left _ (List.mem_cons_of_mem a hc))
            · exact hx2 (List.mem_append_right _ hc)
          rw [hfn x (fun hc => hx2 (List.mem_append_left _
            (hc ▸ List.mem_cons_self a _))) hx3]
          rw [hs1, setPrev_next]
          exact setNext_next_ne _ tail x _ hx1
        · intro x hx
          have hx3 : x ∉ (a2 :: A1) ++ (b :: B) := by
            intro hc
            rcases List.mem_append.mp hc with hc | hc
            · exact hx (List.mem_append_left _ (List.mem_cons_of_mem a hc))
            · exact hx (List.mem_append_right _ hc)
          rw [hfp x hx3]
          have hxa : x ≠ a :=
            fun hc => hx (List.mem_append_left _ (hc ▸ List.mem_cons_self a _))
          rw [hs1, setPrev_prev_ne _ a x _ hxa]
          rfl
    | false =>
      set s1 := (s.setNext tail (some b)).setPrev b (some tail) with hs1
      have hred : mrGo cmp (f + 1) s tail a b =
          (match s1.next b with
           | none => (s1, b, a)
           | some b2 => mrGo cmp f s1 b a b2) := by
        simp only [mrGo, hcmp, Bool.false_eq_true, if_false, hs1]
      have hnb : s1.next b = s.next b := by
        rw [hs1]
        rw [setPrev_next]
        exact setNext_next_ne s tail b _ (Ne.symm htail_nb)
      have hcA1 : chainN s1 (a :: A) := by
        rw [hs1]
        exact chainN_setPrev (chainN_setNext_other htail_nA hcA)
      have hcB1 : chainN s1 (b :: B) := by
        rw [hs1]
        exact chainN_setPrev (chainN_setNext_other htail_nB hcB)
      rcases B with _ | ⟨b2, B1⟩
      · have hse : s1.next b = none := by
          rw [hnb]
          exact hcB
        rw [hred, hse]
        refine ⟨s1, b, a, [b], A, rfl, by simp, ?_, ?_, by simp, hcA1, ?_, ?_⟩
        · exact (@List.perm_append_comm _ (a :: A) [b]).symm
        · rw [List.chain'_cons]
          refine ⟨⟨?_, ?_⟩, by simp⟩
          · rw [hs1, setPrev_next]
            simp
          · rw [hs1]
            simp
        · intro x hx1 _
          rw [hs1, setPrev_next]
          exact setNext_next_ne _ tail x _ hx1
        · intro x hx
          have hxb : x ≠ b :=
            fun hc => hx (List.mem_append_right _ (hc ▸ List.mem_cons_self b []))
          rw [hs1, setPrev_prev_ne _ b x _ hxb]
          rfl
      · have hse : s1.next b = some b2 := by
          rw [hnb]
          exact hcB.1
        rw [hred, hse]
        have hnd3 : (b :: ((a :: A) ++ (b2 :: B1))).Nodup := by
          have hpm : List.Perm ((a :: A) ++ b :: (b2 :: B1))
              (b :: ((a :: A) ++ (b2 :: B1))) := List.perm_middle
          refine hpm.nodup ?_
          rw [List.nodup_append]
          exact ⟨hndA, hndB, hdisj⟩
        obtain ⟨s2, t2, b2v, M, B2, heq, hMne, hperm, hchain, ht2, hchB, hfn, hfp⟩ :=
          ih s1 b a b2 A B1 hcA1 (chainN_tail hcB1) hnd3 (by
            simp only [List.length_cons] at hf ⊢
            omega)
        have hb_nrec : b ∉ (a :: A) ++ (b2 :: B1) := by
          have := hnd3
          rw [List.nodup_cons] at this
          exact this.1
        refine ⟨s2, t2, b2v, b :: M, B2, heq, by simp, ?_, ?_, ?_, hchB, ?_, ?_⟩
        · exact ((hperm.cons b).trans List.perm_middle.symm)
        · rw [List.chain'_cons]
          refine ⟨⟨?_, ?_⟩, hchain⟩
          · rw [hfn tail htail_nb (by
              intro hc
              rcases List.mem_append.mp hc with hc | hc
              · exact htail_nA hc
              · exact htail_nB (List.mem_cons_of_mem b hc))]
            rw [hs1, setPrev_next]
            simp
          · rw [hfp b hb_nrec, hs1]
            simp
        · rw [ht2]
          exact (List.getLast_cons (by simp)).symm
        · intro x hx1 hx2
          have hx3 : x ∉ (a :: A) ++ (b2 :: B1) := by
            intro hc
            rcases List.mem_append.mp hc with hc | hc
            · exact hx2 (List.mem_append_left _ hc)
            · exact hx2 (List.mem_append_right _ (List.mem_cons_of_mem b hc))
          rw [hfn x (fun hc => hx2 (List.mem_append_right _
            (hc ▸ List.mem_cons_self b _))) hx3]
          rw [hs1, setPrev_next]
          exact setNext_next_ne _ tail x _ hx1
        · intro x hx
          have hx3 : x ∉ (a :: A) ++ (b2 :: B1) := by
            intro hc
            rcases List.mem_append.mp hc with hc | hc
            · exact hx (List.mem_append_left _ hc)
            · exact hx (List.mem_append_right _ (List.mem_cons_of_mem b hc))
          rw [hfp x hx3]
          have hxb : x ≠ b :=
            fun hc => hx (List.mem_append_right _ (hc ▸ List.mem_cons_self b _))
          rw [hs1, setPrev_prev_ne _ b x _ hxb]
          rfl

/-- The final do-while of `merge_restore`: walks the remaining chain from `b`
writing each node's `prev`, returning the last node. -/
def mrTail : Nat → PS → Nat → Nat → PS × Nat
  | 0, s, tail, _ => (s, tail)
  | fuel + 1, s, tail, b =>
    let s1 := s.setPrev b (some tail)
    match s1.next b with
    | none => (s1, b)
    | some b2 => mrTail fuel s1 b b2

theorem mrTail_spec : ∀ (fuel : Nat) (s : PS) (tail b : Nat) (B : List Nat),
    chainN s (b :: B) → (b :: B).Nodup →
    s.next tail = some b →
    B.length + 1 ≤ fuel →
    ∃ s2 t2, mrTail fuel s tail b = (s2, t2) ∧
      t2 = (b :: B).getLast (by simp) ∧
      List.Chain' (adj s2) (tail :: b :: B) ∧
      (∀ x, s2.next x = s.next x) ∧
      (∀ x, x ∉ b :: B → s2.prev x = s.prev x) := by
  intro fuel
  induction fuel with
  | zero =>
    intro s tail b B _ _ _ hf
    omega
  | succ f ih =>
    intro s tail b B hcB hnd htl hf
    set s1 := s.setPrev b (some tail) with hs1
    have hred : mrTail (f + 1) s tail b =
        (match s1.next b with
         | none => (s1, b)
         | some b2 => mrTail f s1 b b2) := by
      simp only [mrTail, hs1]
    have hnb : s1.next b = s.next b := by
      rw [hs1]
      rfl
    rcases B with _ | ⟨b2, B1⟩
    · have hse : s1.next b = none := by
        rw [hnb]
        exact hcB
      rw [hred, hse]
      refine ⟨s1, b, rfl, by simp, ?_, ?_, ?_⟩
      · rw [List.chain'_cons]
        refine ⟨⟨?_, ?_⟩, by simp⟩
        · rw [hs1, setPrev_next]
          exact htl
        · rw [hs1]
          simp
      · intro x
        rw [hs1]
        rfl
      · intro x hx
        have hxb : x ≠ b := by
          intro hc
          exact hx (hc ▸ List.mem_cons_self b [])
        rw [hs1, setPrev_prev_ne _ b x _ hxb]
    · have hse : s1.next b = some b2 := by
        rw [hnb]
        exact hcB.1
      rw [hred, hse]
      rw [List.nodup_cons] at hnd
      obtain ⟨hb_nm, hnd2⟩ := hnd
      have hcB2 : chainN s1 (b2 :: B1) := by
        rw [hs1]
        exact chainN_setPrev (chainN_tail hcB)
      obtain ⟨s2, t2, heq, ht2, hchain, hfn, hfp⟩ :=
        ih s1 b b2 B1 hcB2 hnd2 hse (by
          simp only [List.length_cons] at hf ⊢
          omega)
      refine ⟨s2, t2, heq, ?_, ?_, ?_, ?_⟩
      · rw [ht2]
        exact (List.getLast_cons (by simp)).symm
      · rw [List.chain'_cons]
        refine ⟨⟨?_, ?_⟩, hchain⟩
        · rw [hfn tail, hs1, setPrev_next]
          exact htl
        · rw [hfp b hb_nm, hs1]
          simp
      · intro x
        rw [hfn x, hs1]
        rfl
      · intro x hx
        have hx2 : x ∉ b2 :: B1 := fun hc => hx (List.mem_cons_of_mem b hc)
        rw [hfp x hx2]
        have hxb : x ≠ b := fun hc => hx (hc ▸ List.mem_cons_self b _)
        rw [hs1, setPrev_prev_ne _ b x _ hxb]

/-- `merge_restore(head, a, b)` with `head` the sentinel: thread the two
chains after the sentinel restoring `prev`, splice the remainder, then close
the cycle (`tail->next = head; head->prev = tail`). -/
def merge_restore_ptr (cmp : Nat → Nat → Bool) (fuel : Nat) (s : PS)
    (a b : Nat) : PS :=
  match mrGo cmp fuel s 0 a b with
  | (s1, tail, b1) =>
    let s2 := s1.setNext tail (some b1)
    match mrTail fuel s2 tail b1 with
    | (s3, tail2) => (s3.setNext tail2 (some 0)).setPrev 0 (some tail2)

theorem merge_restore_ptr_ring (cmp : Nat → Nat → Bool) (fuel : Nat) (s : PS)
    (a b : Nat) (A B : List Nat)
    (hcA : chainN s (a :: A)) (hcB : chainN s (b :: B))
    (hnd : (0 :: ((a :: A) ++ (b :: B))).Nodup)
    (hf : A.length + B.length + 1 ≤ fuel) :
    ∃ ys, List.Perm ys ((a :: A) ++ (b :: B)) ∧
      ringWf (merge_restore_ptr cmp fuel s a b) ys := by
  obtain ⟨s1, t1, b1, M, B1, heq1, hMne, hperm1, hch1, ht1, hchB1, hfn1, hfp1⟩ :=
    mrGo_spec cmp fuel s 0 a b A B hcA hcB hnd hf
  have hnd0 := hnd
  rw [List.nodup_cons] at hnd0
  obtain ⟨h0_nm, hndm⟩ := hnd0
  have hndMB : (M ++ (b1 :: B1)).Nodup := hperm1.symm.nodup hndm
  have h0_nMB : (0 : Nat) ∉ M ++ (b1 :: B1) := fun hc => h0_nm (hperm1.subset hc)
  have h0_nM : (0 : Nat) ∉ M := fun hc => h0_nMB (List.mem_append_left _ hc)
  have h0_nB1 : (0 : Nat) ∉ b1 :: B1 := fun hc => h0_nMB (List.mem_append_right _ hc)
  rw [List.nodup_append] at hndMB
  obtain ⟨hndM, hndB1, hdisjMB⟩ := hndMB
  have hnd0M : ((0 : Nat) :: M).Nodup := by
    rw [List.nodup_cons]
    exact ⟨h0_nM, hndM⟩
  have ht1_mem : t1 ∈ (0 : Nat) :: M := by
    rw [ht1]
    exact List.getLast_mem _
  have ht1_nB1 : t1 ∉ b1 :: B1 := by
    intro hc
    rcases List.mem_cons.mp ht1_mem with h1 | h1
    · exact h0_nB1 (h1 ▸ hc)
    · exact hdisjMB h1 hc
  set s2 := s1.setNext t1 (some b1) with hs2
  have hchB2 : chainN s2 (b1 :: B1) := by
    rw [hs2]
    exact chainN_setNext_other ht1_nB1 hchB1
  have hlen : M.length + B1.length = A.length + B.length + 1 := by
    have hl := hperm1.length_eq
    simp only [List.length_append, List.length_cons] at hl
    omega
  obtain ⟨s3, t2, heq2, ht2v, hch2, hfn2, hfp2⟩ :=
    mrTail_spec fuel s2 t1 b1 B1 hchB2 hndB1 (by rw [hs2]; simp) (by
      rcases M with _ | ⟨m0, M0⟩
      · exact absurd rfl hMne
      · simp only [List.length_cons] at hlen
        omega)
  have ht2_mem : t2 ∈ b1 :: B1 := by
    rw [ht2v]
    exact List.getLast_mem _
  have ht2_n0 : t2 ≠ 0 := fun hc => h0_nB1 (hc ▸ ht2_mem)
  have ht2_nM : t2 ∉ M := fun hc => hdisjMB hc ht2_mem
  refine ⟨M ++ (b1 :: B1), hperm1, ?_⟩
  have hred : merge_restore_ptr cmp fuel s a b =
      (s3.setNext t2 (some 0)).setPrev 0 (some t2) := by
    unfold merge_restore_ptr
    rw [heq1]
    simp only [← hs2]
    rw [heq2]
  rw [hred]
  set s4 := (s3.setNext t2 (some 0)).setPrev 0 (some t2) with hs4
  unfold ringWf
  rw [show (0 : Nat) :: (M ++ (b1 :: B1)) ++ [0] =
    (0 :: M) ++ ((b1 :: B1) ++ [0]) from by simp]
  rw [List.chain'_append]
  refine ⟨?_, ?_, ?_⟩
  · -- threaded front part, transferred to the final state
    refine chain_adj_congr (0 :: M) ?_ ?_ hch1
    · intro x hx
      have hx_ne_t2 : x ≠ t2 := by
        intro hc
        subst hc
        rcases List.mem_cons.mp (List.mem_of_mem_dropLast hx) with h1 | h1
        · exact ht2_n0 h1
        · exact ht2_nM h1
      have hx_ne_t1 : x ≠ t1 := by
        intro hc
        rw [ht1] at hc
        subst hc
        exact getLast_not_mem_dropLast (by simp) hnd0M hx
      rw [hs4, setPrev_next, setNext_next_ne _ t2 x _ hx_ne_t2, hfn2 x, hs2,
        setNext_next_ne _ t1 x _ hx_ne_t1]
    · intro y hy
      simp only [List.tail_cons] at hy
      have hy_n0 : y ≠ 0 := fun hc => h0_nM (hc ▸ hy)
      have hy_nB1 : y ∉ b1 :: B1 := fun hc => hdisjMB hy hc
      rw [hs4, setPrev_prev_ne _ 0 y _ hy_n0, setNext_prev, hfp2 y hy_nB1, hs2,
        setNext_prev]
  · -- remaining chain plus the closing link back to the sentinel
    rw [List.chain'_append]
    refine ⟨?_, by simp, ?_⟩
    · have hch2t : List.Chain' (adj s3) (b1 :: B1) :=
        (List.chain'_cons'.mp hch2).2
      refine chain_adj_congr (b1 :: B1) ?_ ?_ hch2t
      · intro x hx
        have hx_ne_t2 : x ≠ t2 := by
          intro hc
          rw [ht2v] at hc
          subst hc
          exact getLast_not_mem_dropLast (by simp) hndB1 hx
        rw [hs4, setPrev_next, setNext_next_ne _ t2 x _ hx_ne_t2]
      · intro y hy
        have hy_n0 : y ≠ 0 :=
          fun hc => h0_nB1 (hc ▸ List.mem_cons_of_mem b1 hy)
        rw [hs4, setPrev_prev_ne _ 0 y _ hy_n0, setNext_prev]
    · intro x hx y hy
      rw [List.getLast?_eq_getLast _ (by simp)] at hx
      have hx2 : x = (b1 :: B1).getLast (by simp) :=
        (Option.some.inj (Option.mem_def.mp hx)).symm
      have hy2 : y = 0 := by
        have h := hy
        rw [show ([0] : List Nat).head? = some 0 from rfl] at h
        exact (Option.some.inj (Option.mem_def.mp h)).symm
      subst hy2
      rw [hx2, ← ht2v]
      refine ⟨?_, ?_⟩
      · rw [hs4, setPrev_next]
        simp
      · rw [hs4]
        simp
  · -- the splice between the two parts
    intro x hx y hy
    rw [List.getLast?_eq_getLast _ (by simp)] at hx
    have hx2 : x = (0 :: M).getLast (by simp) :=
      (Option.some.inj (Option.mem_def.mp hx)).symm
    have hy2 : y = b1 := by
      have h := hy
      rw [show ((b1 :: B1) ++ [0] : List Nat).head? = some b1 from rfl] at h
      exact (Option.some.inj (Option.mem_def.mp h)).symm
    rw [hx2, hy2, ← ht1]
    have hadj := (List.chain'_cons.mp hch2).1
    refine ⟨?_, ?_⟩
    · rw [hs4, setPrev_next, setNext_next_ne _ t2 t1 _ ?_]
      · rw [hfn2 t1, hs2]
        simp
      · intro hc
        rcases List.mem_cons.mp ht1_mem with h1 | h1
        · exact ht2_n0 (hc ▸ h1)
        · exact ht2_nM (hc ▸ h1)
    · have hb1_n0 : b1 ≠ 0 := fun hc => h0_nB1 (hc ▸ List.mem_cons_self b1 B1)
      rw [hs4, setPrev_prev_ne _ 0 b1 _ hb1_n0, setNext_prev]
      exact hadj.2

/-- All nodes held by the pending stack (runs newest first, head before
tail). -/
def stackNodes : List (Nat × List Nat) → List Nat
  | [] => []
  | (h, t) :: rest => (h :: t) ++ stackNodes rest

/-- The pointer value stored in a stack slot: the head of its run, or NULL
below the bottom of the stack. -/
def stackPtr : List (Nat × List Nat) → Option Nat
  | [] => none
  | (h, _) :: _ => some h

/-- The pending stack as laid out in the fields, from the pointer value `p`
down to the value `q` under its bottom: each run is a `next`-chain whose
head's `prev` holds the next slot's value. -/
def stackSeg (s : PS) : List (Nat × List Nat) → Option Nat → Option Nat → Prop
  | [], p, q => p = q
  | (h, t) :: rest, p, q =>
    p = some h ∧ chainN s (h :: t) ∧ stackSeg s rest (s.prev h) q

/-- The full pending stack: `p` is the local variable `pending`, the bottom
run's head's `prev` is NULL. -/
def stackCh (s : PS) (st : List (Nat × List Nat)) (p : Option Nat) : Prop :=
  stackSeg s st p none

/-- The head of the deepest run of `(h, _) :: F'`. -/
def lastHead : Nat → List (Nat × List Nat) → Nat
  | h, [] => h
  | _, (h2, _) :: rest => lastHead h2 rest

/-- `tail = &pending; for (...) tail = &(*tail)->prev;` — the value `*tail`
after `k` hops. -/
def slotRead (s : PS) : Option Nat → Nat → Option Nat
  | p, 0 => p
  | p, k + 1 =>
    match p with
    | some h => slotRead s (s.prev h) k
    | none => none

/-- Writing `*tail = v` when `tail` sits `k + 1` hops deep: the location is
the `prev` field reached after walking `k` further hops from `h`.  The walk
follows the pre-merge state `walk` (the C code computed `tail` before
merging); the write lands in `s`. -/
def slotWriteP (walk s : PS) (v : Option Nat) : Nat → Nat → PS
  | h, 0 => s.setPrev h v
  | h, k + 1 =>
    match walk.prev h with
    | some h2 => slotWriteP walk s v h2 k
    | none => s

/-- Writing `*tail = v` at depth `k`: depth 0 is the variable `pending`
itself. -/
def slotWrite (walk s : PS) (p v : Option Nat) : Nat → PS × Option Nat
  | 0 => (s, v)
  | k + 1 =>
    match p with
    | some h => (slotWriteP walk s v h k, p)
    | none => (s, p)

/-- One pass of `q_sort`'s merge step: walk `tail` over the trailing ones of
`count`, and if `bits` is non-zero merge the two runs there
(`newer = *tail; older = newer->prev; newer = merge(older, newer);
newer->prev = older->prev; *tail = newer`).  Reads that the C code could
only reach through a NULL pointer return the state unchanged. -/
def sortBody (cmp : Nat → Nat → Bool) (mfuel : Nat) (s : PS)
    (pending : Option Nat) (count : Nat) : PS × Option Nat :=
  let k := trailingOnes count
  if count >>> k = 0 then (s, pending)
  else
    match slotRead s pending k with
    | some newer =>
      match s.prev newer with
      | some older =>
        match merge_ptr cmp mfuel s older newer with
        | (s1, m) => slotWrite s (s1.setPrev m (s1.prev older)) pending (some m) k
      | none => (s, pending)
    | none => (s, pending)

/-- The do-while of `q_sort`: merge step, then push the next input node as a
singleton run (`list->prev = pending; pending = list; list = list->next;
pending->next = NULL; ++count`), until the input chain is exhausted.
Returns the state and the final value of `pending` (the last pushed node). -/
def sortLoop (cmp : Nat → Nat → Bool) (mfuel : Nat) :
    Nat → PS → Option Nat → Nat → Nat → PS × Nat
  | 0, s, _, _, listv => (s, listv)
  | f + 1, s, pending, count, listv =>
    match sortBody cmp mfuel s pending count with
    | (s1, pending1) =>
      let s2 := s1.setPrev listv pending1
      let nxt := s2.next listv
      let s3 := s2.setNext listv none
      match nxt with
      | none => (s3, listv)
      | some l2 => sortLoop cmp mfuel f s3 (some listv) (count + 1) l2

/-- The final collapse: `for (;;) { next = pending->prev; if (!next) break;
list = merge(pending, list); pending = next; }`. -/
def collapseGo (cmp : Nat → Nat → Bool) (mfuel : Nat) :
    Nat → PS → Nat → Nat → PS × Nat × Nat
  | 0, s, p, l => (s, p, l)
  | f + 1, s, p, l =>
    match s.prev p with
    | none => (s, p, l)
    | some nxt =>
      match merge_ptr cmp mfuel s p l with
      | (s1, m) => collapseGo cmp mfuel f s1 nxt m

/-- `q_sort` at pointer level: return on an empty or singular ring
(`list == head->prev`), otherwise break the cycle
(`head->prev->next = NULL`), run the bottom-up loop, collapse the pending
stack, and rebuild the ring with `merge_restore`. -/
def q_sort_ptr (cmp : Nat → Nat → Bool) (fuel : Nat) (s : PS) : PS :=
  match s.next 0 with
  | none => s
  | some listv =>
    if s.next 0 = s.prev 0 then s
    else
      match s.prev 0 with
      | none => s
      | some lastn =>
        match sortLoop cmp fuel fuel (s.setNext lastn none) none 0 listv with
        | (s1, p0) =>
          match s1.prev p0 with
          | none => s1
          | some p1 =>
            match collapseGo cmp fuel fuel s1 p1 p0 with
            | (s2, pfin, lfin) => merge_restore_ptr cmp fuel s2 pfin lfin

theorem stackNodes_append : ∀ F D : List (Nat × List Nat),
    stackNodes (F ++ D) = stackNodes F ++ stackNodes D
  | [], _ => rfl
  | (h, t) :: F1, D => by
    show (h :: t) ++ stackNodes (F1 ++ D) = ((h :: t) ++ stackNodes F1) ++ stackNodes D
    rw [stackNodes_append F1 D, List.append_assoc]

theorem stackCh_ptr {s : PS} : ∀ {D : List (Nat × List Nat)} {p : Option Nat},
    stackCh s D p → p = stackPtr D
  | [], _, h => h
  | (h2, t2) :: _, _, h => h.1

theorem stackSeg_comp {s : PS} : ∀ (F D : List (Nat × List Nat))
    (p q r : Option Nat), stackSeg s F p r → stackSeg s D r q →
    stackSeg s (F ++ D) p q
  | [], D, p, q, r, hF, hD => by
    rw [show p = r from hF]
    exact hD
  | (h, t) :: F1, D, p, q, r, hF, hD => by
    obtain ⟨h1, h2, h3⟩ := hF
    exact ⟨h1, h2, stackSeg_comp F1 D _ q r h3 hD⟩

theorem stackSeg_split {s : PS} : ∀ (F D : List (Nat × List Nat))
    (p q : Option Nat), stackSeg s (F ++ D) p q →
    ∃ r, stackSeg s F p r ∧ stackSeg s D r q
  | [], D, p, q, h => ⟨p, rfl, h⟩
  | (h, t) :: F1, D, p, q, hseg => by
    obtain ⟨h1, h2, h3⟩ := hseg
    obtain ⟨r, hr1, hr2⟩ := stackSeg_split F1 D _ q h3
    exact ⟨r, ⟨h1, h2, hr1⟩, hr2⟩

theorem stackSeg_congr {s s2 : PS} : ∀ (F : List (Nat × List Nat))
    (p q : Option Nat),
    (∀ x ∈ stackNodes F, s2.next x = s.next x) →
    (∀ x ∈ stackNodes F, s2.prev x = s.prev x) →
    stackSeg s F p q → stackSeg s2 F p q
  | [], _, _, _, _, h => h
  | (h, t) :: F1, p, q, hn, hp, hseg => by
    obtain ⟨h1, h2, h3⟩ := hseg
    have hmemh : h ∈ stackNodes ((h, t) :: F1) :=
      List.mem_append_left _ (List.mem_cons_self h t)
    refine ⟨h1, ?_, ?_⟩
    · refine chainN_congr (h :: t) ?_ h2
      intro x hx
      exact hn x (List.mem_append_left _ hx)
    · rw [hp h hmemh]
      refine stackSeg_congr F1 _ q ?_ ?_ h3
      · intro x hx
        exact hn x (List.mem_append_right _ hx)
      · intro x hx
        exact hp x (List.mem_append_right _ hx)

theorem slotRead_stackCh {s : PS} : ∀ (F D : List (Nat × List Nat))
    (p : Option Nat), stackCh s (F ++ D) p →
    slotRead s p F.length = stackPtr D ∧ stackCh s D (stackPtr D)
  | [], D, p, h => by
    have h0 : stackCh s D p := h
    have hp : p = stackPtr D := stackCh_ptr h0
    have h1 : slotRead s p ([] : List (Nat × List Nat)).length = stackPtr D := hp
    refine ⟨h1, ?_⟩
    rw [← hp]
    exact h0
  | (h, t) :: F1, D, p, hch => by
    obtain ⟨h1, _, h3⟩ := hch
    rw [h1]
    show slotRead s (s.prev h) F1.length = stackPtr D ∧ stackCh s D (stackPtr D)
    exact slotRead_stackCh F1 D _ h3

theorem slotRead_none (s : PS) : ∀ k : Nat, slotRead s none k = none
  | 0 => rfl
  | k + 1 => rfl

theorem slotRead_add (s : PS) : ∀ (i j : Nat) (p : Option Nat),
    slotRead s p (i + j) = slotRead s (slotRead s p i) j := by
  intro i
  induction i with
  | zero =>
    intro j p
    rw [Nat.zero_add]
    rfl
  | succ i1 ih =>
    intro j p
    rcases p with _ | h
    · rw [slotRead_none, slotRead_none, slotRead_none]
    · rw [show i1 + 1 + j = (i1 + j) + 1 from by omega]
      show slotRead s (s.prev h) (i1 + j) = _
      rw [ih j (s.prev h)]
      rfl

theorem slotRead_ge {s : PS} {st : List (Nat × List Nat)} {p : Option Nat}
    (hch : stackCh s st p) {k : Nat} (hk : st.length ≤ k) :
    slotRead s p k = none := by
  have h1 : stackCh s (st ++ []) p := by
    rw [List.append_nil]
    exact hch
  have h2 := (slotRead_stackCh st [] p h1).1
  rw [show k = st.length + (k - st.length) from by omega, slotRead_add, h2]
  exact slotRead_none s _

theorem lastHead_mem : ∀ (F : List (Nat × List Nat)) (h : Nat) (t : List Nat),
    lastHead h F ∈ stackNodes ((h, t) :: F)
  | [], h, t => List.mem_append_left _ (List.mem_cons_self h t)
  | (h2, t2) :: F2, h, t => by
    show lastHead h2 F2 ∈ (h :: t) ++ stackNodes ((h2, t2) :: F2)
    exact List.mem_append_right _ (lastHead_mem F2 h2 t2)

theorem slotWriteP_spec {walk s : PS} {v : Option Nat} :
    ∀ (F1 : List (Nat × List Nat)) (h : Nat) (t : List Nat) (r : Option Nat),
    stackSeg walk ((h, t) :: F1) (some h) r →
    slotWriteP walk s v h F1.length = s.setPrev (lastHead h F1) v
  | [], h, t, r, _ => rfl
  | (h2, t2) :: F2, h, t, r, hseg => by
    obtain ⟨_, _, h3⟩ := hseg
    have hp : walk.prev h = some h2 := h3.1
    show (match walk.prev h with
      | some h3 => slotWriteP walk s v h3 F2.length
      | none => s) = _
    rw [hp]
    show slotWriteP walk s v h2 F2.length = _
    have h4 : stackSeg walk ((h2, t2) :: F2) (some h2) r := by
      rw [← hp]
      exact h3
    rw [slotWriteP_spec F2 h2 t2 r h4]
    rfl

theorem stackSeg_relink {s s2 : PS} {v : Option Nat} :
    ∀ (F1 : List (Nat × List Nat)) (h : Nat) (t : List Nat) (r : Option Nat),
    stackSeg s ((h, t) :: F1) (some h) r →
    (stackNodes ((h, t) :: F1)).Nodup →
    (∀ x ∈ stackNodes ((h, t) :: F1), s2.next x = s.next x) →
    (∀ x ∈ stackNodes ((h, t) :: F1), x ≠ lastHead h F1 → s2.prev x = s.prev x) →
    s2.prev (lastHead h F1) = v →
    stackSeg s2 ((h, t) :: F1) (some h) v
  | [], h, t, r, hseg, _, hn, _, hlast => by
    obtain ⟨_, h2, _⟩ := hseg
    refine ⟨rfl, ?_, ?_⟩
    · refine chainN_congr (h :: t) ?_ h2
      intro x hx
      exact hn x (List.mem_append_left _ hx)
    · exact hlast
  | (h2, t2) :: F2, h, t, r, hseg, hnd, hn, hp, hlast => by
    obtain ⟨_, hch, h3⟩ := hseg
    have hpv : s.prev h = some h2 := h3.1
    have hmem_last : lastHead h2 F2 ∈ stackNodes ((h2, t2) :: F2) :=
      lastHead_mem F2 h2 t2
    have hh_ne : h ≠ lastHead h2 F2 := by
      intro hc
      have hnd2 := hnd
      rw [show stackNodes ((h, t) :: (h2, t2) :: F2) =
        (h :: t) ++ stackNodes ((h2, t2) :: F2) from rfl, List.nodup_append] at hnd2
      exact hnd2.2.2 (List.mem_cons_self h t) (hc ▸ hmem_last)
    refine ⟨rfl, ?_, ?_⟩
    · refine chainN_congr (h :: t) ?_ hch
      intro x hx
      exact hn x (List.mem_append_left _ hx)
    · rw [hp h (List.mem_append_left _ (List.mem_cons_self h t)) hh_ne, hpv]
      have h4 : stackSeg s ((h2, t2) :: F2) (some h2) r := by
        rw [← hpv]
        exact h3
      refine stackSeg_relink F2 h2 t2 r h4 ?_ ?_ ?_ hlast
      · have hnd2 := hnd
        rw [show stackNodes ((h, t) :: (h2, t2) :: F2) =
          (h :: t) ++ stackNodes ((h2, t2) :: F2) from rfl,
          List.nodup_append] at hnd2
        exact hnd2.2.1
      · intro x hx
        exact hn x (List.mem_append_right _ hx)
      · intro x hx hx2
        exact hp x (List.mem_append_right _ hx) hx2

theorem sortBody_spec (cmp : Nat → Nat → Bool) (mfuel : Nat) (s : PS)
    (pending : Option Nat) (count : Nat) (st : List (Nat × List Nat))
    (hst : stackCh s st pending)
    (hnd : (stackNodes st).Nodup)
    (hf : (stackNodes st).length ≤ mfuel) :
    ∃ s2 p2 st2, sortBody cmp mfuel s pending count = (s2, p2) ∧
      stackCh s2 st2 p2 ∧
      List.Perm (stackNodes st2) (stackNodes st) ∧
      (st ≠ [] → st2 ≠ []) ∧
      (∀ x, x ∉ stackNodes st → s2.next x = s.next x ∧ s2.prev x = s.prev x) := by
  by_cases hg : count >>> trailingOnes count = 0
  · refine ⟨s, pending, st, ?_, hst, List.Perm.refl _, fun h => h,
      fun x _ => ⟨rfl, rfl⟩⟩
    simp only [sortBody]
    rw [if_pos hg]
  by_cases hk : st.length ≤ trailingOnes count
  · have hsr : slotRead s pending (trailingOnes count) = none := slotRead_ge hst hk
    refine ⟨s, pending, st, ?_, hst, List.Perm.refl _, fun h => h,
      fun x _ => ⟨rfl, rfl⟩⟩
    simp only [sortBody]
    rw [if_neg hg, hsr]
  push_neg at hk
  obtain ⟨F, D, hFD, hFlen⟩ : ∃ F D, st = F ++ D ∧
      F.length = trailingOnes count :=
    ⟨st.take (trailingOnes count), st.drop (trailingOnes count),
      (List.take_append_drop _ st).symm, by
        rw [List.length_take]
        omega⟩
  have hch2 : stackCh s (F ++ D) pending := by
    rw [← hFD]
    exact hst
  obtain ⟨hsr0, hchD⟩ := slotRead_stackCh F D pending hch2
  rw [hFlen] at hsr0
  rcases D with _ | ⟨⟨h0, t0⟩, D1⟩
  · exfalso
    rw [List.append_nil] at hFD
    rw [hFD] at hk
    omega
  obtain ⟨_, hch0, hseg1⟩ := hchD
  have hsr : slotRead s pending (trailingOnes count) = some h0 := hsr0
  rcases D1 with _ | ⟨⟨h1, t1⟩, D2⟩
  · -- the stack has a single run at the walk's depth: `older` is NULL
    have hpn : s.prev h0 = none := hseg1
    refine ⟨s, pending, st, ?_, hst, List.Perm.refl _, fun h => h,
      fun x _ => ⟨rfl, rfl⟩⟩
    simp only [sortBody]
    rw [if_neg hg, hsr]
    show (match s.prev h0 with
      | some older =>
        match merge_ptr cmp mfuel s older h0 with
        | (s1, m) =>
          slotWrite s (s1.setPrev m (s1.prev older)) pending (some m)
            (trailingOnes count)
      | none => (s, pending)) = (s, pending)
    rw [hpn]
  obtain ⟨hp1, hch1, hseg2⟩ := hseg1
  -- node-set bookkeeping
  have hndfd : (stackNodes F ++ ((h0 :: t0) ++ ((h1 :: t1) ++
      stackNodes D2))).Nodup := by
    have h2 := hnd
    rw [hFD, stackNodes_append] at h2
    exact h2
  rw [List.nodup_append] at hndfd
  obtain ⟨hndF, hndD, hdisjFD⟩ := hndfd
  rw [List.nodup_append] at hndD
  obtain ⟨hnd0, hnd1D2, hdisj0⟩ := hndD
  rw [List.nodup_append] at hnd1D2
  obtain ⟨hnd1, hndD2, hdisj1⟩ := hnd1D2
  have hndRuns : ((h1 :: t1) ++ (h0 :: t0)).Nodup := by
    rw [List.nodup_append]
    refine ⟨hnd1, hnd0, ?_⟩
    intro x hx1 hx0
    exact hdisj0 hx0 (List.mem_append_left _ hx1)
  have hfuel2 : t1.length + t0.length ≤ mfuel := by
    have h2 := hf
    rw [hFD, stackNodes_append] at h2
    rw [show stackNodes ((h0, t0) :: (h1, t1) :: D2) =
      (h0 :: t0) ++ ((h1 :: t1) ++ stackNodes D2) from rfl] at h2
    simp only [List.length_append, List.length_cons] at h2
    omega
  obtain ⟨s1, m, M, heqm, hpermM, hchainM, hfn, hprevEq⟩ :=
    merge_ptr_spec cmp mfuel s h1 h0 t1 t0 hch1 hch0 hndRuns hfuel2
  have hm_mem : m ∈ (h1 :: t1) ++ (h0 :: t0) :=
    hpermM.subset (List.mem_cons_self m M)
  have hmM_sub : ∀ x ∈ m :: M, x ∈ (h1 :: t1) ++ (h0 :: t0) :=
    fun x hx => hpermM.subset hx
  have hpd2 : s.prev h1 = stackPtr D2 := stackCh_ptr hseg2
  have hprev_h1 : s1.prev h1 = stackPtr D2 := by
    rw [hprevEq]
    exact hpd2
  set s2' := s1.setPrev m (s1.prev h1) with hs2'
  -- facts about the merged run in s2'
  have hchainM2 : chainN s2' (m :: M) := by
    rw [hs2']
    exact chainN_setPrev hchainM
  have hprev_m2 : s2'.prev m = stackPtr D2 := by
    rw [hs2', hprev_h1]
    simp
  have hsegD2 : stackSeg s2' D2 (stackPtr D2) none := by
    have hseg2b : stackSeg s D2 (stackPtr D2) none := by
      rw [← hpd2]
      exact hseg2
    refine stackSeg_congr D2 _ none ?_ ?_ hseg2b
    · intro x hx
      rw [hs2', setPrev_next]
      refine hfn x ?_
      intro hc
      rcases List.mem_append.mp hc with hc | hc
      · exact hdisj1 hc hx
      · exact hdisj0 hc (List.mem_append_right _ hx)
    · intro x hx
      have hxm : x ≠ m := by
        intro hc
        subst hc
        rcases List.mem_append.mp hm_mem with hc | hc
        · exact hdisj1 hc hx
        · exact hdisj0 hc (List.mem_append_right _ hx)
      rw [hs2', setPrev_prev_ne _ m x _ hxm, hprevEq]
  have hframe2 : ∀ x, x ∉ stackNodes st →
      s2'.next x = s.next x ∧ s2'.prev x = s.prev x := by
    intro x hx
    have hx_nr : x ∉ (h1 :: t1) ++ (h0 :: t0) := by
      intro hc
      refine hx ?_
      rw [hFD, stackNodes_append]
      rcases List.mem_append.mp hc with hc | hc
      · exact List.mem_append_right _ (List.mem_append_right _
          (List.mem_append_left _ hc))
      · exact List.mem_append_right _ (List.mem_append_left _ hc)
    have hxm : x ≠ m := by
      intro hc
      subst hc
      exact hx_nr hm_mem
    constructor
    · rw [hs2', setPrev_next]
      exact hfn x hx_nr
    · rw [hs2', setPrev_prev_ne _ m x _ hxm, hprevEq]
  -- the permutation of node sets, shared by both write depths
  have hpermD : List.Perm ((m :: M) ++ stackNodes D2)
      ((h0 :: t0) ++ ((h1 :: t1) ++ stackNodes D2)) := by
    refine (hpermM.append_right _).trans ?_
    have e2 : List.Perm (((h1 :: t1) ++ (h0 :: t0)) ++ stackNodes D2)
        (((h0 :: t0) ++ (h1 :: t1)) ++ stackNodes D2) :=
      List.perm_append_comm.append_right _
    refine e2.trans ?_
    rw [List.append_assoc]
  rcases hkk : trailingOnes count with _ | k1
  · -- write at depth 0: the variable `pending` itself
    rw [hkk] at hFlen hsr
    have hFnil : F = [] := List.length_eq_zero.mp hFlen
    subst hFnil
    rw [List.nil_append] at hFD
    have hred : sortBody cmp mfuel s pending count = (s2', some m) := by
      simp only [sortBody]
      rw [if_neg hg]
      rw [show trailingOnes count = 0 from hkk]
      rw [hsr]
      show (match s.prev h0 with
        | some older =>
          match merge_ptr cmp mfuel s older h0 with
          | (s1, m) =>
            slotWrite s (s1.setPrev m (s1.prev older)) pending (some m) 0
        | none => (s, pending)) = (s2', some m)
      rw [hp1]
      show (match merge_ptr cmp mfuel s h1 h0 with
        | (s1, m) =>
          slotWrite s (s1.setPrev m (s1.prev h1)) pending (some m) 0) =
        (s2', some m)
      rw [heqm]
      show slotWrite s (s1.setPrev m (s1.prev h1)) pending (some m) 0 =
        (s2', some m)
      rfl
    refine ⟨s2', some m, (m, M) :: D2, hred, ?_, ?_, fun _ => by simp, hframe2⟩
    · refine ⟨rfl, hchainM2, ?_⟩
      rw [hprev_m2]
      exact hsegD2
    · rw [hFD]
      exact hpermD
  · -- write at depth `k1 + 1`: the `prev` field of the deepest walked head
    rw [hkk] at hFlen hsr
    rcases F with _ | ⟨⟨hh, tt⟩, F1⟩
    · simp at hFlen
    have hF1len : F1.length = k1 := by
      simp only [List.length_cons] at hFlen
      omega
    have hpend : pending = some hh := hch2.1
    have hsegF : stackSeg s ((hh, tt) :: F1) (some hh) (stackPtr ((h0, t0) ::
        (h1, t1) :: D2)) := by
      obtain ⟨r, hr1, hr2⟩ := stackSeg_split ((hh, tt) :: F1) _ pending none hch2
      have hrp : r = stackPtr ((h0, t0) :: (h1, t1) :: D2) := stackCh_ptr hr2
      rw [← hpend, ← hrp]
      exact hr1
    have hwp := @slotWriteP_spec s s2' (some m) F1 hh tt _ hsegF
    set hl := lastHead hh F1 with hhl
    have hl_memF : hl ∈ stackNodes ((hh, tt) :: F1) := lastHead_mem F1 hh tt
    have hl_nD : hl ∉ (h0 :: t0) ++ ((h1 :: t1) ++ stackNodes D2) :=
      hdisjFD hl_memF
    have hl_nm : hl ≠ m := by
      intro hc
      refine hl_nD ?_
      rcases List.mem_append.mp (hc ▸ hm_mem) with hc2 | hc2
      · exact List.mem_append_right _ (List.mem_append_left _ hc2)
      · exact List.mem_append_left _ hc2
    set s3 := s2'.setPrev hl (some m) with hs3
    have hred : sortBody cmp mfuel s pending count = (s3, pending) := by
      simp only [sortBody]
      rw [if_neg hg]
      rw [show trailingOnes count = k1 + 1 from hkk]
      rw [hsr]
      show (match s.prev h0 with
        | some older =>
          match merge_ptr cmp mfuel s older h0 with
          | (s1, m) =>
            slotWrite s (s1.setPrev m (s1.prev older)) pending (some m) (k1 + 1)
        | none => (s, pending)) = (s3, pending)
      rw [hp1]
      show (match merge_ptr cmp mfuel s h1 h0 with
        | (s1, m) =>
          slotWrite s (s1.setPrev m (s1.prev h1)) pending (some m) (k1 + 1)) =
        (s3, pending)
      rw [heqm]
      show slotWrite s s2' pending (some m) (k1 + 1) = (s3, pending)
      rw [hpend]
      show (slotWriteP s s2' (some m) hh k1, some hh) = (s3, some hh)
      rw [← hF1len, hwp]
    refine ⟨s3, pending, ((hh, tt) :: F1) ++ (m, M) :: D2, hred, ?_, ?_, ?_, ?_⟩
    · -- the rebuilt stack is well formed
      rw [hpend]
      refine stackSeg_comp _ _ _ none (some m) ?_ ?_
      · -- the walked prefix now links down to the merged run
        refine stackSeg_relink F1 hh tt _ hsegF hndF ?_ ?_ ?_
        · intro x hx
          rw [hs3, setPrev_next, hs2', setPrev_next]
          refine hfn x ?_
          intro hc
          refine hdisjFD hx ?_
          rcases List.mem_append.mp hc with hc | hc
          · exact List.mem_append_right _ (List.mem_append_left _ hc)
          · exact List.mem_append_left _ hc
        · intro x hx hx2
          have hxm : x ≠ m := by
            intro hc
            subst hc
            refine hdisjFD hx ?_
            rcases List.mem_append.mp hm_mem with hc2 | hc2
            · exact List.mem_append_right _ (List.mem_append_left _ hc2)
            · exact List.mem_append_left _ hc2
          rw [hs3, setPrev_prev_ne _ hl x _ hx2, hs2',
            setPrev_prev_ne _ m x _ hxm, hprevEq]
        · rw [hs3]
          simp
      · -- the merged run sits where the two old runs were
        refine ⟨rfl, ?_, ?_⟩
        · rw [hs3]
          exact chainN_setPrev hchainM2
        · rw [hs3, setPrev_prev_ne _ hl m _ (Ne.symm hl_nm), hprev_m2]
          refine stackSeg_congr D2 _ none ?_ ?_ hsegD2
          · intro x _
            rw [setPrev_next]
          · intro x hx
            have hxl : x ≠ hl := by
              intro hc
              subst hc
              exact hl_nD (List.mem_append_right _ (List.mem_append_right _ hx))
            rw [setPrev_prev_ne _ hl x _ hxl]
    · -- same nodes
      rw [hFD, stackNodes_append, stackNodes_append]
      refine List.Perm.append_left _ ?_
      exact hpermD
    · intro _
      simp
    · -- frame
      intro x hx
      have hxF : x ∉ stackNodes ((hh, tt) :: F1) := by
        intro hc
        refine hx ?_
        rw [hFD, stackNodes_append]
        exact List.mem_append_left _ hc
      have hxl : x ≠ hl := fun hc => hxF (hc ▸ hl_memF)
      obtain ⟨hfx1, hfx2⟩ := hframe2 x hx
      refine ⟨?_, ?_⟩
      · rw [hs3, setPrev_next]
        exact hfx1
      · rw [hs3, setPrev_prev_ne _ hl x _ hxl]
        exact hfx2

theorem sortLoop_spec (cmp : Nat → Nat → Bool) (mfuel : Nat) :
    ∀ (f : Nat) (s : PS) (st : List (Nat × List Nat)) (pending : Option Nat)
      (count l : Nat) (R : List Nat),
    stackCh s st pending →
    chainN s (l :: R) →
    (stackNodes st ++ (l :: R)).Nodup →
    R.length + 1 ≤ f →
    (stackNodes st ++ (l :: R)).length ≤ mfuel →
    ∃ s2 p0 pt rest, sortLoop cmp mfuel f s pending count l = (s2, p0) ∧
      stackCh s2 ((p0, pt) :: rest) (some p0) ∧
      List.Perm (stackNodes ((p0, pt) :: rest)) (stackNodes st ++ (l :: R)) ∧
      (1 ≤ st.length + R.length → rest ≠ []) := by
  intro f
  induction f with
  | zero =>
    intro s st pending count l R _ _ _ hfR _
    omega
  | succ f ih =>
    intro s st pending count l R hst hcl hnd hfR hmf
    have hndst : (stackNodes st).Nodup := by
      rw [List.nodup_append] at hnd
      exact hnd.1
    have hdisj : ∀ x ∈ l :: R, x ∉ stackNodes st := by
      rw [List.nodup_append] at hnd
      intro x hx hc
      exact hnd.2.2 hc hx
    obtain ⟨s1, p1v, st1, heqb, hst1, hpermb, hne1, hfr1⟩ :=
      sortBody_spec cmp mfuel s pending count st hst hndst (by
        rw [List.length_append] at hmf
        omega)
    have hcl1 : chainN s1 (l :: R) := by
      refine chainN_congr (l :: R) ?_ hcl
      intro x hx
      exact (hfr1 x (hdisj x hx)).1
    have hl_nst1 : l ∉ stackNodes st1 := by
      intro hc
      exact hdisj l (List.mem_cons_self l R) (hpermb.subset hc)
    have hnext_l : (s1.setPrev l p1v).next l = s1.next l := setPrev_next _ _ _ _
    have hst3 : stackCh ((s1.setPrev l p1v).setNext l none) ((l, []) :: st1)
        (some l) := by
      refine ⟨rfl, ?_, ?_⟩
      · show ((s1.setPrev l p1v).setNext l none).next l = none
        simp
      · have hpl : ((s1.setPrev l p1v).setNext l none).prev l = p1v := by
          rw [setNext_prev]
          simp
        rw [hpl]
        refine stackSeg_congr st1 _ none ?_ ?_ hst1
        · intro x hx
          have hxl : x ≠ l := fun hc => hl_nst1 (hc ▸ hx)
          rw [setNext_next_ne _ l x _ hxl, setPrev_next]
        · intro x hx
          have hxl : x ≠ l := fun hc => hl_nst1 (hc ▸ hx)
          rw [setNext_prev, setPrev_prev_ne _ l x _ hxl]
    rcases R with _ | ⟨r, R1⟩
    · -- last push: the loop exits with pending = l
      have hnone : (s1.setPrev l p1v).next l = none := by
        rw [hnext_l]
        exact hcl1
      have hred : sortLoop cmp mfuel (f + 1) s pending count l =
          ((s1.setPrev l p1v).setNext l none, l) := by
        simp only [sortLoop]
        rw [heqb]
        show (match (s1.setPrev l p1v).next l with
          | none => ((s1.setPrev l p1v).setNext l none, l)
          | some l2 => sortLoop cmp mfuel f ((s1.setPrev l p1v).setNext l none)
              (some l) (count + 1) l2) =
          ((s1.setPrev l p1v).setNext l none, l)
        rw [hnone]
      refine ⟨(s1.setPrev l p1v).setNext l none, l, [], st1, hred, hst3, ?_, ?_⟩
      · show List.Perm ((l :: []) ++ stackNodes st1) (stackNodes st ++ [l])
        refine (List.Perm.append_left [l] hpermb).trans ?_
        exact (@List.perm_append_comm _ (stackNodes st) [l]).symm.symm.symm
      · intro hlen
        refine hne1 ?_
        intro hc
        rw [hc] at hlen
        simp at hlen
    · -- more input: push and continue
      have hsome : (s1.setPrev l p1v).next l = some r := by
        rw [hnext_l]
        exact hcl1.1
      have hl_nr : l ∉ r :: R1 := by
        rw [List.nodup_append, List.nodup_cons] at hnd
        exact hnd.2.1.1
      have hcr : chainN ((s1.setPrev l p1v).setNext l none) (r :: R1) := by
        refine chainN_setNext_other hl_nr ?_
        refine chainN_congr (r :: R1) ?_ (chainN_tail hcl1)
        intro x _
        exact setPrev_next _ _ _ _
      have hperm_all : List.Perm (stackNodes ((l, []) :: st1) ++ (r :: R1))
          (stackNodes st ++ (l :: r :: R1)) := by
        show List.Perm (((l :: []) ++ stackNodes st1) ++ (r :: R1)) _
        have e1 : List.Perm (((l :: []) ++ stackNodes st1) ++ (r :: R1))
            (((l :: []) ++ stackNodes st) ++ (r :: R1)) :=
          (List.Perm.append_left [l] hpermb).append_right _
        refine e1.trans ?_
        have e2 : ((l :: []) ++ stackNodes st) ++ (r :: R1) =
            l :: (stackNodes st ++ (r :: R1)) := by
          simp
        rw [e2]
        exact List.perm_middle.symm
      have hnd2 : (stackNodes ((l, []) :: st1) ++ (r :: R1)).Nodup :=
        hperm_all.symm.nodup hnd
      obtain ⟨s2f, p0, pt, rest, heqr, hstf, hpermf, hresf⟩ :=
        ih ((s1.setPrev l p1v).setNext l none) ((l, []) :: st1) (some l)
          (count + 1) r R1 hst3 hcr hnd2 (by
            simp only [List.length_cons] at hfR ⊢
            omega) (by
            rw [hperm_all.length_eq]
            exact hmf)
      have hred : sortLoop cmp mfuel (f + 1) s pending count l =
          sortLoop cmp mfuel f ((s1.setPrev l p1v).setNext l none) (some l)
            (count + 1) r := by
        simp only [sortLoop]
        rw [heqb]
        show (match (s1.setPrev l p1v).next l with
          | none => ((s1.setPrev l p1v).setNext l none, l)
          | some l2 => sortLoop cmp mfuel f ((s1.setPrev l p1v).setNext l none)
              (some l) (count + 1) l2) = _
        rw [hsome]
      refine ⟨s2f, p0, pt, rest, by rw [hred]; exact heqr, hstf, ?_, ?_⟩
      · exact hpermf.trans hperm_all
      · intro _
        refine hresf ?_
        simp only [List.length_cons]
        omega

theorem collapseGo_spec (cmp : Nat → Nat → Bool) (mfuel : Nat) :
    ∀ (f : Nat) (s : PS) (p : Nat) (pt : List Nat)
      (rest : List (Nat × List Nat)) (l : Nat) (L : List Nat),
    stackCh s ((p, pt) :: rest) (some p) →
    chainN s (l :: L) →
    (stackNodes ((p, pt) :: rest) ++ (l :: L)).Nodup →
    rest.length + 1 ≤ f →
    (stackNodes ((p, pt) :: rest) ++ (l :: L)).length ≤ mfuel →
    ∃ s2 p2 l2 PT LL, collapseGo cmp mfuel f s p l = (s2, p2, l2) ∧
      chainN s2 (p2 :: PT) ∧ chainN s2 (l2 :: LL) ∧
      List.Perm ((p2 :: PT) ++ (l2 :: LL))
        (stackNodes ((p, pt) :: rest) ++ (l :: L)) := by
  intro f
  induction f with
  | zero =>
    intro s p pt rest l L _ _ _ hfr _
    omega
  | succ f ih =>
    intro s p pt rest l L hst hcl hnd hfr hmf
    obtain ⟨_, hchp, hseg⟩ := hst
    rcases rest with _ | ⟨⟨h2, t2⟩, rest2⟩
    · -- the stack is down to one run: the collapse loop exits at once
      have hsp : s.prev p = none := hseg
      have hred : collapseGo cmp mfuel (f + 1) s p l = (s, p, l) := by
        simp only [collapseGo]
        rw [hsp]
      refine ⟨s, p, l, pt, L, hred, hchp, hcl, ?_⟩
      show List.Perm ((p :: pt) ++ (l :: L)) (((p :: pt) ++ stackNodes []) ++ (l :: L))
      rw [show stackNodes ([] : List (Nat × List Nat)) = [] from rfl,
        List.append_nil]
    · obtain ⟨hsp2, hch2, hseg2⟩ := hseg
      -- node-set bookkeeping
      have hndsplit : ((p :: pt) ++ (l :: L)).Nodup := by
        have h1 : ((p :: pt) ++ (stackNodes ((h2, t2) :: rest2) ++ (l :: L))).Nodup := by
          have h0 := hnd
          rw [show stackNodes ((p, pt) :: (h2, t2) :: rest2) =
            (p :: pt) ++ stackNodes ((h2, t2) :: rest2) from rfl,
            List.append_assoc] at h0
          exact h0
        have h2p : List.Perm
            ((p :: pt) ++ (stackNodes ((h2, t2) :: rest2) ++ (l :: L)))
            ((p :: pt) ++ ((l :: L) ++ stackNodes ((h2, t2) :: rest2))) :=
          List.Perm.append_left _ List.perm_append_comm
        have h3 := h2p.nodup h1
        rw [← List.append_assoc] at h3
        exact h3.sublist (List.sublist_append_left _ _)
      have hdisj_rest : ∀ x ∈ (p :: pt) ++ (l :: L),
          x ∉ stackNodes ((h2, t2) :: rest2) := by
        have h0 := hnd
        rw [show stackNodes ((p, pt) :: (h2, t2) :: rest2) =
          (p :: pt) ++ stackNodes ((h2, t2) :: rest2) from rfl] at h0
        intro x hx hc
        rcases List.mem_append.mp hx with hx | hx
        · rw [List.append_assoc, List.nodup_append] at h0
          exact h0.2.2 hx (List.mem_append_left _ hc)
        · rw [List.nodup_append] at h0
          exact h0.2.2 (List.mem_append_right _ hc) hx
      have hfuel2 : pt.length + L.length ≤ mfuel := by
        have h0 := hmf
        rw [show stackNodes ((p, pt) :: (h2, t2) :: rest2) =
          (p :: pt) ++ stackNodes ((h2, t2) :: rest2) from rfl] at h0
        simp only [List.length_append, List.length_cons] at h0
        omega
      obtain ⟨s1, m, M, heqm, hpermM, hchainM, hfn, hprevEq⟩ :=
        merge_ptr_spec cmp mfuel s p l pt L hchp hcl hndsplit hfuel2
      have hst1 : stackCh s1 ((h2, t2) :: rest2) (some h2) := by
        have hseg0 : stackSeg s ((h2, t2) :: rest2) (some h2) none := by
          rw [← hsp2]
          exact ⟨hsp2, hch2, hseg2⟩
        refine stackSeg_congr _ _ none ?_ ?_ hseg0
        · intro x hx
          refine hfn x ?_
          intro hc
          exact hdisj_rest x hc hx
        · intro x _
          rw [hprevEq]
      have hpermrec : List.Perm
          (stackNodes ((h2, t2) :: rest2) ++ (m :: M))
          (stackNodes ((p, pt) :: (h2, t2) :: rest2) ++ (l :: L)) := by
        refine (List.Perm.append_left _ hpermM).trans ?_
        refine List.perm_append_comm.trans ?_
        rw [show stackNodes ((p, pt) :: (h2, t2) :: rest2) =
          (p :: pt) ++ stackNodes ((h2, t2) :: rest2) from rfl]
        rw [List.append_assoc, List.append_assoc]
        refine List.Perm.append_left _ ?_
        exact List.perm_append_comm
      have hndrec : (stackNodes ((h2, t2) :: rest2) ++ (m :: M)).Nodup :=
        hpermrec.symm.nodup hnd
      obtain ⟨s2, p2, l2, PT, LL, heqc, hcp2, hcl2, hpermf⟩ :=
        ih s1 h2 t2 rest2 m M hst1 hchainM hndrec (by
          simp only [List.length_cons] at hfr ⊢
          omega) (by
          rw [hpermrec.length_eq]
          exact hmf)
      have hred : collapseGo cmp mfuel (f + 1) s p l = (s2, p2, l2) := by
        simp only [collapseGo]
        rw [hsp2]
        show (match merge_ptr cmp mfuel s p l with
          | (s1, m) => collapseGo cmp mfuel f s1 h2 m) = (s2, p2, l2)
        rw [heqm]
        exact heqc
      exact ⟨s2, p2, l2, PT, LL, hred, hcp2, hcl2, hpermf.trans hpermrec⟩

theorem chain_next_congr {s s2 : PS} : ∀ c : List Nat,
    (∀ x ∈ c.dropLast, s2.next x = s.next x) →
    List.Chain' (fun u v => s.next u = some v) c →
    List.Chain' (fun u v => s2.next u = some v) c
  | [], _, _ => List.chain'_nil
  | [x], _, _ => by simp
  | x :: y :: t, hn, hc => by
    rw [List.chain'_cons] at hc ⊢
    refine ⟨?_, ?_⟩
    · rw [hn x (by simp)]
      exact hc.1
    · refine chain_next_congr (y :: t) ?_ hc.2
      intro a ha
      refine hn a ?_
      rw [show (x :: y :: t).dropLast = x :: (y :: t).dropLast from rfl]
      exact List.mem_cons_of_mem x ha

theorem chainN_of_chain {s : PS} : ∀ xs : List Nat,
    List.Chain' (fun u v => s.next u = some v) xs →
    (∀ hne : xs ≠ [], s.next (xs.getLast hne) = none) →
    chainN s xs
  | [], _, _ => trivial
  | [x], _, hl => hl (by simp)
  | x :: y :: t, hc, hl => by
    rw [List.chain'_cons] at hc
    refine ⟨hc.1, ?_⟩
    refine chainN_of_chain (y :: t) hc.2 ?_
    intro hne
    have := hl (by simp)
    rw [List.getLast_cons (by simp)] at this
    exact this

/-- Breaking the cycle (`head->prev->next = NULL`) turns a well-formed ring
into a NULL-terminated chain over its elements. -/
theorem ringWf_chainN {s : PS} {xs : List Nat} (h : ringWf s xs)
    (hnd : (0 :: xs).Nodup) (hne : xs ≠ []) :
    chainN (s.setNext (xs.getLast hne) none) xs := by
  unfold ringWf at h
  rw [show (0 : Nat) :: xs ++ [0] = (0 :: xs) ++ [0] from rfl,
    List.chain'_append] at h
  obtain ⟨h1, _, _⟩ := h
  have hxs : List.Chain' (adj s) xs := h1.tail
  have hnl : List.Chain' (fun u v => s.next u = some v) xs :=
    List.Chain'.imp (fun a b hab => hab.1) hxs
  have hndxs : xs.Nodup := (List.nodup_cons.mp hnd).2
  refine chainN_of_chain xs ?_ ?_
  · refine chain_next_congr xs ?_ hnl
    intro x hx
    refine setNext_next_ne _ _ x _ ?_
    intro hc
    exact getLast_not_mem_dropLast hne hndxs (hc ▸ hx)
  · intro _
    simp

theorem stackLen_le_nodes : ∀ st : List (Nat × List Nat),
    st.length ≤ (stackNodes st).length
  | [] => Nat.le_refl 0
  | (h, t) :: rest => by
    show rest.length + 1 ≤ ((h :: t) ++ stackNodes rest).length
    simp only [List.length_append, List.length_cons]
    have := stackLen_le_nodes rest
    omega

theorem q_sort_ptr_ring (cmp : Nat → Nat → Bool) (fuel : Nat) (s : PS)
    (xs : List Nat) (h : ringWf s xs) (hnd : (0 :: xs).Nodup)
    (hf : xs.length + 1 ≤ fuel) :
    ∃ ys, List.Perm ys xs ∧ ringWf (q_sort_ptr cmp fuel s) ys := by
  rcases xs with _ | ⟨x, xs1⟩
  · have hz : s.next 0 = some 0 := by simpa using ringWf_next_zero h
    have hp : s.prev 0 = some 0 := by simpa using ringWf_prev_zero h
    refine ⟨[], List.Perm.refl _, ?_⟩
    have hred : q_sort_ptr cmp fuel s = s := by
      simp [q_sort_ptr, hz, hp]
    rw [hred]
    exact h
  rcases xs1 with _ | ⟨y, rest⟩
  · have hz : s.next 0 = some x := by simpa using ringWf_next_zero h
    have hp : s.prev 0 = some x := by simpa using ringWf_prev_zero h
    refine ⟨[x], List.Perm.refl _, ?_⟩
    have hred : q_sort_ptr cmp fuel s = s := by
      simp [q_sort_ptr, hz, hp]
    rw [hred]
    exact h
  -- at least two elements: the sort runs
  have hz : s.next 0 = some x := by simpa using ringWf_next_zero h
  have hp0 : s.prev 0 = some ((0 :: x :: y :: rest).getLast (by simp)) :=
    ringWf_prev_zero h
  have hlast_eq : (0 :: x :: y :: rest).getLast (by simp) =
      (y :: rest).getLast (by simp) := by
    rw [List.getLast_cons, List.getLast_cons]
  have hlast_mem : (y :: rest).getLast (by simp) ∈ y :: rest :=
    List.getLast_mem _
  have hx_ne_last : x ≠ (y :: rest).getLast (by simp) := by
    intro hc
    rw [List.nodup_cons, List.nodup_cons] at hnd
    exact hnd.2.1 (hc ▸ hlast_mem)
  rw [hlast_eq] at hp0
  have hxs_last : (x :: y :: rest).getLast (by simp) =
      (y :: rest).getLast (by simp) := List.getLast_cons (by simp)
  have hndxs : (x :: y :: rest).Nodup := (List.nodup_cons.mp hnd).2
  have hch0 : chainN (s.setNext ((y :: rest).getLast (by simp)) none)
      (x :: y :: rest) := by
    have := ringWf_chainN h hnd (show x :: y :: rest ≠ [] by simp)
    rw [hxs_last] at this
    exact this
  obtain ⟨s1, p0, pt, rstack, heql, hstf, hpermf, hresf⟩ :=
    sortLoop_spec cmp fuel fuel (s.setNext ((y :: rest).getLast (by simp)) none)
      [] none 0 x (y :: rest) rfl hch0 hndxs (by
        simp only [List.length_cons] at hf ⊢
        omega) (by
        simp only [List.length_cons] at hf ⊢
        show (x :: y :: rest).length ≤ fuel
        simp only [List.length_cons]
        omega)
  have hrne : rstack ≠ [] := hresf (by simp)
  rcases rstack with _ | ⟨⟨p1v, t1v⟩, rest2⟩
  · exact absurd rfl hrne
  have hprev_p0 : s1.prev p0 = some p1v := hstf.2.2.1
  have hpermf2 : List.Perm (stackNodes ((p0, pt) :: (p1v, t1v) :: rest2))
      (x :: y :: rest) := hpermf
  have hndstack : (stackNodes ((p0, pt) :: (p1v, t1v) :: rest2)).Nodup :=
    hpermf2.symm.nodup hndxs
  have hst_col : stackCh s1 ((p1v, t1v) :: rest2) (some p1v) := by
    have h2 := hstf.2.2
    rw [hprev_p0] at h2
    exact h2
  have hnd_col : (stackNodes ((p1v, t1v) :: rest2) ++ (p0 :: pt)).Nodup := by
    refine (List.perm_append_comm).nodup ?_
    exact hndstack
  have hlen_nodes : (stackNodes ((p0, pt) :: (p1v, t1v) :: rest2)).length =
      rest.length + 2 := by
    rw [hpermf2.length_eq]
    simp
  obtain ⟨s2, p2, l2, PT, LL, heqc, hcp2, hcl2, hpermc⟩ :=
    collapseGo_spec cmp fuel fuel s1 p1v t1v rest2 p0 pt hst_col hstf.2.1
      hnd_col (by
        have h1 := stackLen_le_nodes ((p0, pt) :: (p1v, t1v) :: rest2)
        rw [hlen_nodes] at h1
        simp only [List.length_cons] at h1 hf ⊢
        omega) (by
        have h1 : (stackNodes ((p1v, t1v) :: rest2) ++ (p0 :: pt)).length =
            rest.length + 2 := by
          rw [(List.perm_append_comm).length_eq]
          show (stackNodes ((p0, pt) :: (p1v, t1v) :: rest2)).length = _
          exact hlen_nodes
        simp only [List.length_cons] at hf
        omega)
  have hperm_final : List.Perm ((p2 :: PT) ++ (l2 :: LL)) (x :: y :: rest) := by
    refine hpermc.trans ?_
    refine (List.perm_append_comm).trans ?_
    show List.Perm ((p0 :: pt) ++ stackNodes ((p1v, t1v) :: rest2)) _
    exact hpermf2
  have hnd_mr : (0 :: ((p2 :: PT) ++ (l2 :: LL))).Nodup := by
    rw [List.nodup_cons]
    refine ⟨?_, hperm_final.symm.nodup hndxs⟩
    intro hc
    rw [List.nodup_cons] at hnd
    exact hnd.1 (hperm_final.subset hc)
  obtain ⟨ys, hpys, hring⟩ :=
    merge_restore_ptr_ring cmp fuel s2 p2 l2 PT LL hcp2 hcl2 hnd_mr (by
      have h1 := hperm_final.length_eq
      simp only [List.length_append, List.length_cons] at h1 hf ⊢
      omega)
  refine ⟨ys, ?_, ?_⟩
  · exact hpys.trans hperm_final
  · have hred : q_sort_ptr cmp fuel s = merge_restore_ptr cmp fuel s2 p2 l2 := by
      simp only [q_sort_ptr, hz]
      rw [if_neg (show ¬(some x : Ptr) = s.prev 0 by
        rw [hp0]
        simp [hx_ne_last])]
      rw [hp0]
      show (match sortLoop cmp fuel fuel
          (s.setNext ((y :: rest).getLast (by simp)) none) none 0 x with
        | (s1, p0) =>
          match s1.prev p0 with
          | none => s1
          | some p1 =>
            match collapseGo cmp fuel fuel s1 p1 p0 with
            | (s2, pfin, lfin) => merge_restore_ptr cmp fuel s2 pfin lfin) = _
      rw [heql]
      show (match s1.prev p0 with
        | none => s1
        | some p1 =>
          match collapseGo cmp fuel fuel s1 p1 p0 with
          | (s2, pfin, lfin) => merge_restore_ptr cmp fuel s2 pfin lfin) = _
      rw [hprev_p0]
      show (match collapseGo cmp fuel fuel s1 p1v p0 with
        | (s2, pfin, lfin) => merge_restore_ptr cmp fuel s2 pfin lfin) = _
      rw [heqc]
    rw [hred]
    exact hring

/-- A concrete two-element ring `0 → 1 → 2 → 0` used to instantiate the link
invariant. -/
def sampleRing : PS :=
  ⟨fun n => if n = 0 then some 1 else if n = 1 then some 2 else
      if n = 2 then some 0 else none,
   fun n => if n = 0 then some 2 else if n = 2 then some 1 else
      if n = 1 then some 0 else none⟩

/-- **C4**: on a well-formed ring every reachable node `x` (the sentinel
included) satisfies `x.next.prev == x` and `x.prev.next == x` with both
neighbours reachable (the ring is a single cycle through the sentinel), and
every operation of the interface preserves well-formedness: `q_insert_head`
(`list_add`), `q_insert_tail` (`list_add_tail`), `q_remove_head`,
`q_remove_tail`, `q_delete_mid` and each deletion of `q_delete_dup` (all
instances of `list_del`), `q_swap`, `q_reverse`, and `q_sort` (for every
comparison oracle, ending on a ring over a permutation of the nodes). -/
theorem q_link_invariant_spec :
    (∀ (s : PS) (xs : List Nat), ringWf s xs →
      ∀ x ∈ 0 :: xs,
        (∃ y ∈ 0 :: xs, s.next x = some y ∧ s.prev y = some x) ∧
        (∃ z ∈ 0 :: xs, s.prev x = some z ∧ s.next z = some x)) ∧
    (∀ (s : PS) (xs : List Nat) (node : Nat), ringWf s xs →
      (0 :: xs).Nodup → node ∉ 0 :: xs →
      ringWf (list_add s node 0) (node :: xs)) ∧
    (∀ (s : PS) (xs : List Nat) (node : Nat), ringWf s xs →
      (0 :: xs).Nodup → node ∉ 0 :: xs →
      ringWf (list_add_tail s node 0) (xs ++ [node])) ∧
    (∀ (s : PS) (u v : List Nat) (node : Nat), ringWf s (u ++ node :: v) →
      (0 :: u ++ node :: v).Nodup →
      ringWf (list_del s node) (u ++ v)) ∧
    (∀ (s : PS) (xs : List Nat) (fuel : Nat), ringWf s xs →
      (0 :: xs).Nodup → xs.length ≤ fuel + 1 →
      ringWf (q_swap_ptr s fuel) (q_swapList xs)) ∧
    (∀ (s : PS) (xs : List Nat) (fuel : Nat), ringWf s xs →
      (0 :: xs).Nodup → xs.length ≤ fuel →
      ringWf (q_reverse_ptr s fuel) (q_reverseList xs)) ∧
    (∀ (cmp : Nat → Nat → Bool) (fuel : Nat) (s : PS) (xs : List Nat),
      ringWf s xs → (0 :: xs).Nodup → xs.length + 1 ≤ fuel →
      ∃ ys, List.Perm ys xs ∧ ringWf (q_sort_ptr cmp fuel s) ys) :=
  ⟨fun _ _ h => ringWf_invariant h,
   fun _ _ _ h hnd hfresh => list_add_ring h hnd hfresh,
   fun _ _ _ h hnd hfresh => list_add_tail_ring h hnd hfresh,
   fun _ _ _ _ h hnd => list_del_ring h hnd,
   fun _ _ fuel h hnd hf => q_swap_ptr_ring fuel h hnd hf,
   fun _ _ fuel h hnd hf => q_reverse_ptr_ring fuel h hnd hf,
   fun cmp fuel s xs h hnd hf => q_sort_ptr_ring cmp fuel s xs h hnd hf⟩

/-- The C4 statement applied to the concrete ring `0 → 1 → 2 → 0`: `q_swap`
leaves it a well-formed ring over the swapped order. -/
theorem q_link_invariant_spec_witness :
    ringWf sampleRing [1, 2] ∧
    ringWf (q_swap_ptr sampleRing 2) (q_swapList [1, 2]) := by
  have h1 : ringWf sampleRing [1, 2] := by
    show List.Chain' (adj sampleRing) [0, 1, 2, 0]
    refine List.chain'_cons.mpr ⟨⟨rfl, rfl⟩, ?_⟩
    refine List.chain'_cons.mpr ⟨⟨rfl, rfl⟩, ?_⟩
    refine List.chain'_cons.mpr ⟨⟨rfl, rfl⟩, ?_⟩
    exact List.chain'_singleton 0
  exact ⟨h1, q_link_invariant_spec.2.2.2.2.1 sampleRing [1, 2] 2 h1
    (by decide) (by decide)⟩

end QueueC
